import Mathlib

/-!
# IMOL file format: load / store of model listings

A shallow embedding of `imol.h` (`igre_load_imol`, `igre_store_imol`,
`igre_free_imol`) and the
properties of the IMOL format proved about it.

Modelling conventions.

* A byte is a `Nat` below `256`, a `uint64_t` a `Nat` below `2 ^ 64`.
* A file is the list of its bytes; the stream position is the unread suffix.
* A pointer to a heap buffer is an `Option`: `none` is `NULL`, `some xs` is a
  buffer holding `xs`.
* The host byte order is a parameter (`byte_order`): the code copies the bytes
  of its integers between memory and file without converting them.
* The results of `fopen`, `calloc` and `fwrite`, which the code cannot
  determine, are inputs: `Option` of the file content, one `Bool` for each
  `calloc` call, one optional byte budget for each `fwrite` call.
* The output stream is buffered: `fwrite` reports what the stream has taken,
  and what reaches the file is decided by the flush in `fclose`, whose outcome
  is an input too (`fclose_file`, `stored_file`).
* Every library call is recorded, in order, in a trace of `io_call`s.
* Open file handles are replayed from the trace (`handles_after`).
* For the heap, the load is embedded a second time with the addresses of its
  buffers (`igre_load_imol_at`, the heap being the list of the live
  addresses), together with `igre_free_imol`; forgetting the addresses gives
  back `igre_load_imol` (`forget_igre_load_imol`).
-/

namespace IMOL

/-! ## Data model -/

/-- Return values of the load and store functions (`enum igre_imol_error`). -/
inductive igre_imol_error where
  | IGRE_OPERATION_SUCCESS
  | IGRE_FILE_OPEN_ERROR
  | IGRE_FILE_READ_ERROR
  | IGRE_FILE_WRITE_ERROR
  | IGRE_MEMORY_ALLOCATION_ERROR
  deriving DecidableEq, Repr

open igre_imol_error

/-- A polygon, `struct igre_polygon`: `uint8_t fill[3]` and
`uint64_t vertexes[3][3]`, the arrays written out as tuples. -/
structure igre_polygon where
  fill : Nat × Nat × Nat
  vertexes : (Nat × Nat × Nat) × (Nat × Nat × Nat) × (Nat × Nat × Nat)
  deriving DecidableEq, Repr

/-- A model, `struct igre_model`: two counters and two owned buffers. -/
structure igre_model where
  name_size : Nat
  no_polygons : Nat
  name : Option (List Nat)
  polygons : Option (List igre_polygon)
  deriving DecidableEq, Repr

/-- The root object, `struct igre_model_listing`. -/
structure igre_model_listing where
  no_models : Nat
  models : Option (List igre_model)
  deriving DecidableEq, Repr

/-- One call into the C library, with what it was asked and what it did.
For `fread` and `fwrite` the last field is the number of bytes transferred. -/
inductive io_call where
  | fopen (ok : Bool)
  | fread (size nmemb got : Nat)
  | fwrite (size nmemb put : Nat)
  | calloc (nmemb size : Nat) (ok : Bool)
  | fclose
  deriving DecidableEq, Repr

/-- Byte order of the host. -/
inductive byte_order where
  | little
  | big
  deriving DecidableEq, Repr

/-! ## Memory images -/

/-- The eight bytes of `n`, least significant first. -/
def le_bytes (n : Nat) : List Nat :=
  [n % 256, n / 256 % 256, n / 256 ^ 2 % 256, n / 256 ^ 3 % 256,
   n / 256 ^ 4 % 256, n / 256 ^ 5 % 256, n / 256 ^ 6 % 256, n / 256 ^ 7 % 256]

/-- The number whose bytes, least significant first, are `bs`. -/
def le_value : List Nat → Nat
  | [] => 0
  | b :: bs => b + 256 * le_value bs

/-- The memory image of a `uint64_t` holding `n`. -/
def encode_u64 : byte_order → Nat → List Nat
  | .little, n => le_bytes n
  | .big, n => (le_bytes n).reverse

/-- The `uint64_t` whose memory image is `bs`. -/
def decode_u64 : byte_order → List Nat → Nat
  | .little, bs => le_value bs
  | .big, bs => le_value bs.reverse

/-- `sizeof(uint64_t)`. -/
def sizeof_u64 : Nat := 8

/-- `sizeof(struct igre_polygon)` under `#pragma pack(push, 1)`: 3 + 9 * 8. -/
def sizeof_polygon : Nat := 75

/-- `sizeof(struct igre_model)` under `#pragma pack(push, 1)` with 8-byte
pointers: two `uint64_t` and two pointers. -/
def sizeof_model : Nat := 32

/-- The memory image of a packed `struct igre_polygon`: the fields in
declaration order without padding, `vertexes` row by row. -/
def polygon_image (e : byte_order) (p : igre_polygon) : List Nat :=
  [p.fill.1 % 256, p.fill.2.1 % 256, p.fill.2.2 % 256]
    ++ encode_u64 e p.vertexes.1.1 ++ encode_u64 e p.vertexes.1.2.1
    ++ encode_u64 e p.vertexes.1.2.2
    ++ encode_u64 e p.vertexes.2.1.1 ++ encode_u64 e p.vertexes.2.1.2.1
    ++ encode_u64 e p.vertexes.2.1.2.2
    ++ encode_u64 e p.vertexes.2.2.1 ++ encode_u64 e p.vertexes.2.2.2.1
    ++ encode_u64 e p.vertexes.2.2.2.2

/-- The `uint64_t` found at byte offset `off` of a memory image. -/
def u64_at (e : byte_order) (bs : List Nat) (off : Nat) : Nat :=
  decode_u64 e ((bs.drop off).take 8)

/-- The `struct igre_polygon` whose memory image is `bs` (75 bytes). -/
def polygon_of_image (e : byte_order) (bs : List Nat) : igre_polygon :=
  { fill := (bs.getD 0 0, bs.getD 1 0, bs.getD 2 0)
    vertexes :=
      ((u64_at e bs 3, u64_at e bs 11, u64_at e bs 19),
       (u64_at e bs 27, u64_at e bs 35, u64_at e bs 43),
       (u64_at e bs 51, u64_at e bs 59, u64_at e bs 67)) }

/-- The memory image of an array of polygons. -/
def polygons_image (e : byte_order) : List igre_polygon → List Nat
  | [] => []
  | p :: ps => polygon_image e p ++ polygons_image e ps

/-- The array of `n` polygons whose memory image is `bs`. -/
def polygons_of_image (e : byte_order) : Nat → List Nat → List igre_polygon
  | 0, _ => []
  | n + 1, bs =>
    polygon_of_image e (bs.take sizeof_polygon)
      :: polygons_of_image e n (bs.drop sizeof_polygon)

/-- Memory after `got` has been copied over the start of `old`. -/
def overlay (got old : List Nat) : List Nat :=
  got ++ old.drop got.length

/-- A model slot of zero bytes, as `calloc` hands it out. -/
def zero_model : igre_model :=
  { name_size := 0, no_polygons := 0, name := none, polygons := none }

/-! ## Loading -/

/-- What `igre_load_imol` has done so far: the unread part of the stream, the
number of `calloc` calls issued, and the library calls made. -/
structure load_state where
  stream : List Nat
  callocs : Nat
  trace : List io_call
  deriving DecidableEq, Repr

/-- What a call of `igre_load_imol` leaves behind: the returned code, the
caller's listing object, and the library calls made. -/
structure load_result where
  status : igre_imol_error
  listing : igre_model_listing
  trace : List io_call
  deriving DecidableEq, Repr

/-- The C library's `fread(ptr, size, nmemb, f)` on a stream: the bytes
obtained (all `size * nmemb` of them, or as many as are left) and the state
after. The value `fread` returns is `items size got`. -/
def fread (size nmemb : Nat) (s : load_state) : List Nat × load_state :=
  (s.stream.take (size * nmemb),
   { s with
     stream := s.stream.drop (size * nmemb)
     trace := s.trace ++ [.fread size nmemb (s.stream.take (size * nmemb)).length] })

/-- The return value of `fread` / `fwrite`: the number of complete items
among the bytes transferred. -/
def items (size : Nat) (bytes : Nat) : Nat := bytes / size

/-- The C library's `calloc(nmemb, size)`: whether it returned a buffer, as
the allocation pattern `alloc` says for this call, and the state after. -/
def calloc (alloc : Nat → Bool) (nmemb size : Nat) (s : load_state) : Bool × load_state :=
  (alloc s.callocs,
   { s with
     callocs := s.callocs + 1
     trace := s.trace ++ [.calloc nmemb size (alloc s.callocs)] })

/-- The C library's `fclose(f)`. -/
def fclose (s : load_state) : load_state :=
  { s with trace := s.trace ++ [.fclose] }

/-- The body of the loop of `igre_load_imol` on the slot `m = models[i]`:
the code to return (success: go on with the next model), the slot and the
state after. -/
def load_model (e : byte_order) (alloc : Nat → Bool) (m : igre_model) (s : load_state) :
    igre_imol_error × igre_model × load_state :=
  -- fread(&models[i].name_size, sizeof(uint64_t), 1, f)
  let r1 := fread sizeof_u64 1 s
  let m1 := { m with name_size := decode_u64 e (overlay r1.1 (encode_u64 e m.name_size)) }
  if items sizeof_u64 r1.1.length = 0 then
    (IGRE_FILE_READ_ERROR, m1, fclose r1.2)
  else
  -- fread(&models[i].no_polygons, sizeof(uint64_t), 1, f)
  let r2 := fread sizeof_u64 1 r1.2
  let m2 := { m1 with no_polygons := decode_u64 e (overlay r2.1 (encode_u64 e m1.no_polygons)) }
  if items sizeof_u64 r2.1.length = 0 then
    (IGRE_FILE_READ_ERROR, m2, fclose r2.2)
  else
  -- models[i].name = calloc(models[i].name_size, sizeof(uint8_t))
  let a3 := calloc alloc m2.name_size 1 r2.2
  if a3.1 = false then
    (IGRE_MEMORY_ALLOCATION_ERROR, { m2 with name := none }, fclose a3.2)
  else
  let m3 := { m2 with name := some (List.replicate m2.name_size 0) }
  -- models[i].polygons = calloc(models[i].no_polygons, sizeof(struct igre_polygon))
  let a4 := calloc alloc m3.no_polygons sizeof_polygon a3.2
  if a4.1 = false then
    (IGRE_MEMORY_ALLOCATION_ERROR, { m3 with polygons := none }, fclose a4.2)
  else
  let m4 := { m3 with
    polygons := some (polygons_of_image e m3.no_polygons
      (List.replicate (sizeof_polygon * m3.no_polygons) 0)) }
  -- fread(models[i].name, sizeof(uint8_t), models[i].name_size, f)
  let r5 := fread 1 m4.name_size a4.2
  let m5 := { m4 with name := some (overlay r5.1 (List.replicate m4.name_size 0)) }
  if items 1 r5.1.length = 0 then
    (IGRE_FILE_READ_ERROR, m5, fclose r5.2)
  else
  -- fread(models[i].polygons, sizeof(struct igre_polygon), models[i].no_polygons, f)
  let r6 := fread sizeof_polygon m5.no_polygons r5.2
  let m6 := { m5 with
    polygons := some (polygons_of_image e m5.no_polygons
      (overlay r6.1 (List.replicate (sizeof_polygon * m5.no_polygons) 0))) }
  if items sizeof_polygon r6.1.length = m6.no_polygons then
    (IGRE_OPERATION_SUCCESS, m6, r6.2)
  else
    (IGRE_FILE_READ_ERROR, m6, fclose r6.2)

/-- The loop `for(uint64_t i = 0; i < no_models; i++)` of `igre_load_imol`,
with `k = no_models - i` iterations to go, on the model array `ms`. The slot
`models[i]` exists in every iteration, the array having `no_models` slots. -/
def load_loop (e : byte_order) (alloc : Nat → Bool) :
    Nat → Nat → List igre_model → load_state → igre_imol_error × List igre_model × load_state
  | 0, _, ms, s => (IGRE_OPERATION_SUCCESS, ms, fclose s)
  | k + 1, i, ms, s =>
    let r := load_model e alloc (ms.getD i zero_model) s
    if r.1 = IGRE_OPERATION_SUCCESS then
      load_loop e alloc k (i + 1) (ms.set i r.2.1) r.2.2
    else
      (r.1, ms.set i r.2.1, r.2.2)

/-- The function `igre_load_imol`. `file` is the content of the file named
`fileName`, or `none` when it cannot be opened; `alloc` tells of every
`calloc` call, by its number, whether it returns a buffer; `l` is the
caller's listing object before the call. -/
def igre_load_imol (e : byte_order) (file : Option (List Nat)) (alloc : Nat → Bool)
    (l : igre_model_listing) : load_result :=
  match file with
  | none => { status := IGRE_FILE_OPEN_ERROR, listing := l, trace := [.fopen false] }
  | some bytes =>
    let s0 : load_state := { stream := bytes, callocs := 0, trace := [.fopen true] }
    -- fread(&modelListing->no_models, sizeof(uint64_t), 1, f)
    let r1 := fread sizeof_u64 1 s0
    let l1 := { l with no_models := decode_u64 e (overlay r1.1 (encode_u64 e l.no_models)) }
    if items sizeof_u64 r1.1.length = 0 then
      { status := IGRE_FILE_READ_ERROR, listing := l1, trace := (fclose r1.2).trace }
    else
    -- modelListing->models = calloc(modelListing->no_models, sizeof(struct igre_model))
    let a2 := calloc alloc l1.no_models sizeof_model r1.2
    if a2.1 = false then
      { status := IGRE_MEMORY_ALLOCATION_ERROR, listing := { l1 with models := none },
        trace := (fclose a2.2).trace }
    else
    let r := load_loop e alloc l1.no_models 0 (List.replicate l1.no_models zero_model) a2.2
    { status := r.1, listing := { l1 with models := some r.2.1 }, trace := r.2.2.trace }

/-! ## Storing -/

/-- What `igre_store_imol` has done so far: the bytes the stream has taken
(those the `fwrite` calls have reported as written), the number of `fwrite`
calls issued, and the library calls made. The stream is buffered: what it has
taken reaches the file when it is flushed, see `fclose_file`. -/
structure store_state where
  out : List Nat
  fwrites : Nat
  trace : List io_call
  deriving DecidableEq, Repr

/-- What a call of `igre_store_imol` leaves behind: the returned code, the
bytes the stream has taken (those the `fwrite` calls have reported as
written), and the library calls made. The bytes in the file after the call
are `stored_file`. -/
structure store_result where
  status : igre_imol_error
  written : List Nat
  trace : List io_call
  deriving DecidableEq, Repr

/-- The number of bytes the `fwrite` call number `k` reports as written when
asked for `req`: all of them, or no more than the budget `wr k` allows. -/
def bytes_put (wr : Nat → Option Nat) (k req : Nat) : Nat :=
  match wr k with
  | none => req
  | some cap => min cap req

/-- The C library's `fwrite(ptr, size, nmemb, f)`, `data` being the
`size * nmemb` bytes found at `ptr`. The value `fwrite` returns is
`items size put` for the number `put` of bytes the stream has taken; `out`
collects them. Whether they reach the file is decided when the stream is
flushed, see `fclose_file`. -/
def fwrite (wr : Nat → Option Nat) (size nmemb : Nat) (data : List Nat) (s : store_state) :
    Nat × store_state :=
  (bytes_put wr s.fwrites data.length,
   { out := s.out ++ data.take (bytes_put wr s.fwrites data.length)
     fwrites := s.fwrites + 1
     trace := s.trace ++ [.fwrite size nmemb (bytes_put wr s.fwrites data.length)] })

/-- The call `fclose(f)` on the stream being written, as `igre_store_imol`
sees it: the code discards the value it returns. What the call does to the
file is `fclose_file`. -/
def fclose_out (s : store_state) : store_state :=
  { s with trace := s.trace ++ [.fclose] }

/-- The first `n` elements behind the pointer `p`, which `fwrite` reads;
`none` when the buffer does not hold that many (the access is undefined). -/
def read_buffer {α : Type} (p : Option (List α)) (n : Nat) : Option (List α) :=
  match p with
  | some xs => if n ≤ xs.length then some (xs.take n) else none
  | none => if n = 0 then some [] else none

/-- The body of the loop of `igre_store_imol` on the model `m = models[i]`:
the code to return (success: go on with the next model) and the state after;
`none` when the model's buffers are shorter than its counters say. -/
def store_model (e : byte_order) (wr : Nat → Option Nat) (m : igre_model) (s : store_state) :
    Option (igre_imol_error × store_state) :=
  -- fwrite(&models[i].name_size, sizeof(uint64_t), 1, f)
  let w1 := fwrite wr sizeof_u64 1 (encode_u64 e m.name_size) s
  if items sizeof_u64 w1.1 = 0 then
    some (IGRE_FILE_WRITE_ERROR, fclose_out w1.2)
  else
  -- fwrite(&models[i].no_polygons, sizeof(uint64_t), 1, f)
  let w2 := fwrite wr sizeof_u64 1 (encode_u64 e m.no_polygons) w1.2
  if items sizeof_u64 w2.1 = 0 then
    some (IGRE_FILE_WRITE_ERROR, fclose_out w2.2)
  else
  -- fwrite(models[i].name, sizeof(uint8_t), models[i].name_size, f) == models[i].name_size
  match read_buffer m.name m.name_size with
  | none => none
  | some nm =>
    let w3 := fwrite wr 1 m.name_size nm w2.2
    if items 1 w3.1 = m.name_size then
      -- fwrite(models[i].polygons, sizeof(struct igre_polygon), models[i].no_polygons, f)
      --   == models[i].no_polygons
      match read_buffer m.polygons m.no_polygons with
      | none => none
      | some ps =>
        let w4 := fwrite wr sizeof_polygon m.no_polygons (polygons_image e ps) w3.2
        if items sizeof_polygon w4.1 = m.no_polygons then
          some (IGRE_OPERATION_SUCCESS, w4.2)
        else
          some (IGRE_FILE_WRITE_ERROR, fclose_out w4.2)
    else
      some (IGRE_FILE_WRITE_ERROR, fclose_out w3.2)

/-- The loop `for(uint64_t i = 0; i < no_models; i++)` of `igre_store_imol`,
with `k = no_models - i` iterations to go; `none` when `models[i]` lies
outside the model array. -/
def store_loop (e : byte_order) (wr : Nat → Option Nat) (models : Option (List igre_model)) :
    Nat → Nat → store_state → Option (igre_imol_error × store_state)
  | 0, _, s => some (IGRE_OPERATION_SUCCESS, fclose_out s)
  | k + 1, i, s =>
    match models.bind (fun ms => ms.get? i) with
    | none => none
    | some m =>
      match store_model e wr m s with
      | none => none
      | some r =>
        if r.1 = IGRE_OPERATION_SUCCESS then
          store_loop e wr models k (i + 1) r.2
        else
          some r

/-- The function `igre_store_imol`. `opens` tells whether the file can be
opened for writing; `wr` gives every `fwrite` call, by its number, its byte
budget (`none`: the call writes all it was given); `l` is the listing. The
result is `none` when the call reads outside a buffer of the listing. -/
def igre_store_imol (e : byte_order) (opens : Bool) (wr : Nat → Option Nat)
    (l : igre_model_listing) : Option store_result :=
  if opens = false then
    some { status := IGRE_FILE_OPEN_ERROR, written := [], trace := [.fopen false] }
  else
  let s0 : store_state := { out := [], fwrites := 0, trace := [.fopen true] }
  -- fwrite(&modelListing->no_models, sizeof(uint64_t), 1, f)
  let w1 := fwrite wr sizeof_u64 1 (encode_u64 e l.no_models) s0
  if items sizeof_u64 w1.1 = 0 then
    some { status := IGRE_FILE_WRITE_ERROR, written := w1.2.out, trace := (fclose_out w1.2).trace }
  else
    (store_loop e wr l.models l.no_models 0 w1.2).map
      (fun r => { status := r.1, written := r.2.out, trace := r.2.trace })

/-- The C library's `fclose(f)` on the stream being written, seen from the
file. The stream is buffered: the bytes `fwrite` has taken reach the file
when the buffer is flushed, at `fclose` at the latest, and the flush can
fail. `flush` is its outcome: `none` when the device takes every byte,
`some cap` when it takes the first `cap` bytes of the stream and no more.
The result is whether `fclose` returns 0, which it does when no byte of the
stream is left behind, and the bytes in the file. -/
def fclose_file (flush : Option Nat) (taken : List Nat) : Bool × List Nat :=
  match flush with
  | none => (true, taken)
  | some cap => ((taken.drop cap).isEmpty, taken.take cap)

/-- The bytes in the file after a call of `igre_store_imol`, `flush` being
the outcome of flushing the stream. Every return of the code after a
successful open is preceded by `fclose(f)`, whose value it discards: the
status of the call does not depend on `flush`. -/
def stored_file (flush : Option Nat) (w : store_result) : List Nat :=
  (fclose_file flush w.written).2

/-! ## Listings in memory -/

/-- The elements behind a pointer; none behind `NULL`. -/
def contents {α : Type} (p : Option (List α)) : List α :=
  p.getD []

/-- The fields of a polygon fit their C types. -/
def valid_polygon (p : igre_polygon) : Prop :=
  (p.fill.1 < 256 ∧ p.fill.2.1 < 256 ∧ p.fill.2.2 < 256) ∧
  (p.vertexes.1.1 < 2 ^ 64 ∧ p.vertexes.1.2.1 < 2 ^ 64 ∧ p.vertexes.1.2.2 < 2 ^ 64) ∧
  (p.vertexes.2.1.1 < 2 ^ 64 ∧ p.vertexes.2.1.2.1 < 2 ^ 64 ∧ p.vertexes.2.1.2.2 < 2 ^ 64) ∧
  (p.vertexes.2.2.1 < 2 ^ 64 ∧ p.vertexes.2.2.2.1 < 2 ^ 64 ∧ p.vertexes.2.2.2.2 < 2 ^ 64)

instance (p : igre_polygon) : Decidable (valid_polygon p) := by
  unfold valid_polygon; infer_instance

/-- The fields of a model fit their C types, its name length is the number
of its name bytes and its polygon count the number of its polygons. -/
def valid_model (m : igre_model) : Prop :=
  m.name_size < 2 ^ 64 ∧ m.no_polygons < 2 ^ 64 ∧
  (contents m.name).length = m.name_size ∧ (∀ b ∈ contents m.name, b < 256) ∧
  (contents m.polygons).length = m.no_polygons ∧ (∀ p ∈ contents m.polygons, valid_polygon p)

instance (m : igre_model) : Decidable (valid_model m) := by
  unfold valid_model; infer_instance

/-- The model count of a listing fits its C type and is the number of its
models, and every model is valid. -/
def valid_listing (l : igre_model_listing) : Prop :=
  l.no_models < 2 ^ 64 ∧ (contents l.models).length = l.no_models ∧
  ∀ m ∈ contents l.models, valid_model m

instance (l : igre_model_listing) : Decidable (valid_listing l) := by
  unfold valid_listing; infer_instance

/-- Every model of the listing has a name of at least one byte. -/
def names_nonempty (l : igre_model_listing) : Prop :=
  ∀ m ∈ contents l.models, 1 ≤ m.name_size

instance (l : igre_model_listing) : Decidable (names_nonempty l) := by
  unfold names_nonempty; infer_instance

/-- What a model holds: name length, polygon count, name bytes, polygons. -/
def model_content (m : igre_model) : Nat × Nat × List Nat × List igre_polygon :=
  (m.name_size, m.no_polygons, contents m.name, contents m.polygons)

/-- What a listing holds: the model count and, in order, what each model
holds. Two listings with the same content differ at most in their
addresses. -/
def listing_content (l : igre_model_listing) :
    Nat × List (Nat × Nat × List Nat × List igre_polygon) :=
  (l.no_models, (contents l.models).map model_content)

/-- The model `m` as `igre_load_imol` builds it: with both buffers
allocated, also when they hold nothing. -/
def loaded_model (m : igre_model) : igre_model :=
  { name_size := m.name_size, no_polygons := m.no_polygons
    name := some (contents m.name), polygons := some (contents m.polygons) }

/-- The listing `l` as `igre_load_imol` builds it. -/
def loaded_listing (l : igre_model_listing) : igre_model_listing :=
  { no_models := l.no_models, models := some ((contents l.models).map loaded_model) }

/-- The coordinate `vertexes[v][c]` of a polygon. -/
def vertex_coord (p : igre_polygon) (v c : Nat) : Nat :=
  let row := match v with
    | 0 => p.vertexes.1
    | 1 => p.vertexes.2.1
    | _ => p.vertexes.2.2
  match c with
  | 0 => row.1
  | 1 => row.2.1
  | _ => row.2.2

/-! ## The file format, as the specification words it -/

/-- A polygon record: the fill bytes R, G, B, then the nine coordinates
A.x, A.y, A.z, B.x, B.y, B.z, C.x, C.y, C.z as 8-byte integers. -/
def polygon_record (e : byte_order) (p : igre_polygon) : List Nat :=
  [p.fill.1, p.fill.2.1, p.fill.2.2] ++
    ([p.vertexes.1.1, p.vertexes.1.2.1, p.vertexes.1.2.2,
      p.vertexes.2.1.1, p.vertexes.2.1.2.1, p.vertexes.2.1.2.2,
      p.vertexes.2.2.1, p.vertexes.2.2.2.1, p.vertexes.2.2.2.2].map (encode_u64 e)).flatten

/-- A model record: name length, polygon count, the name bytes, the polygon
records. -/
def model_record (e : byte_order) (m : igre_model) : List Nat :=
  encode_u64 e m.name_size ++ encode_u64 e m.no_polygons ++ contents m.name ++
    ((contents m.polygons).map (polygon_record e)).flatten

/-- A file: the model count, then the model records. -/
def listing_file (e : byte_order) (l : igre_model_listing) : List Nat :=
  encode_u64 e l.no_models ++ ((contents l.models).map (model_record e)).flatten

/-- The size of a file holding models of the given name lengths and polygon
counts: `8 + sum (16 + L + 75 * P)`. -/
def listing_file_size (l : igre_model_listing) : Nat :=
  8 + ((contents l.models).map (fun m => 16 + m.name_size + 75 * m.no_polygons)).sum

/-- The bytes `bs` are exactly `n` model records of the grammar
`Model := NameLen:u64 PolyCount:u64 Name:u8*(NameLen) Polygon*(PolyCount)`,
every `NameLen` being at least `min_name`, and nothing else. -/
def models_shape (e : byte_order) (min_name : Nat) : Nat → List Nat → Bool
  | 0, bs => bs.isEmpty
  | n + 1, bs =>
    decide (16 ≤ bs.length) &&
    decide (min_name ≤ decode_u64 e (bs.take 8)) &&
    decide (16 + decode_u64 e (bs.take 8) + 75 * decode_u64 e ((bs.drop 8).take 8)
      ≤ bs.length) &&
    models_shape e min_name n
      (bs.drop (16 + decode_u64 e (bs.take 8) + 75 * decode_u64 e ((bs.drop 8).take 8)))

/-- The bytes `bs` match the grammar `Listing := ModelCount:u64
Model*(ModelCount)` exactly, every `NameLen` being at least `min_name`. -/
def listing_shape (e : byte_order) (min_name : Nat) (bs : List Nat) : Bool :=
  decide (8 ≤ bs.length) && models_shape e min_name (decode_u64 e (bs.take 8)) (bs.drop 8)

/-- The listing of the two-model scenario: "A\0" with one red polygon on
(0,0,0), (1,0,0), (0,1,0), and "BB\0" without polygons. -/
def scenario_listing : igre_model_listing :=
  { no_models := 2
    models := some
      [ { name_size := 2, no_polygons := 1, name := some [65, 0]
          polygons := some [{ fill := (255, 0, 0), vertexes := ((0, 0, 0), (1, 0, 0), (0, 1, 0)) }] },
        { name_size := 3, no_polygons := 0, name := some [66, 66, 0], polygons := some [] } ] }

/-! ## Reading traces -/

/-- A `calloc` call that returned `NULL`. -/
def failed_calloc : io_call → Bool
  | .calloc _ _ false => true
  | _ => false

/-- A `fwrite` call that wrote fewer bytes than the `size * nmemb` asked. -/
def short_write : io_call → Bool
  | .fwrite size nmemb put => decide (put < size * nmemb)
  | _ => false

/-- A `fread` call that obtained fewer bytes than the `size * nmemb` asked. -/
def short_read : io_call → Bool
  | .fread size nmemb got => decide (got < size * nmemb)
  | _ => false

/-! ## What a stream declares -/

/-- The name length, polygon count and name bytes of the models a stream
declares, read in order for up to `n` models: each model is an 8-byte name
length `L`, an 8-byte polygon count `P`, the `L` name bytes and `P` polygon
records. Reading stops where fewer than the 16 bytes of the two counts are
left. -/
def stream_models (e : byte_order) : Nat → List Nat → List (Nat × Nat × List Nat)
  | 0, _ => []
  | n + 1, bs =>
    if bs.length < 16 then []
    else
      (decode_u64 e (bs.take 8), decode_u64 e ((bs.drop 8).take 8),
        (bs.drop 16).take (decode_u64 e (bs.take 8)))
      :: stream_models e n
        (bs.drop (16 + decode_u64 e (bs.take 8) + 75 * decode_u64 e ((bs.drop 8).take 8)))

/-! ## File handles -/

/-- The open file handles of the process, the handle `f` of the running
call, and the numbers of `fopen` and `fclose` calls it has made. -/
structure handle_state where
  open_handles : List Nat
  f : Option Nat
  fopens : Nat
  fcloses : Nat
  deriving DecidableEq, Repr

/-- A call that reads or writes through `f`: `f` has to be an open handle. -/
def handle_use (st : handle_state) : Option handle_state :=
  match st.f with
  | none => none
  | some h => if h ∈ st.open_handles then some st else none

/-- The effect of one library call on the file handles; `pick` is the handle
a successful `fopen` returns. The result is `none` when the call uses a handle
that is not open. -/
def handle_step (pick : List Nat → Nat) (st : handle_state) : io_call → Option handle_state
  | .fopen true =>
    some { open_handles := pick st.open_handles :: st.open_handles
           f := some (pick st.open_handles)
           fopens := st.fopens + 1
           fcloses := st.fcloses }
  | .fopen false => some { st with f := none, fopens := st.fopens + 1 }
  | .fread _ _ _ => handle_use st
  | .fwrite _ _ _ => handle_use st
  | .calloc _ _ _ => some st
  | .fclose =>
    match st.f with
    | none => none
    | some h =>
      if h ∈ st.open_handles then
        some { st with open_handles := st.open_handles.erase h, fcloses := st.fcloses + 1 }
      else none

/-- The file handles after a sequence of library calls. -/
def handles_after (pick : List Nat → Nat) : List io_call → handle_state → Option handle_state
  | [], st => some st
  | ev :: t, st => (handle_step pick st ev).bind (handles_after pick t)

/-! ## Memory effects of library calls -/

/-- A library call that neither writes to the caller's memory nor allocates
or frees a buffer: `fopen`, `fwrite` (which only reads what it is given) and
`fclose`. -/
def leaves_memory : io_call → Bool
  | .fopen _ => true
  | .fwrite _ _ _ => true
  | .fclose => true
  | .fread _ _ _ => false
  | .calloc _ _ _ => false

/-- The caller's memory, a listing and the live heap buffers, after a
sequence of library calls none of which writes to memory, allocates or frees;
`none` when a call does, its effect depending on where it writes. -/
def memory_after (t : List io_call) (mem : igre_model_listing × List Nat) :
    Option (igre_model_listing × List Nat) :=
  match t with
  | [] => some mem
  | ev :: t => if leaves_memory ev then memory_after t mem else none

/-! ## The heap

The same load, with the addresses of the buffers: a non-null pointer is the
address of a heap buffer together with what the buffer holds, and the heap is
the list of the addresses of its live buffers, in allocation order. -/

/-- A heap buffer: its address and what it holds. -/
structure buffer (α : Type) where
  addr : Nat
  data : List α
  deriving DecidableEq, Repr

/-- A model, `struct igre_model`, with the addresses its pointers hold. -/
structure igre_model_at where
  name_size : Nat
  no_polygons : Nat
  name : Option (buffer Nat)
  polygons : Option (buffer igre_polygon)
  deriving DecidableEq, Repr

/-- The root object, `struct igre_model_listing`, with the address its
pointer holds. -/
structure igre_model_listing_at where
  no_models : Nat
  models : Option (buffer igre_model_at)
  deriving DecidableEq, Repr

/-- A model without its addresses. -/
def forget_model (m : igre_model_at) : igre_model :=
  { name_size := m.name_size, no_polygons := m.no_polygons
    name := m.name.map (fun b => b.data), polygons := m.polygons.map (fun b => b.data) }

/-- A listing without its addresses. -/
def forget_listing (l : igre_model_listing_at) : igre_model_listing :=
  { no_models := l.no_models, models := l.models.map (fun b => b.data.map forget_model) }

/-- A model slot of zero bytes, as `calloc` hands it out. -/
def zero_model_at : igre_model_at :=
  { name_size := 0, no_polygons := 0, name := none, polygons := none }

/-- What `igre_load_imol` has done so far, and the live heap buffers. -/
structure heap_state where
  io : load_state
  live : List Nat
  deriving DecidableEq, Repr

/-- What a call of `igre_load_imol` leaves behind, with the live heap buffers
and the value of the loop counter `i` at the return (0 before the loop). -/
structure heap_load_result where
  status : igre_imol_error
  listing : igre_model_listing_at
  trace : List io_call
  live : List Nat
  reached : Nat
  deriving DecidableEq, Repr

/-- The C library's `calloc(nmemb, size)` with the address it returns: `none`
for `NULL`, else the address `pick` chooses for the new buffer, which becomes
live. -/
def calloc_at (alloc : Nat → Bool) (pick : List Nat → Nat) (nmemb size : Nat)
    (s : heap_state) : Option Nat × heap_state :=
  if (calloc alloc nmemb size s.io).1 = false then
    (none, { s with io := (calloc alloc nmemb size s.io).2 })
  else
    (some (pick s.live),
     { io := (calloc alloc nmemb size s.io).2, live := s.live ++ [pick s.live] })

/-- The body of the loop of `igre_load_imol` on the slot `m = models[i]`,
with addresses. -/
def load_model_at (e : byte_order) (alloc : Nat → Bool) (pick : List Nat → Nat)
    (m : igre_model_at) (s : heap_state) : igre_imol_error × igre_model_at × heap_state :=
  -- fread(&models[i].name_size, sizeof(uint64_t), 1, f)
  let r1 := fread sizeof_u64 1 s.io
  let m1 := { m with name_size := decode_u64 e (overlay r1.1 (encode_u64 e m.name_size)) }
  if items sizeof_u64 r1.1.length = 0 then
    (IGRE_FILE_READ_ERROR, m1, { s with io := fclose r1.2 })
  else
  -- fread(&models[i].no_polygons, sizeof(uint64_t), 1, f)
  let r2 := fread sizeof_u64 1 r1.2
  let m2 := { m1 with no_polygons := decode_u64 e (overlay r2.1 (encode_u64 e m1.no_polygons)) }
  if items sizeof_u64 r2.1.length = 0 then
    (IGRE_FILE_READ_ERROR, m2, { s with io := fclose r2.2 })
  else
  -- models[i].name = calloc(models[i].name_size, sizeof(uint8_t))
  let a3 := calloc_at alloc pick m2.name_size 1 { s with io := r2.2 }
  match a3.1 with
  | none =>
    (IGRE_MEMORY_ALLOCATION_ERROR, { m2 with name := none },
      { a3.2 with io := fclose a3.2.io })
  | some p3 =>
    let m3 := { m2 with name := some { addr := p3, data := List.replicate m2.name_size 0 } }
    -- models[i].polygons = calloc(models[i].no_polygons, sizeof(struct igre_polygon))
    let a4 := calloc_at alloc pick m3.no_polygons sizeof_polygon a3.2
    match a4.1 with
    | none =>
      (IGRE_MEMORY_ALLOCATION_ERROR, { m3 with polygons := none },
        { a4.2 with io := fclose a4.2.io })
    | some p4 =>
      let m4 := { m3 with
        polygons := some
          { addr := p4
            data := polygons_of_image e m3.no_polygons
              (List.replicate (sizeof_polygon * m3.no_polygons) 0) } }
      -- fread(models[i].name, sizeof(uint8_t), models[i].name_size, f)
      let r5 := fread 1 m4.name_size a4.2.io
      let m5 := { m4 with
        name := some { addr := p3, data := overlay r5.1 (List.replicate m4.name_size 0) } }
      if items 1 r5.1.length = 0 then
        (IGRE_FILE_READ_ERROR, m5, { a4.2 with io := fclose r5.2 })
      else
      -- fread(models[i].polygons, sizeof(struct igre_polygon), models[i].no_polygons, f)
      let r6 := fread sizeof_polygon m5.no_polygons r5.2
      let m6 := { m5 with
        polygons := some
          { addr := p4
            data := polygons_of_image e m5.no_polygons
              (overlay r6.1 (List.replicate (sizeof_polygon * m5.no_polygons) 0)) } }
      if items sizeof_polygon r6.1.length = m6.no_polygons then
        (IGRE_OPERATION_SUCCESS, m6, { a4.2 with io := r6.2 })
      else
        (IGRE_FILE_READ_ERROR, m6, { a4.2 with io := fclose r6.2 })

/-- The loop `for(uint64_t i = 0; i < no_models; i++)` of `igre_load_imol`
with addresses, `k = no_models - i` iterations to go; the second component of
the result is the value of `i` at the return. -/
def load_loop_at (e : byte_order) (alloc : Nat → Bool) (pick : List Nat → Nat) :
    Nat → Nat → List igre_model_at → heap_state →
      igre_imol_error × Nat × List igre_model_at × heap_state
  | 0, i, ms, s => (IGRE_OPERATION_SUCCESS, i, ms, { s with io := fclose s.io })
  | k + 1, i, ms, s =>
    let r := load_model_at e alloc pick (ms.getD i zero_model_at) s
    if r.1 = IGRE_OPERATION_SUCCESS then
      load_loop_at e alloc pick k (i + 1) (ms.set i r.2.1) r.2.2
    else
      (r.1, i, ms.set i r.2.1, r.2.2)

/-- The function `igre_load_imol` with addresses: `pick` chooses the address
of every new buffer from the live ones, `l` and `live` are the caller's
listing object and the live heap buffers before the call. -/
def igre_load_imol_at (e : byte_order) (file : Option (List Nat)) (alloc : Nat → Bool)
    (pick : List Nat → Nat) (l : igre_model_listing_at) (live : List Nat) :
    heap_load_result :=
  match file with
  | none =>
    { status := IGRE_FILE_OPEN_ERROR, listing := l, trace := [.fopen false], live := live,
      reached := 0 }
  | some bytes =>
    let s0 : load_state := { stream := bytes, callocs := 0, trace := [.fopen true] }
    -- fread(&modelListing->no_models, sizeof(uint64_t), 1, f)
    let r1 := fread sizeof_u64 1 s0
    let l1 := { l with no_models := decode_u64 e (overlay r1.1 (encode_u64 e l.no_models)) }
    if items sizeof_u64 r1.1.length = 0 then
      { status := IGRE_FILE_READ_ERROR, listing := l1, trace := (fclose r1.2).trace,
        live := live, reached := 0 }
    else
    -- modelListing->models = calloc(modelListing->no_models, sizeof(struct igre_model))
    let a2 := calloc_at alloc pick l1.no_models sizeof_model { io := r1.2, live := live }
    match a2.1 with
    | none =>
      { status := IGRE_MEMORY_ALLOCATION_ERROR, listing := { l1 with models := none },
        trace := (fclose a2.2.io).trace, live := a2.2.live, reached := 0 }
    | some p2 =>
      let r := load_loop_at e alloc pick l1.no_models 0
        (List.replicate l1.no_models zero_model_at) a2.2
      { status := r.1
        listing := { l1 with models := some { addr := p2, data := r.2.2.1 } }
        trace := r.2.2.2.io.trace, live := r.2.2.2.live, reached := r.2.1 }

/-! ## Freeing -/

/-- What `igre_free_imol` has done so far: the live heap buffers and the
addresses of the buffers it has freed, in order. -/
structure free_state where
  live : List Nat
  freed : List Nat
  deriving DecidableEq, Repr

/-- The C library's `free(p)`: nothing for `NULL`; a live buffer stops being
live; `none` when the buffer is not live (the call is undefined). -/
def free {α : Type} (p : Option (buffer α)) (st : free_state) : Option free_state :=
  match p with
  | none => some st
  | some b =>
    if b.addr ∈ st.live then
      some { live := st.live.erase b.addr, freed := st.freed ++ [b.addr] }
    else none

/-- The slot `models[i]`, read from the model array; `none` when the array
is null or not live, or has no slot `i`. -/
def model_slot (models : Option (buffer igre_model_at)) (i : Nat) (st : free_state) :
    Option igre_model_at :=
  match models with
  | none => none
  | some b => if b.addr ∈ st.live then b.data.get? i else none

/-- The loop `for(uint64_t i = 0; i < no_models; i++)` of `igre_free_imol`,
with `k = no_models - i` iterations to go. -/
def free_loop (models : Option (buffer igre_model_at)) :
    Nat → Nat → free_state → Option free_state
  | 0, _, st => some st
  | k + 1, i, st =>
    match model_slot models i st with
    | none => none
    | some m =>
      -- free(models[i].name); free(models[i].polygons)
      ((free m.name st).bind (free m.polygons)).bind (free_loop models k (i + 1))

/-- The function `igre_free_imol` on a listing and the live heap buffers;
`none` when it reads outside the model array or frees a buffer that is not
live. -/
def igre_free_imol (l : igre_model_listing_at) (live : List Nat) : Option free_state :=
  (free_loop l.models l.no_models 0 { live := live, freed := [] }).bind
    -- free(modelListing->models)
    (free l.models)

/-- The addresses a model slot holds: its name buffer, then its polygon
array. -/
def slot_buffers (m : igre_model_at) : List Nat :=
  (m.name.map (fun b => b.addr)).toList ++ (m.polygons.map (fun b => b.addr)).toList

/-- An address that no live buffer has: one more than the greatest. -/
def next_address (live : List Nat) : Nat :=
  live.foldr max 0 + 1

/-! ## Integers and their memory images -/

theorem le_value_le_bytes (n : Nat) (h : n < 2 ^ 64) : le_value (le_bytes n) = n := by
  simp only [le_bytes, le_value]
  omega

theorem encode_u64_length (e : byte_order) (n : Nat) : (encode_u64 e n).length = 8 := by
  cases e <;> simp [encode_u64, le_bytes]

theorem decode_encode_u64 (e : byte_order) (n : Nat) (h : n < 2 ^ 64) :
    decode_u64 e (encode_u64 e n) = n := by
  cases e
  · exact le_value_le_bytes n h
  · simp only [encode_u64, decode_u64, List.reverse_reverse]
    exact le_value_le_bytes n h

theorem le_value_lt (bs : List Nat) (hb : ∀ b ∈ bs, b < 256) :
    le_value bs < 256 ^ bs.length := by
  induction bs with
  | nil => simp [le_value]
  | cons b bs ih =>
    have h1 := hb b (by simp)
    have h2 := ih (fun x hx => hb x (by simp [hx]))
    simp only [le_value, List.length_cons, pow_succ]
    omega

theorem le_bytes_le_value (bs : List Nat) (hl : bs.length = 8) (hb : ∀ b ∈ bs, b < 256) :
    le_bytes (le_value bs) = bs := by
  match bs, hl with
  | [b0, b1, b2, b3, b4, b5, b6, b7], _ =>
    simp only [List.mem_cons, List.mem_singleton, forall_eq_or_imp, forall_eq, List.not_mem_nil,
      IsEmpty.forall_iff, implies_true, and_true] at hb
    obtain ⟨h0, h1, h2, h3, h4, h5, h6, h7⟩ := hb
    simp only [le_bytes, le_value]
    simp only [List.cons.injEq, and_true]
    refine ⟨?_, ?_, ?_, ?_, ?_, ?_, ?_, ?_⟩ <;> omega

theorem encode_decode_u64 (e : byte_order) (bs : List Nat) (hl : bs.length = 8)
    (hb : ∀ b ∈ bs, b < 256) : encode_u64 e (decode_u64 e bs) = bs := by
  cases e
  · exact le_bytes_le_value bs hl hb
  · simp only [encode_u64, decode_u64]
    rw [le_bytes_le_value bs.reverse (by simpa using hl) (by simpa using hb), List.reverse_reverse]

theorem decode_u64_lt (e : byte_order) (bs : List Nat) (hl : bs.length = 8)
    (hb : ∀ b ∈ bs, b < 256) : decode_u64 e bs < 2 ^ 64 := by
  have key : ∀ cs : List Nat, cs.length = 8 → (∀ b ∈ cs, b < 256) → le_value cs < 2 ^ 64 := by
    intro cs hc hcb
    have := le_value_lt cs hcb
    rw [hc] at this
    exact this
  cases e
  · exact key bs hl hb
  · exact key bs.reverse (by simpa using hl) (by simpa using hb)

theorem encode_u64_bytes (e : byte_order) (n : Nat) : ∀ b ∈ encode_u64 e n, b < 256 := by
  intro b hb
  cases e <;>
    simp only [encode_u64, le_bytes, List.mem_reverse, List.mem_cons, List.mem_singleton,
      List.not_mem_nil, or_false] at hb <;>
    rcases hb with h | h | h | h | h | h | h | h <;> omega

theorem overlay_full (got old : List Nat) (h : old.length ≤ got.length) :
    overlay got old = got := by
  simp [overlay, List.drop_eq_nil_of_le h]

theorem overlay_u64 (e : byte_order) (a b : Nat) :
    overlay (encode_u64 e a) (encode_u64 e b) = encode_u64 e a :=
  overlay_full _ _ (by rw [encode_u64_length, encode_u64_length])

theorem overlay_replicate (got : List Nat) (n : Nat) (h : n ≤ got.length) :
    overlay got (List.replicate n 0) = got :=
  overlay_full _ _ (by rw [List.length_replicate]; exact h)

/-! ## Polygons and their memory images -/

theorem polygon_image_length (e : byte_order) (p : igre_polygon) :
    (polygon_image e p).length = 75 := by
  simp [polygon_image, encode_u64_length]

theorem polygon_image_eq_record (e : byte_order) (p : igre_polygon) (hp : valid_polygon p) :
    polygon_image e p = polygon_record e p := by
  obtain ⟨⟨h1, h2, h3⟩, _⟩ := hp
  simp [polygon_image, polygon_record, List.flatten, Nat.mod_eq_of_lt h1, Nat.mod_eq_of_lt h2,
    Nat.mod_eq_of_lt h3]

theorem polygon_image_bytes (e : byte_order) (p : igre_polygon) :
    ∀ b ∈ polygon_image e p, b < 256 := by
  intro b hb
  simp only [polygon_image, List.mem_append, List.mem_cons, List.mem_singleton,
    List.not_mem_nil, or_false] at hb
  have := encode_u64_bytes e
  rcases hb with ((((((((((h | h | h) | h) | h) | h) | h) | h) | h) | h) | h) | h) <;>
    first
      | (subst h; exact Nat.mod_lt _ (by decide))
      | exact this _ b h

theorem u64_at_cons (e : byte_order) (x : Nat) (bs : List Nat) (off : Nat) :
    u64_at e (x :: bs) (off + 1) = u64_at e bs off := by
  simp [u64_at]

theorem u64_at_skip (e : byte_order) (n : Nat) (bs : List Nat) (off : Nat) :
    u64_at e (encode_u64 e n ++ bs) (off + 8) = u64_at e bs off := by
  have h : off + 8 = (encode_u64 e n).length + off := by rw [encode_u64_length]; omega
  simp only [u64_at]
  rw [h, List.drop_append]

theorem u64_at_here (e : byte_order) (n : Nat) (bs : List Nat) (h : n < 2 ^ 64) :
    u64_at e (encode_u64 e n ++ bs) 0 = n := by
  have h8 : (encode_u64 e n).length = 8 := encode_u64_length e n
  simp only [u64_at, List.drop_zero]
  rw [← h8, List.take_left]
  exact decode_encode_u64 e n h

theorem u64_at_last (e : byte_order) (n : Nat) (h : n < 2 ^ 64) :
    u64_at e (encode_u64 e n) 0 = n := by
  have := u64_at_here e n [] h
  simpa using this

theorem polygon_of_image_image (e : byte_order) (p : igre_polygon) (hp : valid_polygon p) :
    polygon_of_image e (polygon_image e p) = p := by
  obtain ⟨⟨f1, f2, f3⟩, ⟨a1, a2, a3⟩, ⟨b1, b2, b3⟩, ⟨c1, c2, c3⟩⟩ := hp
  obtain ⟨⟨r, g, b⟩, ⟨ax, ay, az⟩, ⟨bx, bY, bz⟩, ⟨cx, cy, cz⟩⟩ := p
  simp only at f1 f2 f3 a1 a2 a3 b1 b2 b3 c1 c2 c3
  simp only [polygon_of_image, polygon_image, List.append_assoc, List.cons_append,
    List.nil_append, List.getD_cons_zero, List.getD_cons_succ,
    u64_at_cons e _ _ 2, u64_at_cons e _ _ 1, u64_at_cons e _ _ 0,
    u64_at_cons e _ _ 10, u64_at_cons e _ _ 9, u64_at_cons e _ _ 8,
    u64_at_cons e _ _ 18, u64_at_cons e _ _ 17, u64_at_cons e _ _ 16,
    u64_at_cons e _ _ 26, u64_at_cons e _ _ 25, u64_at_cons e _ _ 24,
    u64_at_cons e _ _ 34, u64_at_cons e _ _ 33, u64_at_cons e _ _ 32,
    u64_at_cons e _ _ 42, u64_at_cons e _ _ 41, u64_at_cons e _ _ 40,
    u64_at_cons e _ _ 50, u64_at_cons e _ _ 49, u64_at_cons e _ _ 48,
    u64_at_cons e _ _ 58, u64_at_cons e _ _ 57, u64_at_cons e _ _ 56,
    u64_at_cons e _ _ 66, u64_at_cons e _ _ 65, u64_at_cons e _ _ 64,
    u64_at_skip e _ _ 0, u64_at_skip e _ _ 8, u64_at_skip e _ _ 16, u64_at_skip e _ _ 24,
    u64_at_skip e _ _ 32, u64_at_skip e _ _ 40, u64_at_skip e _ _ 48, u64_at_skip e _ _ 56,
    u64_at_here e _ _ a1, u64_at_here e _ _ a2, u64_at_here e _ _ a3,
    u64_at_here e _ _ b1, u64_at_here e _ _ b2, u64_at_here e _ _ b3,
    u64_at_here e _ _ c1, u64_at_here e _ _ c2, u64_at_last e _ c3,
    Nat.mod_eq_of_lt f1, Nat.mod_eq_of_lt f2, Nat.mod_eq_of_lt f3]

theorem chunk_length (bs : List Nat) (off : Nat) (h : off + 8 ≤ bs.length) :
    ((bs.drop off).take 8).length = 8 := by
  simp only [List.length_take, List.length_drop]
  omega

theorem chunk_bytes (bs : List Nat) (off : Nat) (hb : ∀ b ∈ bs, b < 256) :
    ∀ b ∈ (bs.drop off).take 8, b < 256 :=
  fun b h => hb b (List.mem_of_mem_drop (List.mem_of_mem_take h))

theorem encode_u64_at (e : byte_order) (bs : List Nat) (off : Nat) (h : off + 8 ≤ bs.length)
    (hb : ∀ b ∈ bs, b < 256) : encode_u64 e (u64_at e bs off) = (bs.drop off).take 8 :=
  encode_decode_u64 e _ (chunk_length bs off h) (chunk_bytes bs off hb)

theorem u64_at_lt (e : byte_order) (bs : List Nat) (off : Nat) (h : off + 8 ≤ bs.length)
    (hb : ∀ b ∈ bs, b < 256) : u64_at e bs off < 2 ^ 64 :=
  decode_u64_lt e _ (chunk_length bs off h) (chunk_bytes bs off hb)

theorem fill_of_image (bs : List Nat) (hl : 3 ≤ bs.length) (hb : ∀ b ∈ bs, b < 256) :
    (bs.getD 0 0 < 256 ∧ bs.getD 1 0 < 256 ∧ bs.getD 2 0 < 256) ∧
    [bs.getD 0 0 % 256, bs.getD 1 0 % 256, bs.getD 2 0 % 256] = bs.take 3 := by
  match bs, hl with
  | b0 :: b1 :: b2 :: rest, _ =>
    have h0 := hb b0 (by simp)
    have h1 := hb b1 (by simp)
    have h2 := hb b2 (by simp)
    simp [Nat.mod_eq_of_lt h0, Nat.mod_eq_of_lt h1, Nat.mod_eq_of_lt h2, h0, h1, h2]

theorem valid_polygon_of_image (e : byte_order) (bs : List Nat) (hl : bs.length = 75)
    (hb : ∀ b ∈ bs, b < 256) : valid_polygon (polygon_of_image e bs) := by
  refine ⟨(fill_of_image bs (by omega) hb).1, ⟨?_, ?_, ?_⟩, ⟨?_, ?_, ?_⟩, ⟨?_, ?_, ?_⟩⟩ <;>
    exact u64_at_lt e bs _ (by omega) hb

theorem polygon_image_of_image (e : byte_order) (bs : List Nat) (hl : bs.length = 75)
    (hb : ∀ b ∈ bs, b < 256) : polygon_image e (polygon_of_image e bs) = bs := by
  simp only [polygon_image, polygon_of_image]
  rw [(fill_of_image bs (by omega) hb).2,
    encode_u64_at e bs 3 (by omega) hb, encode_u64_at e bs 11 (by omega) hb,
    encode_u64_at e bs 19 (by omega) hb, encode_u64_at e bs 27 (by omega) hb,
    encode_u64_at e bs 35 (by omega) hb, encode_u64_at e bs 43 (by omega) hb,
    encode_u64_at e bs 51 (by omega) hb, encode_u64_at e bs 59 (by omega) hb,
    encode_u64_at e bs 67 (by omega) hb]
  rw [← List.take_add, ← List.take_add, ← List.take_add, ← List.take_add, ← List.take_add,
    ← List.take_add, ← List.take_add, ← List.take_add, ← List.take_add]
  exact List.take_of_length_le (by omega)

/-! ## Polygon arrays and their memory images -/

theorem polygons_image_length (e : byte_order) (ps : List igre_polygon) :
    (polygons_image e ps).length = 75 * ps.length := by
  induction ps with
  | nil => rfl
  | cons p ps ih =>
    simp only [polygons_image, List.length_append, polygon_image_length, ih, List.length_cons]
    omega

theorem polygons_image_bytes (e : byte_order) (ps : List igre_polygon) :
    ∀ b ∈ polygons_image e ps, b < 256 := by
  induction ps with
  | nil => intro b hb; simp [polygons_image] at hb
  | cons p ps ih =>
    intro b hb
    simp only [polygons_image, List.mem_append] at hb
    rcases hb with h | h
    · exact polygon_image_bytes e p b h
    · exact ih b h

theorem polygons_image_eq_records (e : byte_order) (ps : List igre_polygon)
    (hp : ∀ p ∈ ps, valid_polygon p) :
    polygons_image e ps = (ps.map (polygon_record e)).flatten := by
  induction ps with
  | nil => rfl
  | cons p ps ih =>
    simp only [polygons_image, List.map_cons, List.flatten_cons]
    rw [polygon_image_eq_record e p (hp p (by simp)), ih (fun q hq => hp q (by simp [hq]))]

theorem polygons_of_image_image (e : byte_order) (ps : List igre_polygon)
    (hp : ∀ p ∈ ps, valid_polygon p) :
    polygons_of_image e ps.length (polygons_image e ps) = ps := by
  induction ps with
  | nil => rfl
  | cons p ps ih =>
    have h75 : (polygon_image e p).length = sizeof_polygon := polygon_image_length e p
    simp only [polygons_image, List.length_cons, polygons_of_image]
    rw [← h75, List.take_left, List.drop_left, polygon_of_image_image e p (hp p (by simp)),
      ih (fun q hq => hp q (by simp [hq]))]

theorem polygons_of_image_length (e : byte_order) (n : Nat) (bs : List Nat) :
    (polygons_of_image e n bs).length = n := by
  induction n generalizing bs with
  | zero => rfl
  | succ n ih => simp [polygons_of_image, ih]

theorem polygons_of_image_valid (e : byte_order) (n : Nat) (bs : List Nat)
    (hl : bs.length = 75 * n) (hb : ∀ b ∈ bs, b < 256) :
    ∀ p ∈ polygons_of_image e n bs, valid_polygon p := by
  induction n generalizing bs with
  | zero => intro p hp; simp [polygons_of_image] at hp
  | succ n ih =>
    intro p hp
    simp only [polygons_of_image, List.mem_cons] at hp
    rcases hp with h | h
    · subst h
      exact valid_polygon_of_image e _ (by simp [sizeof_polygon]; omega)
        (fun b hb' => hb b (List.mem_of_mem_take hb'))
    · exact ih (bs.drop sizeof_polygon) (by simp [sizeof_polygon]; omega)
        (fun b hb' => hb b (List.mem_of_mem_drop hb')) p h

theorem polygons_image_of_image (e : byte_order) (n : Nat) (bs : List Nat)
    (hl : bs.length = 75 * n) (hb : ∀ b ∈ bs, b < 256) :
    polygons_image e (polygons_of_image e n bs) = bs := by
  induction n generalizing bs with
  | zero =>
    have : bs = [] := List.length_eq_zero.mp (by omega)
    simp [polygons_of_image, polygons_image, this]
  | succ n ih =>
    simp only [polygons_of_image, polygons_image]
    rw [polygon_image_of_image e _ (by simp [sizeof_polygon]; omega)
        (fun b hb' => hb b (List.mem_of_mem_take hb')),
      ih (bs.drop sizeof_polygon) (by simp [sizeof_polygon]; omega)
        (fun b hb' => hb b (List.mem_of_mem_drop hb')),
      List.take_append_drop]

/-! ## Storing a model -/

theorem bytes_put_le (wr : Nat → Option Nat) (k req : Nat) : bytes_put wr k req ≤ req := by
  unfold bytes_put
  split
  · exact Nat.le_refl _
  · exact Nat.min_le_right _ _

theorem bytes_put_none (wr : Nat → Option Nat) (hw : ∀ k, wr k = none) (k req : Nat) :
    bytes_put wr k req = req := by
  simp [bytes_put, hw k]

theorem read_buffer_contents {α : Type} (p : Option (List α)) (n : Nat)
    (h : (contents p).length = n) : read_buffer p n = some (contents p) := by
  cases p with
  | none => simp [contents] at h; simp [read_buffer, contents, ← h]
  | some xs => simp [contents] at h; simp [read_buffer, contents, ← h]

theorem model_record_eq (e : byte_order) (m : igre_model) (hm : valid_model m) :
    model_record e m = encode_u64 e m.name_size ++ encode_u64 e m.no_polygons ++
      contents m.name ++ polygons_image e (contents m.polygons) := by
  rw [model_record, polygons_image_eq_records e _ hm.2.2.2.2.2]

theorem store_model_spec (e : byte_order) (wr : Nat → Option Nat) (m : igre_model)
    (s : store_state) (hm : valid_model m) :
    ∃ r, store_model e wr m s = some r ∧ ∃ t, r.2.trace = s.trace ++ t ∧
      ((r.1 = IGRE_OPERATION_SUCCESS ∧ r.2.out = s.out ++ model_record e m ∧
          ∀ ev ∈ t, short_write ev = false ∧ ev ≠ .fclose) ∨
       (r.1 = IGRE_FILE_WRITE_ERROR ∧ ∃ pre ev, t = pre ++ [ev, .fclose] ∧
          short_write ev = true ∧ ∀ ev' ∈ pre, short_write ev' = false ∧ ev' ≠ .fclose)) ∧
      ((∀ k, wr k = none) → r.1 = IGRE_OPERATION_SUCCESS) := by
  obtain ⟨_, _, hn, _, hp, hvp⟩ := hm
  have hpl := polygons_image_length e (contents m.polygons)
  rw [hp] at hpl
  have l1 := encode_u64_length e m.name_size
  have l2 := encode_u64_length e m.no_polygons
  have b1 := bytes_put_le wr s.fwrites 8
  have b2 := bytes_put_le wr (s.fwrites + 1) 8
  have b3 := bytes_put_le wr (s.fwrites + 1 + 1) m.name_size
  have b4 := bytes_put_le wr (s.fwrites + 1 + 1 + 1) (75 * m.no_polygons)
  simp only [store_model, fwrite, fclose_out, items, sizeof_u64, sizeof_polygon, l1, l2,
    read_buffer_contents _ _ hn, read_buffer_contents _ _ hp, hn, hpl, Nat.div_one]
  by_cases h1 : bytes_put wr s.fwrites 8 / 8 = 0
  · rw [if_pos h1]
    refine ⟨_, rfl, [.fwrite 8 1 (bytes_put wr s.fwrites 8), .fclose], by simp, Or.inr ⟨rfl, [], _, rfl, ?_, by simp⟩, ?_⟩
    · simp only [short_write, decide_eq_true_eq]; omega
    · intro hw; rw [bytes_put_none wr hw] at h1; omega
  rw [if_neg h1]
  have e1 : bytes_put wr s.fwrites 8 = 8 := by omega
  by_cases h2 : bytes_put wr (s.fwrites + 1) 8 / 8 = 0
  · rw [if_pos h2]
    refine ⟨_, rfl, [.fwrite 8 1 (bytes_put wr s.fwrites 8),
      .fwrite 8 1 (bytes_put wr (s.fwrites + 1) 8), .fclose], by simp,
      Or.inr ⟨rfl, [.fwrite 8 1 (bytes_put wr s.fwrites 8)], _, rfl, ?_, ?_⟩, ?_⟩
    · simp only [short_write, decide_eq_true_eq]; omega
    · simp [short_write, e1]
    · intro hw; rw [bytes_put_none wr hw] at h2; omega
  rw [if_neg h2]
  have e2 : bytes_put wr (s.fwrites + 1) 8 = 8 := by omega
  by_cases h3 : bytes_put wr (s.fwrites + 1 + 1) m.name_size = m.name_size
  · rw [if_pos h3]
    by_cases h4 : bytes_put wr (s.fwrites + 1 + 1 + 1) (75 * m.no_polygons) / 75 = m.no_polygons
    · rw [if_pos h4]
      have e4 : bytes_put wr (s.fwrites + 1 + 1 + 1) (75 * m.no_polygons) = 75 * m.no_polygons := by
        omega
      refine ⟨_, rfl, [.fwrite 8 1 (bytes_put wr s.fwrites 8),
        .fwrite 8 1 (bytes_put wr (s.fwrites + 1) 8),
        .fwrite 1 m.name_size (bytes_put wr (s.fwrites + 1 + 1) m.name_size),
        .fwrite 75 m.no_polygons (bytes_put wr (s.fwrites + 1 + 1 + 1) (75 * m.no_polygons))],
        by simp, Or.inl ⟨rfl, ?_, ?_⟩, fun _ => rfl⟩
      · rw [model_record_eq e m ⟨‹_›, ‹_›, hn, ‹_›, hp, hvp⟩]
        simp only [e1, e2, h3, e4, List.append_assoc]
        rw [← l1, List.take_length, l1, ← l2, List.take_length, ← hn, List.take_length, hn,
          ← hpl, List.take_length]
      · simp [short_write, e1, e2, h3, e4]
    · rw [if_neg h4]
      refine ⟨_, rfl, [.fwrite 8 1 (bytes_put wr s.fwrites 8),
        .fwrite 8 1 (bytes_put wr (s.fwrites + 1) 8),
        .fwrite 1 m.name_size (bytes_put wr (s.fwrites + 1 + 1) m.name_size),
        .fwrite 75 m.no_polygons (bytes_put wr (s.fwrites + 1 + 1 + 1) (75 * m.no_polygons)),
        .fclose], by simp, Or.inr ⟨rfl, [.fwrite 8 1 (bytes_put wr s.fwrites 8),
        .fwrite 8 1 (bytes_put wr (s.fwrites + 1) 8),
        .fwrite 1 m.name_size (bytes_put wr (s.fwrites + 1 + 1) m.name_size)], _, rfl, ?_, ?_⟩, ?_⟩
      · simp only [short_write, decide_eq_true_eq]; omega
      · simp [short_write, e1, e2, h3]
      · intro hw; rw [bytes_put_none wr hw] at h4; omega
  · rw [if_neg h3]
    refine ⟨_, rfl, [.fwrite 8 1 (bytes_put wr s.fwrites 8),
      .fwrite 8 1 (bytes_put wr (s.fwrites + 1) 8),
      .fwrite 1 m.name_size (bytes_put wr (s.fwrites + 1 + 1) m.name_size),
      .fclose], by simp, Or.inr ⟨rfl, [.fwrite 8 1 (bytes_put wr s.fwrites 8),
      .fwrite 8 1 (bytes_put wr (s.fwrites + 1) 8)], _, rfl, ?_, ?_⟩, ?_⟩
    · simp only [short_write, decide_eq_true_eq]; omega
    · simp [short_write, e1, e2]
    · intro hw; rw [bytes_put_none wr hw] at h3; omega

/-! ## Storing a listing -/

theorem store_loop_spec (e : byte_order) (wr : Nat → Option Nat)
    (models : Option (List igre_model)) (hv : ∀ m ∈ contents models, valid_model m)
    (k i : Nat) (s : store_state) (hk : i + k = (contents models).length) :
    ∃ r, store_loop e wr models k i s = some r ∧ ∃ t, r.2.trace = s.trace ++ t ∧
      ((r.1 = IGRE_OPERATION_SUCCESS ∧
          r.2.out = s.out ++ (((contents models).drop i).map (model_record e)).flatten ∧
          ∃ pre, t = pre ++ [.fclose] ∧ ∀ ev ∈ pre, short_write ev = false ∧ ev ≠ .fclose) ∨
       (r.1 = IGRE_FILE_WRITE_ERROR ∧ ∃ pre ev, t = pre ++ [ev, .fclose] ∧
          short_write ev = true ∧ ∀ ev' ∈ pre, short_write ev' = false ∧ ev' ≠ .fclose)) ∧
      ((∀ k, wr k = none) → r.1 = IGRE_OPERATION_SUCCESS) := by
  induction k generalizing i s with
  | zero =>
    refine ⟨_, rfl, [.fclose], rfl, Or.inl ⟨rfl, ?_, [], rfl, by simp⟩, fun _ => rfl⟩
    have : (contents models).drop i = [] := List.drop_eq_nil_of_le (by omega)
    simp [this, fclose_out]
  | succ k ih =>
    have hi : i < (contents models).length := by omega
    have hget : models.bind (fun ms => ms.get? i) = some ((contents models)[i]) := by
      cases models with
      | none => simp [contents] at hi
      | some ms => simp [contents] at hi ⊢
    have hdrop : (contents models).drop i = (contents models)[i] :: (contents models).drop (i + 1) :=
      List.drop_eq_getElem_cons hi
    obtain ⟨r1, hr1, t1, ht1, hc1, hw1⟩ :=
      store_model_spec e wr ((contents models)[i]) s (hv _ (List.getElem_mem hi))
    simp only [store_loop, hget, hr1]
    rcases hc1 with ⟨hs, hout, hclean⟩ | ⟨hs, pre, ev, hpre, hev, hclean⟩
    · rw [if_pos hs]
      obtain ⟨r, hr, t2, ht2, hc2, hw2⟩ := ih (i + 1) r1.2 (by omega)
      refine ⟨r, hr, t1 ++ t2, by rw [ht2, ht1, List.append_assoc], ?_, hw2⟩
      rcases hc2 with ⟨hs2, hout2, pre2, hpre2, hclean2⟩ | ⟨hs2, pre2, ev2, hpre2, hev2, hclean2⟩
      · refine Or.inl ⟨hs2, ?_, t1 ++ pre2, by rw [hpre2, List.append_assoc], ?_⟩
        · rw [hout2, hout, hdrop, List.map_cons, List.flatten_cons, List.append_assoc]
        · intro ev hev
          rcases List.mem_append.mp hev with h | h
          · exact hclean ev h
          · exact hclean2 ev h
      · refine Or.inr ⟨hs2, t1 ++ pre2, ev2, by rw [hpre2, List.append_assoc], hev2, ?_⟩
        intro ev hev
        rcases List.mem_append.mp hev with h | h
        · exact hclean ev h
        · exact hclean2 ev h
    · rw [if_neg (by rw [hs]; decide)]
      refine ⟨r1, rfl, t1, ht1, Or.inr ⟨hs, pre, ev, hpre, hev, hclean⟩, hw1⟩

theorem igre_store_imol_spec (e : byte_order) (wr : Nat → Option Nat) (l : igre_model_listing)
    (hv : valid_listing l) :
    ∃ r, igre_store_imol e true wr l = some r ∧
      ((r.status = IGRE_OPERATION_SUCCESS ∧ r.written = listing_file e l ∧
          ∃ pre, r.trace = pre ++ [.fclose] ∧ ∀ ev ∈ pre, short_write ev = false ∧ ev ≠ .fclose) ∨
       (r.status = IGRE_FILE_WRITE_ERROR ∧ ∃ pre ev, r.trace = pre ++ [ev, .fclose] ∧
          short_write ev = true ∧ ∀ ev' ∈ pre, short_write ev' = false ∧ ev' ≠ .fclose)) ∧
      ((∀ k, wr k = none) → r.status = IGRE_OPERATION_SUCCESS) := by
  obtain ⟨_, hlen, hms⟩ := hv
  have l1 := encode_u64_length e l.no_models
  have b1 := bytes_put_le wr 0 8
  simp only [igre_store_imol, fwrite, fclose_out, items, sizeof_u64, l1, Bool.true_eq_false,
    if_false]
  by_cases h1 : bytes_put wr 0 8 / 8 = 0
  · rw [if_pos h1]
    refine ⟨_, rfl, Or.inr ⟨rfl, [.fopen true], .fwrite 8 1 (bytes_put wr 0 8), rfl, ?_, by simp [short_write]⟩, ?_⟩
    · simp only [short_write, decide_eq_true_eq]; omega
    · intro hw; rw [bytes_put_none wr hw] at h1; omega
  rw [if_neg h1]
  have e1 : bytes_put wr 0 8 = 8 := by omega
  obtain ⟨r, hr, t, ht, hc, hw⟩ := store_loop_spec e wr l.models hms l.no_models 0
    { out := [] ++ (encode_u64 e l.no_models).take (bytes_put wr 0 8), fwrites := 0 + 1,
      trace := [.fopen true] ++ [.fwrite 8 1 (bytes_put wr 0 8)] } (by omega)
  rw [hr]
  refine ⟨_, rfl, ?_, hw⟩
  simp only [ht]
  rcases hc with ⟨hs, hout, pre, hpre, hclean⟩ | ⟨hs, pre, ev, hpre, hev, hclean⟩
  · refine Or.inl ⟨hs, ?_, [.fopen true, .fwrite 8 1 (bytes_put wr 0 8)] ++ pre, by simp [hpre], ?_⟩
    · rw [hout, e1, ← l1, List.take_length]; simp [listing_file]
    · intro ev hev
      rcases List.mem_append.mp hev with h | h
      · simp only [List.mem_cons, List.mem_singleton, List.not_mem_nil, or_false] at h
        rcases h with h | h <;> subst h <;> simp [short_write, e1]
      · exact hclean ev h
  · refine Or.inr ⟨hs, [.fopen true, .fwrite 8 1 (bytes_put wr 0 8)] ++ pre, ev, by simp [hpre], hev, ?_⟩
    intro ev' hev'
    rcases List.mem_append.mp hev' with h | h
    · simp only [List.mem_cons, List.mem_singleton, List.not_mem_nil, or_false] at h
      rcases h with h | h <;> subst h <;> simp [short_write, e1]
    · exact hclean ev' h

/-! ## Loading a model -/

theorem fread_got (size nmemb : Nat) (s : load_state) :
    (fread size nmemb s).1 = s.stream.take (size * nmemb) := rfl

theorem fread_stream (size nmemb : Nat) (s : load_state) :
    (fread size nmemb s).2.stream = s.stream.drop (size * nmemb) := rfl

theorem fread_callocs (size nmemb : Nat) (s : load_state) :
    (fread size nmemb s).2.callocs = s.callocs := rfl

theorem calloc_ok (alloc : Nat → Bool) (nmemb size : Nat) (s : load_state) :
    (calloc alloc nmemb size s).1 = alloc s.callocs := rfl

theorem calloc_stream (alloc : Nat → Bool) (nmemb size : Nat) (s : load_state) :
    (calloc alloc nmemb size s).2.stream = s.stream := rfl

theorem load_model_record (e : byte_order) (alloc : Nat → Bool) (ha : ∀ k, alloc k = true)
    (m : igre_model) (hm : valid_model m) (h1 : 1 ≤ m.name_size) (m0 : igre_model)
    (s : load_state) (rest : List Nat) (hs : s.stream = model_record e m ++ rest) :
    (load_model e alloc m0 s).1 = IGRE_OPERATION_SUCCESS ∧
    (load_model e alloc m0 s).2.1 =
      loaded_model m ∧
    (load_model e alloc m0 s).2.2.stream = rest := by
  have hrec := model_record_eq e m hm
  obtain ⟨hL, hP, hn, hnb, hp, hvp⟩ := hm
  have hpl := polygons_image_length e (contents m.polygons)
  rw [hp] at hpl
  have l1 := encode_u64_length e m.name_size
  have l2 := encode_u64_length e m.no_polygons
  have d1 := decode_encode_u64 e m.name_size hL
  have d2 := decode_encode_u64 e m.no_polygons hP
  rw [hrec] at hs
  have t1 : s.stream.take 8 = encode_u64 e m.name_size := by
    rw [hs, List.append_assoc, List.append_assoc, List.append_assoc, ← l1, List.take_left]
  have s1 : s.stream.drop 8 = encode_u64 e m.no_polygons ++
      (contents m.name ++ (polygons_image e (contents m.polygons) ++ rest)) := by
    rw [hs, List.append_assoc, List.append_assoc, List.append_assoc, ← l1, List.drop_left]
  have t2 : (s.stream.drop 8).take 8 = encode_u64 e m.no_polygons := by
    rw [s1, ← l2, List.take_left]
  have s2 : (s.stream.drop 8).drop 8 =
      contents m.name ++ (polygons_image e (contents m.polygons) ++ rest) := by
    rw [s1, ← l2, List.drop_left]
  have t3 : ((s.stream.drop 8).drop 8).take m.name_size = contents m.name := by
    rw [s2, ← hn, List.take_left]
  have s3 : ((s.stream.drop 8).drop 8).drop m.name_size =
      polygons_image e (contents m.polygons) ++ rest := by
    rw [s2, ← hn, List.drop_left]
  have t4 : (((s.stream.drop 8).drop 8).drop m.name_size).take (75 * m.no_polygons) =
      polygons_image e (contents m.polygons) := by
    rw [s3, ← hpl, List.take_left]
  have s4 : (((s.stream.drop 8).drop 8).drop m.name_size).drop (75 * m.no_polygons) = rest := by
    rw [s3, ← hpl, List.drop_left]
  have c1 : ¬ (8 / 8 = 0) := by decide
  have c3 : ¬ (m.name_size / 1 = 0) := by rw [Nat.div_one]; omega
  have c4 : 75 * m.no_polygons / 75 = m.no_polygons := by omega
  have pi : polygons_of_image e m.no_polygons (polygons_image e (contents m.polygons)) =
      contents m.polygons := by
    rw [← hp]; exact polygons_of_image_image e _ hvp
  simp only [load_model, loaded_model, fread_got, fread_stream, calloc_ok, calloc_stream, ha, fclose, items,
    sizeof_u64, sizeof_polygon, Nat.mul_one, Nat.one_mul, t1, t2, l1, l2, 
    overlay_u64, d1, d2, t3, t4, hn, hpl,
    overlay_replicate _ _ (Nat.le_of_eq hn.symm), overlay_replicate _ _ (Nat.le_of_eq hpl.symm),
    if_neg c1, if_neg c3, if_pos c4, Bool.true_eq_false, if_false, pi, s4, and_self]

/-! ## Loading a listing -/

theorem set_at_length {α : Type} (pre : List α) (x y : α) (post : List α) :
    (pre ++ x :: post).set pre.length y = pre ++ y :: post := by
  induction pre with
  | nil => rfl
  | cons a pre ih => simp [ih]

theorem getD_at_length {α : Type} (pre : List α) (x d : α) (post : List α) :
    (pre ++ x :: post).getD pre.length d = x := by
  induction pre with
  | nil => rfl
  | cons a pre ih => simpa using ih

theorem load_loop_records (e : byte_order) (alloc : Nat → Bool) (ha : ∀ k, alloc k = true)
    (ms : List igre_model) (hv : ∀ m ∈ ms, valid_model m) (h1 : ∀ m ∈ ms, 1 ≤ m.name_size)
    (pre : List igre_model) (s : load_state) (rest : List Nat)
    (hs : s.stream = (ms.map (model_record e)).flatten ++ rest) :
    (load_loop e alloc ms.length pre.length (pre ++ List.replicate ms.length zero_model) s).1
        = IGRE_OPERATION_SUCCESS ∧
    (load_loop e alloc ms.length pre.length (pre ++ List.replicate ms.length zero_model) s).2.1
        = pre ++ ms.map loaded_model := by
  induction ms generalizing pre s with
  | nil => simp [load_loop]
  | cons m ms ih =>
    have hs' : s.stream = model_record e m ++ ((ms.map (model_record e)).flatten ++ rest) := by
      rw [hs, List.map_cons, List.flatten_cons, List.append_assoc]
    obtain ⟨r1, r2, r3⟩ := load_model_record e alloc ha m (hv m (by simp)) (h1 m (by simp))
      zero_model s _ hs'
    have ih' := ih (fun q hq => hv q (by simp [hq])) (fun q hq => h1 q (by simp [hq]))
      (pre ++ [loaded_model m]) (load_model e alloc zero_model s).2.2 r3
    simp only [List.length_append, List.length_singleton, List.append_assoc,
      List.singleton_append] at ih'
    simp only [List.length_cons, List.replicate_succ, load_loop, getD_at_length, r1, r2,
      if_true, set_at_length, List.map_cons]
    exact ih'

theorem igre_load_imol_listing_file (e : byte_order) (alloc : Nat → Bool)
    (ha : ∀ k, alloc k = true) (l : igre_model_listing) (hv : valid_listing l)
    (h1 : names_nonempty l) (x : List Nat) (l0 : igre_model_listing) :
    (igre_load_imol e (some (listing_file e l ++ x)) alloc l0).status = IGRE_OPERATION_SUCCESS ∧
    (igre_load_imol e (some (listing_file e l ++ x)) alloc l0).listing = loaded_listing l := by
  obtain ⟨hN, hlen, hms⟩ := hv
  have l1 := encode_u64_length e l.no_models
  have d1 := decode_encode_u64 e l.no_models hN
  have t1 : (listing_file e l ++ x).take 8 = encode_u64 e l.no_models := by
    rw [listing_file, List.append_assoc, ← l1, List.take_left]
  have s1 : (listing_file e l ++ x).drop 8 =
      ((contents l.models).map (model_record e)).flatten ++ x := by
    rw [listing_file, List.append_assoc, ← l1, List.drop_left]
  have c1 : ¬ (8 / 8 = 0) := by decide
  have key := load_loop_records e alloc ha (contents l.models) hms h1 []
    (calloc alloc l.no_models sizeof_model
      (fread sizeof_u64 1
        { stream := listing_file e l ++ x, callocs := 0, trace := [.fopen true] }).2).2 x
    (by rw [calloc_stream, fread_stream]; exact s1)
  rw [hlen] at key
  simp only [List.length_nil, List.nil_append] at key
  simp only [igre_load_imol, fread_got, calloc_ok, ha, items, sizeof_u64, Nat.mul_one, t1, l1,
    overlay_u64, d1, if_neg c1, Bool.true_eq_false, if_false, loaded_listing]
  simp only [sizeof_u64] at key
  exact ⟨key.1, by rw [key.2]⟩

theorem listing_content_loaded (l : igre_model_listing) :
    listing_content (loaded_listing l) = listing_content l := by
  simp [listing_content, loaded_listing, contents, model_content, loaded_model]

/-! ## The library calls of a load -/

theorem fread_trace (size nmemb : Nat) (s : load_state) :
    (fread size nmemb s).2.trace =
      s.trace ++ [.fread size nmemb (s.stream.take (size * nmemb)).length] := rfl

theorem calloc_trace (alloc : Nat → Bool) (nmemb size : Nat) (s : load_state) :
    (calloc alloc nmemb size s).2.trace = s.trace ++ [.calloc nmemb size (alloc s.callocs)] := rfl

theorem fclose_trace (s : load_state) : (fclose s).trace = s.trace ++ [.fclose] := rfl

theorem failed_calloc_calloc (nmemb size : Nat) (ok : Bool) :
    failed_calloc (.calloc nmemb size ok) = !ok := by
  cases ok <;> rfl

theorem load_model_shape (e : byte_order) (alloc : Nat → Bool) (m : igre_model)
    (s : load_state) (hinv : ∀ ev ∈ s.trace, failed_calloc ev = false ∧ ev ≠ .fclose) :
    ((load_model e alloc m s).1 = IGRE_OPERATION_SUCCESS ∧
        ∀ ev ∈ (load_model e alloc m s).2.2.trace, failed_calloc ev = false ∧ ev ≠ .fclose) ∨
    ((load_model e alloc m s).1 = IGRE_FILE_READ_ERROR ∧
        ∃ pre, (load_model e alloc m s).2.2.trace = pre ++ [.fclose] ∧
          ∀ ev ∈ pre, failed_calloc ev = false ∧ ev ≠ .fclose) ∨
    ((load_model e alloc m s).1 = IGRE_MEMORY_ALLOCATION_ERROR ∧
        ∃ pre ev, (load_model e alloc m s).2.2.trace = pre ++ [ev, .fclose] ∧
          failed_calloc ev = true ∧ ∀ ev' ∈ pre, failed_calloc ev' = false ∧ ev' ≠ .fclose) := by
  generalize hr : load_model e alloc m s = r
  simp only [load_model] at hr
  split_ifs at hr with h1 h2 h3 h4 h5 h6 <;> subst hr
  · refine Or.inr (Or.inl ⟨rfl, _, rfl, ?_⟩)
    intro ev hev
    simp only [fread_trace, List.mem_append, List.mem_singleton] at hev
    rcases hev with h | h
    · exact hinv ev h
    · subst h; simp [failed_calloc]
  · refine Or.inr (Or.inl ⟨rfl, _, rfl, ?_⟩)
    intro ev hev
    simp only [fread_trace, List.mem_append, List.mem_singleton] at hev
    rcases hev with (h | h) | h
    · exact hinv ev h
    · subst h; simp [failed_calloc]
    · subst h; simp [failed_calloc]
  · refine Or.inr (Or.inr ⟨rfl, _, _, List.append_assoc _ _ _, ?_, ?_⟩)
    · rw [failed_calloc_calloc]; rw [calloc_ok] at h3; simp [h3]
    · intro ev hev
      simp only [fread_trace, List.mem_append, List.mem_singleton] at hev
      rcases hev with (h | h) | h
      · exact hinv ev h
      · subst h; simp [failed_calloc]
      · subst h; simp [failed_calloc]
  · refine Or.inr (Or.inr ⟨rfl, _, _, List.append_assoc _ _ _, ?_, ?_⟩)
    · rw [failed_calloc_calloc]; rw [calloc_ok] at h4; simp [h4]
    · intro ev hev
      rw [calloc_ok] at h3
      simp only [fread_trace, calloc_trace, List.mem_append, List.mem_singleton] at hev
      rcases hev with ((h | h) | h) | h
      · exact hinv ev h
      · subst h; simp [failed_calloc]
      · subst h; simp [failed_calloc]
      · subst h; simp [failed_calloc_calloc, h3]
  · refine Or.inr (Or.inl ⟨rfl, _, rfl, ?_⟩)
    intro ev hev
    rw [calloc_ok] at h3 h4
    simp only [fread_trace, calloc_trace, List.mem_append, List.mem_singleton] at hev
    rcases hev with ((((h | h) | h) | h) | h) | h
    · exact hinv ev h
    · subst h; simp [failed_calloc]
    · subst h; simp [failed_calloc]
    · subst h; simp [failed_calloc_calloc, h3]
    · subst h; simp [failed_calloc_calloc, h4]
    · subst h; simp [failed_calloc]
  · refine Or.inl ⟨rfl, ?_⟩
    intro ev hev
    rw [calloc_ok] at h3 h4
    simp only [fread_trace, calloc_trace, List.mem_append, List.mem_singleton] at hev
    rcases hev with (((((h | h) | h) | h) | h) | h) | h
    · exact hinv ev h
    · subst h; simp [failed_calloc]
    · subst h; simp [failed_calloc]
    · subst h; simp [failed_calloc_calloc, h3]
    · subst h; simp [failed_calloc_calloc, h4]
    · subst h; simp [failed_calloc]
    · subst h; simp [failed_calloc]
  · refine Or.inr (Or.inl ⟨rfl, _, rfl, ?_⟩)
    intro ev hev
    rw [calloc_ok] at h3 h4
    simp only [fread_trace, calloc_trace, List.mem_append, List.mem_singleton] at hev
    rcases hev with (((((h | h) | h) | h) | h) | h) | h
    · exact hinv ev h
    · subst h; simp [failed_calloc]
    · subst h; simp [failed_calloc]
    · subst h; simp [failed_calloc_calloc, h3]
    · subst h; simp [failed_calloc_calloc, h4]
    · subst h; simp [failed_calloc]
    · subst h; simp [failed_calloc]

theorem load_loop_shape (e : byte_order) (alloc : Nat → Bool) (k i : Nat)
    (ms : List igre_model) (s : load_state)
    (hinv : ∀ ev ∈ s.trace, failed_calloc ev = false ∧ ev ≠ .fclose) :
    (((load_loop e alloc k i ms s).1 = IGRE_OPERATION_SUCCESS ∨
        (load_loop e alloc k i ms s).1 = IGRE_FILE_READ_ERROR) ∧
        ∃ pre, (load_loop e alloc k i ms s).2.2.trace = pre ++ [.fclose] ∧
          ∀ ev ∈ pre, failed_calloc ev = false ∧ ev ≠ .fclose) ∨
    ((load_loop e alloc k i ms s).1 = IGRE_MEMORY_ALLOCATION_ERROR ∧
        ∃ pre ev, (load_loop e alloc k i ms s).2.2.trace = pre ++ [ev, .fclose] ∧
          failed_calloc ev = true ∧ ∀ ev' ∈ pre, failed_calloc ev' = false ∧ ev' ≠ .fclose) := by
  induction k generalizing i ms s with
  | zero => exact Or.inl ⟨Or.inl rfl, s.trace, rfl, hinv⟩
  | succ k ih =>
    simp only [load_loop]
    rcases load_model_shape e alloc (ms.getD i zero_model) s hinv with
      ⟨h1, h2⟩ | ⟨h1, h2⟩ | ⟨h1, h2⟩
    · rw [if_pos h1]
      exact ih (i + 1) _ _ h2
    · rw [if_neg (by rw [h1]; decide)]
      exact Or.inl ⟨Or.inr h1, h2⟩
    · rw [if_neg (by rw [h1]; decide)]
      exact Or.inr ⟨h1, h2⟩

theorem igre_load_imol_shape (e : byte_order) (bytes : List Nat) (alloc : Nat → Bool)
    (l0 : igre_model_listing) :
    (((igre_load_imol e (some bytes) alloc l0).status = IGRE_OPERATION_SUCCESS ∨
        (igre_load_imol e (some bytes) alloc l0).status = IGRE_FILE_READ_ERROR) ∧
        ∃ pre, (igre_load_imol e (some bytes) alloc l0).trace = pre ++ [.fclose] ∧
          ∀ ev ∈ pre, failed_calloc ev = false ∧ ev ≠ .fclose) ∨
    ((igre_load_imol e (some bytes) alloc l0).status = IGRE_MEMORY_ALLOCATION_ERROR ∧
        ∃ pre ev, (igre_load_imol e (some bytes) alloc l0).trace = pre ++ [ev, .fclose] ∧
          failed_calloc ev = true ∧ ∀ ev' ∈ pre, failed_calloc ev' = false ∧ ev' ≠ .fclose) := by
  generalize hr : igre_load_imol e (some bytes) alloc l0 = r
  simp only [igre_load_imol] at hr
  split_ifs at hr with h1 h2
  · subst hr
    refine Or.inl ⟨Or.inr rfl, _, rfl, ?_⟩
    intro ev hev
    simp only [fread_trace, List.mem_append, List.mem_singleton] at hev
    rcases hev with h | h <;> subst h <;> simp [failed_calloc]
  · subst hr
    refine Or.inr ⟨rfl, _, _, List.append_assoc _ _ _, ?_, ?_⟩
    · rw [failed_calloc_calloc]; rw [calloc_ok] at h2; simp [h2]
    · intro ev hev
      simp only [fread_trace, List.mem_append, List.mem_singleton] at hev
      rcases hev with h | h <;> subst h <;> simp [failed_calloc]
  · subst hr
    rw [calloc_ok] at h2
    refine load_loop_shape e alloc _ _ _ _ ?_
    intro ev hev
    simp only [fread_trace, calloc_trace, List.mem_append, List.mem_singleton] at hev
    rcases hev with (h | h) | h <;> subst h <;> simp [failed_calloc_calloc, failed_calloc, h2]

/-! ## The status of a store -/

theorem store_model_status (e : byte_order) (wr : Nat → Option Nat) (m : igre_model)
    (s : store_state) (r : igre_imol_error × store_state) (h : store_model e wr m s = some r) :
    r.1 = IGRE_OPERATION_SUCCESS ∨ r.1 = IGRE_FILE_WRITE_ERROR := by
  simp only [store_model] at h
  split_ifs at h with h1 h2
  · cases h; exact Or.inr rfl
  · cases h; exact Or.inr rfl
  · split at h
    · cases h
    · split_ifs at h with h3
      · split at h
        · cases h
        · split_ifs at h with h4
          · cases h; exact Or.inl rfl
          · cases h; exact Or.inr rfl
      · cases h; exact Or.inr rfl

theorem store_loop_status (e : byte_order) (wr : Nat → Option Nat)
    (models : Option (List igre_model)) (k i : Nat) (s : store_state)
    (r : igre_imol_error × store_state) (h : store_loop e wr models k i s = some r) :
    r.1 = IGRE_OPERATION_SUCCESS ∨ r.1 = IGRE_FILE_WRITE_ERROR := by
  induction k generalizing i s with
  | zero => simp only [store_loop] at h; cases h; exact Or.inl rfl
  | succ k ih =>
    simp only [store_loop] at h
    split at h
    · cases h
    · split at h
      · cases h
      · rename_i r1 hr1
        split_ifs at h with h1
        · exact ih _ _ h
        · cases h; exact store_model_status e wr _ s r hr1

theorem igre_store_imol_status (e : byte_order) (opens : Bool) (wr : Nat → Option Nat)
    (l : igre_model_listing) (w : store_result) (h : igre_store_imol e opens wr l = some w) :
    (opens = false ∧ w = { status := IGRE_FILE_OPEN_ERROR, written := [], trace := [.fopen false] }) ∨
    (opens = true ∧
      (w.status = IGRE_OPERATION_SUCCESS ∨ w.status = IGRE_FILE_WRITE_ERROR)) := by
  simp only [igre_store_imol] at h
  split_ifs at h with h0 h1
  · cases h; exact Or.inl ⟨h0, rfl⟩
  · cases h; exact Or.inr ⟨by simpa using h0, Or.inr rfl⟩
  · refine Or.inr ⟨by simpa using h0, ?_⟩
    simp only [Option.map_eq_some'] at h
    obtain ⟨r, hr, hw⟩ := h
    subst hw
    exact store_loop_status e wr _ _ _ _ r hr

/-! ## Streams of the right shape are files of listings -/

theorem models_shape_records (e : byte_order) (n : Nat) (bs : List Nat)
    (hb : ∀ b ∈ bs, b < 256) (h : models_shape e 1 n bs = true) :
    ∃ ms : List igre_model, ms.length = n ∧ (∀ m ∈ ms, valid_model m) ∧
      (∀ m ∈ ms, 1 ≤ m.name_size) ∧ bs = (ms.map (model_record e)).flatten := by
  induction n generalizing bs with
  | zero =>
    simp only [models_shape, List.isEmpty_iff] at h
    exact ⟨[], rfl, by simp, by simp, by simp [h]⟩
  | succ n ih =>
    simp only [models_shape, Bool.and_eq_true, decide_eq_true_eq] at h
    obtain ⟨⟨⟨h16, hmin⟩, hlen⟩, hrest⟩ := h
    obtain ⟨ms, hms, hv, h1, hbs⟩ := ih _ (fun b hb' => hb b (List.mem_of_mem_drop hb')) hrest
    generalize hL : decode_u64 e (bs.take 8) = L at hmin hlen hbs
    generalize hP : decode_u64 e ((bs.drop 8).take 8) = P at hlen hbs
    have hb8 : ∀ b ∈ bs.take 8, b < 256 := fun b hb' => hb b (List.mem_of_mem_take hb')
    have hl8 : (bs.take 8).length = 8 := by simp; omega
    have hl8' : ((bs.drop 8).take 8).length = 8 := chunk_length bs 8 (by omega)
    have hLlt : L < 2 ^ 64 := hL ▸ decode_u64_lt e _ hl8 hb8
    have hPlt : P < 2 ^ 64 := hP ▸ decode_u64_lt e _ hl8' (chunk_bytes bs 8 hb)
    have eL : encode_u64 e L = bs.take 8 := hL ▸ encode_decode_u64 e _ hl8 hb8
    have eP : encode_u64 e P = (bs.drop 8).take 8 :=
      hP ▸ encode_decode_u64 e _ hl8' (chunk_bytes bs 8 hb)
    have hpb : ∀ b ∈ (bs.drop (16 + L)).take (75 * P), b < 256 :=
      fun b hb' => hb b (List.mem_of_mem_drop (List.mem_of_mem_take hb'))
    have hpl : ((bs.drop (16 + L)).take (75 * P)).length = 75 * P := by
      simp only [List.length_take, List.length_drop]; omega
    let m : igre_model :=
      { name_size := L, no_polygons := P, name := some ((bs.drop 16).take L)
        polygons := some (polygons_of_image e P ((bs.drop (16 + L)).take (75 * P))) }
    have hm : valid_model m := by
      refine ⟨hLlt, hPlt, ?_, ?_, ?_, ?_⟩
      · simp only [m, contents, Option.getD_some, List.length_take, List.length_drop]; omega
      · exact fun b hb' => hb b (List.mem_of_mem_drop (List.mem_of_mem_take hb'))
      · exact polygons_of_image_length e P _
      · exact polygons_of_image_valid e P _ hpl hpb
    have hrec : model_record e m = bs.take (16 + L + 75 * P) := by
      rw [model_record_eq e m hm]
      simp only [m, contents, Option.getD_some]
      rw [polygons_image_of_image e P _ hpl hpb, eL, eP, ← List.take_add, ← List.take_add,
        ← List.take_add]
    refine ⟨m :: ms, by simp [hms], ?_, ?_, ?_⟩
    · intro q hq
      rcases List.mem_cons.mp hq with h | h
      · exact h ▸ hm
      · exact hv q h
    · intro q hq
      rcases List.mem_cons.mp hq with h | h
      · subst h; exact hmin
      · exact h1 q h
    · rw [List.map_cons, List.flatten_cons, hrec, ← hbs, List.take_append_drop]

theorem listing_shape_file (e : byte_order) (bs : List Nat) (hb : ∀ b ∈ bs, b < 256)
    (h : listing_shape e 1 bs = true) :
    ∃ l, valid_listing l ∧ names_nonempty l ∧ bs = listing_file e l := by
  simp only [listing_shape, Bool.and_eq_true, decide_eq_true_eq] at h
  obtain ⟨h8, hms⟩ := h
  obtain ⟨ms, hlen, hv, h1, hbs⟩ :=
    models_shape_records e _ _ (fun b hb' => hb b (List.mem_of_mem_drop hb')) hms
  have hb8 : ∀ b ∈ bs.take 8, b < 256 := fun b hb' => hb b (List.mem_of_mem_take hb')
  have hl8 : (bs.take 8).length = 8 := by simp; omega
  refine ⟨{ no_models := decode_u64 e (bs.take 8), models := some ms },
    ⟨decode_u64_lt e _ hl8 hb8, hlen, hv⟩, h1, ?_⟩
  simp only [listing_file, contents, Option.getD_some]
  rw [encode_decode_u64 e _ hl8 hb8, ← hbs, List.take_append_drop]

theorem model_record_loaded (e : byte_order) (m : igre_model) :
    model_record e (loaded_model m) = model_record e m := rfl

theorem listing_file_loaded (e : byte_order) (l : igre_model_listing) :
    listing_file e (loaded_listing l) = listing_file e l := by
  simp [listing_file, loaded_listing, contents, List.map_map, Function.comp_def,
    model_record_loaded]

theorem valid_listing_loaded (l : igre_model_listing) (hv : valid_listing l) :
    valid_listing (loaded_listing l) := by
  obtain ⟨hN, hlen, hms⟩ := hv
  refine ⟨hN, by simpa [loaded_listing, contents] using hlen, ?_⟩
  intro m hm
  simp only [loaded_listing, contents, Option.getD_some, List.mem_map] at hm
  obtain ⟨q, hq, rfl⟩ := hm
  exact hms q hq

/-! ## Sizes and offsets -/

theorem model_record_length (e : byte_order) (m : igre_model) (hm : valid_model m) :
    (model_record e m).length = 16 + m.name_size + 75 * m.no_polygons := by
  rw [model_record_eq e m hm]
  simp only [List.length_append, encode_u64_length, polygons_image_length, hm.2.2.1,
    hm.2.2.2.2.1]

theorem model_records_length (e : byte_order) (ms : List igre_model)
    (hms : ∀ m ∈ ms, valid_model m) :
    ((ms.map (model_record e)).flatten).length =
      (ms.map (fun m => 16 + m.name_size + 75 * m.no_polygons)).sum := by
  induction ms with
  | nil => rfl
  | cons m ms ih =>
    simp only [List.map_cons, List.flatten_cons, List.length_append, List.sum_cons]
    rw [model_record_length e m (hms m (by simp)), ih (fun q hq => hms q (by simp [hq]))]

theorem listing_file_length (e : byte_order) (l : igre_model_listing) (hv : valid_listing l) :
    (listing_file e l).length = listing_file_size l := by
  simp only [listing_file, listing_file_size, List.length_append, encode_u64_length,
    model_records_length e _ hv.2.2]

theorem drop_encode_u64 (e : byte_order) (a : Nat) (rest : List Nat) (n : Nat) :
    (encode_u64 e a ++ rest).drop (n + 8) = rest.drop n := by
  have h : n + 8 = (encode_u64 e a).length + n := by rw [encode_u64_length]; omega
  rw [h, List.drop_append]

theorem take_encode_u64 (e : byte_order) (a : Nat) (rest : List Nat) :
    (encode_u64 e a ++ rest).take 8 = encode_u64 e a := by
  have h := encode_u64_length e a
  rw [← h, List.take_left]

theorem polygon_record_coord (e : byte_order) (p : igre_polygon) (v c : Nat) (hv : v < 3)
    (hc : c < 3) :
    ((polygon_record e p).drop (3 + 8 * (3 * v + c))).take 8 = encode_u64 e (vertex_coord p v c) := by
  interval_cases v <;> interval_cases c <;>
    simp only [polygon_record, vertex_coord, List.map_cons, List.map_nil, List.flatten_cons,
      List.flatten_nil, List.cons_append, List.nil_append, List.drop_succ_cons, List.drop_zero,
      Nat.mul_zero, Nat.add_zero, Nat.zero_add, Nat.mul_one, Nat.reduceMul, Nat.reduceAdd,
      drop_encode_u64 e _ _ 0, drop_encode_u64 e _ _ 8, drop_encode_u64 e _ _ 16,
      drop_encode_u64 e _ _ 24, drop_encode_u64 e _ _ 32, drop_encode_u64 e _ _ 40,
      drop_encode_u64 e _ _ 48, drop_encode_u64 e _ _ 56, take_encode_u64]

theorem polygon_record_length (e : byte_order) (p : igre_polygon) :
    (polygon_record e p).length = 75 := by
  simp [polygon_record, encode_u64_length]

/-! ## The library calls of a store -/

theorem read_buffer_length {α : Type} (p : Option (List α)) (n : Nat) (xs : List α)
    (h : read_buffer p n = some xs) : xs.length = n := by
  cases p with
  | none =>
    simp only [read_buffer] at h
    split_ifs at h with h0
    cases h
    exact h0.symm
  | some ys =>
    simp only [read_buffer] at h
    split_ifs at h with h0
    cases h
    simp only [List.length_take]
    omega

theorem fwrite_put (wr : Nat → Option Nat) (size nmemb : Nat) (data : List Nat)
    (s : store_state) : (fwrite wr size nmemb data s).1 = bytes_put wr s.fwrites data.length :=
  rfl

theorem fwrite_trace (wr : Nat → Option Nat) (size nmemb : Nat) (data : List Nat)
    (s : store_state) :
    (fwrite wr size nmemb data s).2.trace =
      s.trace ++ [.fwrite size nmemb (bytes_put wr s.fwrites data.length)] := rfl

theorem fwrite_fwrites (wr : Nat → Option Nat) (size nmemb : Nat) (data : List Nat)
    (s : store_state) : (fwrite wr size nmemb data s).2.fwrites = s.fwrites + 1 := rfl

theorem fclose_out_trace (s : store_state) : (fclose_out s).trace = s.trace ++ [.fclose] := rfl

theorem store_model_shape (e : byte_order) (wr : Nat → Option Nat) (m : igre_model)
    (s : store_state) (r : igre_imol_error × store_state) (h : store_model e wr m s = some r)
    (hinv : ∀ ev ∈ s.trace, short_write ev = false ∧ ev ≠ .fclose) :
    (r.1 = IGRE_OPERATION_SUCCESS ∧ ∀ ev ∈ r.2.trace, short_write ev = false ∧ ev ≠ .fclose) ∨
    (r.1 = IGRE_FILE_WRITE_ERROR ∧ ∃ pre ev, r.2.trace = pre ++ [ev, .fclose] ∧
      short_write ev = true ∧ ∀ ev' ∈ pre, short_write ev' = false ∧ ev' ≠ .fclose) := by
  have l1 := encode_u64_length e m.name_size
  have l2 := encode_u64_length e m.no_polygons
  simp only [store_model, fwrite_put, fwrite_fwrites, items, sizeof_u64, sizeof_polygon, l1, l2,
    Nat.div_one] at h
  split_ifs at h with h1 h2
  · cases h
    refine Or.inr ⟨rfl, _, _, List.append_assoc _ _ _, ?_, hinv⟩
    simp only [l1, short_write, decide_eq_true_eq]; omega
  · cases h
    have b1 := bytes_put_le wr s.fwrites 8
    refine Or.inr ⟨rfl, _, _, List.append_assoc _ _ _, ?_, ?_⟩
    · simp only [l2, fwrite_fwrites, short_write, decide_eq_true_eq]; omega
    · intro ev hev
      simp only [fwrite_trace, l1, List.mem_append, List.mem_singleton] at hev
      rcases hev with h | h
      · exact hinv ev h
      · subst h; simp only [short_write, decide_eq_false_iff_not, ne_eq, not_false_eq_true,
          and_true, reduceCtorEq]; omega
  · have b1 := bytes_put_le wr s.fwrites 8
    have b2 := bytes_put_le wr (s.fwrites + 1) 8
    have c12 : ∀ ev ∈ (fwrite wr 8 1 (encode_u64 e m.no_polygons)
        (fwrite wr 8 1 (encode_u64 e m.name_size) s).2).2.trace,
        short_write ev = false ∧ ev ≠ .fclose := by
      intro ev hev
      simp only [fwrite_trace, fwrite_fwrites, l1, l2, List.mem_append, List.mem_singleton] at hev
      rcases hev with (h | h) | h
      · exact hinv ev h
      · subst h; simp only [short_write, decide_eq_false_iff_not, ne_eq, not_false_eq_true,
          and_true, reduceCtorEq]; omega
      · subst h
        simp only [short_write, decide_eq_false_iff_not, ne_eq, not_false_eq_true, and_true,
          reduceCtorEq]
        omega
    split at h
    · cases h
    · rename_i nm hnm
      have ln := read_buffer_length _ _ _ hnm
      have b3 := bytes_put_le wr (s.fwrites + 1 + 1) m.name_size
      have f3 : (fwrite wr 8 1 (encode_u64 e m.no_polygons)
          (fwrite wr 8 1 (encode_u64 e m.name_size) s).2).2.fwrites = s.fwrites + 1 + 1 := rfl
      simp only [ln, f3] at h
      split_ifs at h with h3
      · have c123 : ∀ ev ∈ (fwrite wr 1 m.name_size nm (fwrite wr 8 1 (encode_u64 e m.no_polygons)
            (fwrite wr 8 1 (encode_u64 e m.name_size) s).2).2).2.trace,
            short_write ev = false ∧ ev ≠ .fclose := by
          intro ev hev
          rw [fwrite_trace, List.mem_append, List.mem_singleton] at hev
          rcases hev with h | h
          · exact c12 ev h
          · subst h
            simp only [short_write, decide_eq_false_iff_not, ne_eq, not_false_eq_true, and_true,
              reduceCtorEq, ln, f3, h3]
            omega
        split at h
        · cases h
        · rename_i ps hps
          have lp : (polygons_image e ps).length = 75 * m.no_polygons := by
            rw [polygons_image_length, read_buffer_length _ _ _ hps]
          have b4 := bytes_put_le wr (s.fwrites + 1 + 1 + 1) (75 * m.no_polygons)
          have f4 : (fwrite wr 1 m.name_size nm (fwrite wr 8 1 (encode_u64 e m.no_polygons)
            (fwrite wr 8 1 (encode_u64 e m.name_size) s).2).2).2.fwrites
              = s.fwrites + 1 + 1 + 1 := rfl
          simp only [lp, f4] at h
          split_ifs at h with h4
          · cases h
            refine Or.inl ⟨rfl, ?_⟩
            intro ev hev
            rw [fwrite_trace, List.mem_append, List.mem_singleton] at hev
            rcases hev with h | h
            · exact c123 ev h
            · subst h
              simp only [short_write, decide_eq_false_iff_not, ne_eq, not_false_eq_true,
                and_true, reduceCtorEq, lp, f4]
              omega
          · cases h
            refine Or.inr ⟨rfl, _, _, List.append_assoc _ _ _, ?_, c123⟩
            simp only [short_write, decide_eq_true_eq, lp, f4]
            omega
      · cases h
        refine Or.inr ⟨rfl, _, _, List.append_assoc _ _ _, ?_, c12⟩
        simp only [short_write, decide_eq_true_eq, ln, f3]
        omega

theorem store_loop_shape (e : byte_order) (wr : Nat → Option Nat)
    (models : Option (List igre_model)) (k i : Nat) (s : store_state)
    (r : igre_imol_error × store_state) (h : store_loop e wr models k i s = some r)
    (hinv : ∀ ev ∈ s.trace, short_write ev = false ∧ ev ≠ .fclose) :
    (r.1 = IGRE_OPERATION_SUCCESS ∧ ∃ pre, r.2.trace = pre ++ [.fclose] ∧
      ∀ ev ∈ pre, short_write ev = false ∧ ev ≠ .fclose) ∨
    (r.1 = IGRE_FILE_WRITE_ERROR ∧ ∃ pre ev, r.2.trace = pre ++ [ev, .fclose] ∧
      short_write ev = true ∧ ∀ ev' ∈ pre, short_write ev' = false ∧ ev' ≠ .fclose) := by
  induction k generalizing i s with
  | zero =>
    simp only [store_loop] at h
    cases h
    exact Or.inl ⟨rfl, s.trace, rfl, hinv⟩
  | succ k ih =>
    simp only [store_loop] at h
    split at h
    · cases h
    · split at h
      · cases h
      · rename_i r1 hr1
        rcases store_model_shape e wr _ s r1 hr1 hinv with ⟨h1, h2⟩ | ⟨h1, h2⟩
        · rw [if_pos h1] at h
          exact ih _ _ h h2
        · rw [if_neg (by rw [h1]; decide)] at h
          cases h
          exact Or.inr ⟨h1, h2⟩

theorem igre_store_imol_shape (e : byte_order) (wr : Nat → Option Nat)
    (l : igre_model_listing) (w : store_result) (h : igre_store_imol e true wr l = some w) :
    (w.status = IGRE_OPERATION_SUCCESS ∧ ∃ pre, w.trace = pre ++ [.fclose] ∧
      ∀ ev ∈ pre, short_write ev = false ∧ ev ≠ .fclose) ∨
    (w.status = IGRE_FILE_WRITE_ERROR ∧ ∃ pre ev, w.trace = pre ++ [ev, .fclose] ∧
      short_write ev = true ∧ ∀ ev' ∈ pre, short_write ev' = false ∧ ev' ≠ .fclose) := by
  have l1 := encode_u64_length e l.no_models
  have b1 := bytes_put_le wr 0 8
  simp only [igre_store_imol, Bool.true_eq_false, if_false, fwrite_put, items, sizeof_u64,
    l1] at h
  split_ifs at h with h1
  · cases h
    refine Or.inr ⟨rfl, _, _, List.append_assoc _ _ _, ?_, ?_⟩
    · simp only [l1, short_write, decide_eq_true_eq]; omega
    · intro ev hev
      rw [List.mem_singleton.mp hev]
      exact ⟨rfl, by decide⟩
  · obtain ⟨r, hr, hw⟩ := Option.map_eq_some'.mp h
    subst hw
    refine store_loop_shape e wr _ _ _ _ r hr ?_
    intro ev hev
    simp only [fwrite_trace, l1, List.mem_append, List.mem_singleton] at hev
    rcases hev with h | h
    · subst h; exact ⟨rfl, by decide⟩
    · subst h
      simp only [short_write, decide_eq_false_iff_not, ne_eq, not_false_eq_true, and_true,
        reduceCtorEq]
      omega

/-! ## What a successful load has read -/

theorem take_length_of_items (bs : List Nat) (h : ¬ items sizeof_u64 (bs.take (sizeof_u64 * 1)).length = 0) :
    (bs.take 8).length = 8 ∧ 8 ≤ bs.length := by
  simp only [items, sizeof_u64, Nat.mul_one, List.length_take] at h ⊢
  omega

theorem load_model_success (e : byte_order) (alloc : Nat → Bool) (m : igre_model)
    (s : load_state) (h : (load_model e alloc m s).1 = IGRE_OPERATION_SUCCESS) :
    16 ≤ s.stream.length ∧
    1 ≤ decode_u64 e (s.stream.take 8) ∧
    (load_model e alloc m s).2.1 =
      { name_size := decode_u64 e (s.stream.take 8)
        no_polygons := decode_u64 e ((s.stream.drop 8).take 8)
        name := some (overlay ((s.stream.drop 16).take (decode_u64 e (s.stream.take 8)))
          (List.replicate (decode_u64 e (s.stream.take 8)) 0))
        polygons := some (polygons_of_image e (decode_u64 e ((s.stream.drop 8).take 8))
          (overlay ((s.stream.drop (16 + decode_u64 e (s.stream.take 8))).take
              (75 * decode_u64 e ((s.stream.drop 8).take 8)))
            (List.replicate (75 * decode_u64 e ((s.stream.drop 8).take 8)) 0))) } ∧
    (load_model e alloc m s).2.2.stream =
      s.stream.drop (16 + decode_u64 e (s.stream.take 8)
        + 75 * decode_u64 e ((s.stream.drop 8).take 8)) := by
  generalize hr : load_model e alloc m s = r at h
  simp only [load_model] at hr
  split_ifs at hr with h1 h2 h3 h4 h5 h6 <;> subst hr <;> try (cases h)
  rw [fread_got] at h1
  rw [fread_got, fread_stream] at h2
  obtain ⟨t1, g1⟩ := take_length_of_items _ h1
  obtain ⟨t2, g2⟩ := take_length_of_items _ h2
  simp only [sizeof_u64, Nat.mul_one, List.length_drop] at g2 t2
  have o1 : ∀ x, overlay (s.stream.take 8) (encode_u64 e x) = s.stream.take 8 :=
    fun x => overlay_full _ _ (by rw [encode_u64_length, t1])
  have o2 : ∀ x, overlay ((s.stream.drop 8).take 8) (encode_u64 e x) = (s.stream.drop 8).take 8 :=
    fun x => overlay_full _ _ (by rw [encode_u64_length, t2])
  simp only [fread_got, fread_stream, calloc_stream, sizeof_u64, sizeof_polygon, Nat.mul_one,
    Nat.one_mul, o1, o2, List.drop_drop, items, Nat.div_one, List.length_take,
    List.length_drop] at h5 ⊢
  have h5' : ¬ min (decode_u64 e (s.stream.take 8)) (s.stream.length - (8 + 8)) = 0 := h5
  exact ⟨by omega, by omega, trivial, trivial⟩

theorem overlay_length (got old : List Nat) (h : got.length ≤ old.length) :
    (overlay got old).length = old.length := by
  simp only [overlay, List.length_append, List.length_drop]
  omega

theorem load_loop_success (e : byte_order) (alloc : Nat → Bool) (k : Nat)
    (pre : List igre_model) (s : load_state)
    (h : (load_loop e alloc k pre.length (pre ++ List.replicate k zero_model) s).1
      = IGRE_OPERATION_SUCCESS) :
    ∃ new, (load_loop e alloc k pre.length (pre ++ List.replicate k zero_model) s).2.1
        = pre ++ new ∧
      new.length = k ∧
      new.map (fun m => (m.name_size, m.no_polygons, m.name)) =
        (stream_models e k s.stream).map
          (fun x => (x.1, x.2.1, some (overlay x.2.2 (List.replicate x.1 0)))) ∧
      ∀ m ∈ new, 1 ≤ m.name_size ∧ (∃ nm, m.name = some nm ∧ nm.length = m.name_size) ∧
        ∃ ps, m.polygons = some ps ∧ ps.length = m.no_polygons := by
  induction k generalizing pre s with
  | zero => exact ⟨[], by simp [load_loop], rfl, rfl, by simp⟩
  | succ k ih =>
    simp only [load_loop, List.replicate_succ, getD_at_length, set_at_length] at h ⊢
    by_cases hm : (load_model e alloc zero_model s).1 = IGRE_OPERATION_SUCCESS
    · rw [if_pos hm] at h ⊢
      obtain ⟨h16, hL, hrec, hstream⟩ := load_model_success e alloc zero_model s hm
      have ih' := ih (pre ++ [(load_model e alloc zero_model s).2.1])
        (load_model e alloc zero_model s).2.2
      simp only [List.length_append, List.length_singleton, List.append_assoc,
        List.singleton_append] at ih'
      obtain ⟨new, hnew, hlen, hmap, hall⟩ := ih' h
      refine ⟨(load_model e alloc zero_model s).2.1 :: new, hnew, by simp [hlen], ?_, ?_⟩
      · rw [stream_models, if_neg (by omega), List.map_cons, List.map_cons, hmap, hstream, hrec]
      · intro q hq
        rcases List.mem_cons.mp hq with hq | hq
        · subst hq
          rw [hrec]
          refine ⟨hL, ⟨_, rfl, ?_⟩, ⟨_, rfl, polygons_of_image_length e _ _⟩⟩
          rw [overlay_length _ _ (by simp), List.length_replicate]
        · exact hall q hq
    · rw [if_neg hm] at h
      exact absurd h hm

theorem igre_load_imol_success (e : byte_order) (file : Option (List Nat))
    (alloc : Nat → Bool) (l0 : igre_model_listing)
    (h : (igre_load_imol e file alloc l0).status = IGRE_OPERATION_SUCCESS) :
    ∃ bytes ms, file = some bytes ∧ 8 ≤ bytes.length ∧
      (igre_load_imol e file alloc l0).listing =
        { no_models := decode_u64 e (bytes.take 8), models := some ms } ∧
      ms.length = decode_u64 e (bytes.take 8) ∧
      ms.map (fun m => (m.name_size, m.no_polygons, m.name)) =
        (stream_models e (decode_u64 e (bytes.take 8)) (bytes.drop 8)).map
          (fun x => (x.1, x.2.1, some (overlay x.2.2 (List.replicate x.1 0)))) ∧
      ∀ m ∈ ms, 1 ≤ m.name_size ∧ (∃ nm, m.name = some nm ∧ nm.length = m.name_size) ∧
        ∃ ps, m.polygons = some ps ∧ ps.length = m.no_polygons := by
  cases file with
  | none => simp [igre_load_imol] at h
  | some bytes =>
    generalize hr : igre_load_imol e (some bytes) alloc l0 = r at h
    simp only [igre_load_imol] at hr
    split_ifs at hr with h1 h2 <;> subst hr <;> try (cases h)
    rw [fread_got] at h1
    obtain ⟨t1, g1⟩ := take_length_of_items _ h1
    have o1 : overlay (bytes.take 8) (encode_u64 e l0.no_models) = bytes.take 8 :=
      overlay_full _ _ (by rw [encode_u64_length, t1])
    simp only [fread_got, sizeof_u64, Nat.mul_one, o1] at h ⊢
    have key := load_loop_success e alloc (decode_u64 e (bytes.take 8)) []
      (calloc alloc (decode_u64 e (List.take 8 bytes)) sizeof_model
        (fread 8 1 { stream := bytes, callocs := 0, trace := [io_call.fopen true] }).2).2
    simp only [List.length_nil, List.nil_append] at key
    obtain ⟨new, hnew, hlen, hmap, hall⟩ := key h
    refine ⟨bytes, new, rfl, g1, by rw [hnew], hlen, ?_, hall⟩
    rw [hmap]
    rfl

/-! ## Loads without allocation failure -/

theorem load_model_no_alloc_error (e : byte_order) (alloc : Nat → Bool)
    (ha : ∀ k, alloc k = true) (m : igre_model) (s : load_state) :
    (load_model e alloc m s).1 ≠ IGRE_MEMORY_ALLOCATION_ERROR := by
  generalize hr : load_model e alloc m s = r
  simp only [load_model] at hr
  split_ifs at hr with h1 h2 h3 h4 h5 h6 <;> subst hr
  · intro h; cases h
  · intro h; cases h
  · rw [calloc_ok, ha] at h3; cases h3
  · rw [calloc_ok, ha] at h4; cases h4
  · intro h; cases h
  · intro h; cases h
  · intro h; cases h

theorem load_loop_no_alloc_error (e : byte_order) (alloc : Nat → Bool)
    (ha : ∀ k, alloc k = true) (k i : Nat) (ms : List igre_model) (s : load_state) :
    (load_loop e alloc k i ms s).1 ≠ IGRE_MEMORY_ALLOCATION_ERROR := by
  induction k generalizing i ms s with
  | zero => simp [load_loop]
  | succ k ih =>
    simp only [load_loop]
    split_ifs with h
    · exact ih _ _ _
    · exact load_model_no_alloc_error e alloc ha _ _

theorem igre_load_imol_no_alloc_error (e : byte_order) (file : Option (List Nat))
    (alloc : Nat → Bool) (ha : ∀ k, alloc k = true) (l0 : igre_model_listing) :
    (igre_load_imol e file alloc l0).status ≠ IGRE_MEMORY_ALLOCATION_ERROR := by
  cases file with
  | none => simp [igre_load_imol]
  | some bytes =>
    generalize hr : igre_load_imol e (some bytes) alloc l0 = r
    simp only [igre_load_imol] at hr
    split_ifs at hr with h1 h2 <;> subst hr
    · intro h; cases h
    · rw [calloc_ok, ha] at h2; cases h2
    · exact load_loop_no_alloc_error e alloc ha _ _ _ _

theorem igre_load_imol_empty_name (e : byte_order) (bytes : List Nat) (alloc : Nat → Bool)
    (ha : ∀ k, alloc k = true) (l0 : igre_model_listing)
    (h0 : ∃ x ∈ stream_models e (decode_u64 e (bytes.take 8)) (bytes.drop 8), x.1 = 0) :
    (igre_load_imol e (some bytes) alloc l0).status = IGRE_FILE_READ_ERROR := by
  rcases igre_load_imol_shape e bytes alloc l0 with ⟨h | h, _⟩ | ⟨h, _⟩
  · exfalso
    obtain ⟨bytes', ms, hfile, _, _, _, hmap, hall⟩ :=
      igre_load_imol_success e (some bytes) alloc l0 h
    cases hfile
    obtain ⟨x, hx, hx0⟩ := h0
    have hmem : (x.1, x.2.1, some (overlay x.2.2 (List.replicate x.1 0))) ∈
        ms.map (fun m => (m.name_size, m.no_polygons, m.name)) := by
      rw [hmap]; exact List.mem_map.mpr ⟨x, hx, rfl⟩
    obtain ⟨m, hm, hmx⟩ := List.mem_map.mp hmem
    have h1 := (hall m hm).1
    have : m.name_size = x.1 := congrArg Prod.fst hmx
    omega
  · exact h
  · exact absurd h (igre_load_imol_no_alloc_error e (some bytes) alloc ha l0)

/-! ## What the file of a listing declares -/

theorem stream_models_prefix (e : byte_order) (ms : List igre_model)
    (hv : ∀ m ∈ ms, valid_model m) (k : Nat) (rest : List Nat) :
    stream_models e (ms.length + k) ((ms.map (model_record e)).flatten ++ rest) =
      ms.map (fun m => (m.name_size, m.no_polygons, contents m.name))
        ++ stream_models e k rest := by
  induction ms with
  | nil => simp
  | cons m ms ih =>
    have hm := hv m (by simp)
    have hrec := model_record_eq e m hm
    obtain ⟨hL, hP, hn, _, hp, _⟩ := hm
    have hpl := polygons_image_length e (contents m.polygons)
    rw [hp] at hpl
    have l1 := encode_u64_length e m.name_size
    have l2 := encode_u64_length e m.no_polygons
    generalize hrest : (ms.map (model_record e)).flatten ++ rest = tl at ih
    have hs : (List.map (model_record e) (m :: ms)).flatten ++ rest =
        encode_u64 e m.name_size ++ (encode_u64 e m.no_polygons ++
          (contents m.name ++ (polygons_image e (contents m.polygons) ++ tl))) := by
      rw [List.map_cons, List.flatten_cons, hrec, ← hrest]
      simp only [List.append_assoc]
    rw [hs]
    generalize hbs : encode_u64 e m.name_size ++ (encode_u64 e m.no_polygons ++
          (contents m.name ++ (polygons_image e (contents m.polygons) ++ tl))) = bs
    have t1 : bs.take 8 = encode_u64 e m.name_size := by
      rw [← hbs, ← l1, List.take_left]
    have s1 : bs.drop 8 = encode_u64 e m.no_polygons ++
        (contents m.name ++ (polygons_image e (contents m.polygons) ++ tl)) := by
      rw [← hbs, ← l1, List.drop_left]
    have t2 : (bs.drop 8).take 8 = encode_u64 e m.no_polygons := by
      rw [s1, ← l2, List.take_left]
    have s2 : bs.drop 16 = contents m.name ++ (polygons_image e (contents m.polygons) ++ tl) := by
      have : bs.drop 16 = (bs.drop 8).drop 8 := by rw [List.drop_drop]
      rw [this, s1, ← l2, List.drop_left]
    have t3 : (bs.drop 16).take m.name_size = contents m.name := by
      rw [s2, ← hn, List.take_left]
    have s3 : bs.drop (16 + m.name_size + 75 * m.no_polygons) = tl := by
      have : bs.drop (16 + m.name_size + 75 * m.no_polygons)
          = ((bs.drop 16).drop m.name_size).drop (75 * m.no_polygons) := by
        rw [List.drop_drop, List.drop_drop]; congr 1; omega
      rw [this, s2, ← hn, List.drop_left, ← hpl, List.drop_left]
    have hlen : ¬ bs.length < 16 := by
      rw [← hbs]; simp only [List.length_append, l1, l2]; omega
    have hsucc : (m :: ms).length + k = (ms.length + k) + 1 := by
      simp only [List.length_cons]; omega
    rw [hsucc, stream_models, if_neg hlen, t1, t2,
      decode_encode_u64 e _ hL, decode_encode_u64 e _ hP, t3, s3, List.map_cons,
      ih (fun q hq => hv q (by simp [hq])), List.cons_append]

theorem stream_models_records (e : byte_order) (ms : List igre_model)
    (hv : ∀ m ∈ ms, valid_model m) (rest : List Nat) :
    stream_models e ms.length ((ms.map (model_record e)).flatten ++ rest) =
      ms.map (fun m => (m.name_size, m.no_polygons, contents m.name)) := by
  have := stream_models_prefix e ms hv 0 rest
  simpa [stream_models] using this

/-! ## The file handle of a call -/

theorem handles_after_snoc (pick : List Nat → Nat) (t : List io_call) (ev : io_call)
    (st : handle_state) :
    handles_after pick (t ++ [ev]) st
      = (handles_after pick t st).bind (fun st' => handle_step pick st' ev) := by
  induction t generalizing st with
  | nil => simp [handles_after]
  | cons a t ih =>
    simp only [List.cons_append, handles_after]
    cases handle_step pick st a with
    | none => rfl
    | some st1 => simpa using ih st1

theorem handles_after_append (pick : List Nat → Nat) (t u : List io_call) (st : handle_state) :
    handles_after pick (t ++ u) st = (handles_after pick t st).bind (handles_after pick u) := by
  induction t generalizing st with
  | nil => simp [handles_after]
  | cons a t ih =>
    simp only [List.cons_append, handles_after]
    cases handle_step pick st a with
    | none => rfl
    | some st1 => simpa using ih st1

theorem handle_step_fclose (pick : List Nat → Nat) (st : handle_state) (h : Nat)
    (hf : st.f = some h) (hin : h ∈ st.open_handles) :
    handle_step pick st .fclose
      = some { st with open_handles := st.open_handles.erase h, fcloses := st.fcloses + 1 } := by
  simp [handle_step, hf, hin]

theorem handle_step_fread (pick : List Nat → Nat) (st : handle_state) (h : Nat)
    (hf : st.f = some h) (hin : h ∈ st.open_handles) (a b c : Nat) :
    handle_step pick st (.fread a b c) = some st := by
  simp [handle_step, handle_use, hf, hin]

theorem handle_step_fwrite (pick : List Nat → Nat) (st : handle_state) (h : Nat)
    (hf : st.f = some h) (hin : h ∈ st.open_handles) (a b c : Nat) :
    handle_step pick st (.fwrite a b c) = some st := by
  simp [handle_step, handle_use, hf, hin]

theorem handle_step_calloc (pick : List Nat → Nat) (st : handle_state) (a b : Nat) (c : Bool) :
    handle_step pick st (.calloc a b c) = some st := rfl

theorem load_model_handles (e : byte_order) (alloc : Nat → Bool) (pick : List Nat → Nat)
    (m : igre_model) (s : load_state) (st0 st : handle_state) (h : Nat)
    (hrun : handles_after pick s.trace st0 = some st) (hf : st.f = some h)
    (hin : h ∈ st.open_handles) :
    handles_after pick (load_model e alloc m s).2.2.trace st0 =
      if (load_model e alloc m s).1 = IGRE_OPERATION_SUCCESS then some st
      else some { st with open_handles := st.open_handles.erase h, fcloses := st.fcloses + 1 } := by
  generalize hr : load_model e alloc m s = r
  simp only [load_model] at hr
  split_ifs at hr with h1 h2 h3 h4 h5 h6 <;> subst hr <;>
    simp [fclose_trace, fread_trace, calloc_trace, handles_after_append, hrun, handles_after,
      handle_step_fclose pick st h hf hin, handle_step_fread pick st h hf hin,
      handle_step_calloc]

theorem load_loop_handles (e : byte_order) (alloc : Nat → Bool) (pick : List Nat → Nat)
    (k i : Nat) (ms : List igre_model) (s : load_state) (st0 st : handle_state) (h : Nat)
    (hrun : handles_after pick s.trace st0 = some st) (hf : st.f = some h)
    (hin : h ∈ st.open_handles) :
    handles_after pick (load_loop e alloc k i ms s).2.2.trace st0 =
      some { st with open_handles := st.open_handles.erase h, fcloses := st.fcloses + 1 } := by
  induction k generalizing i ms s with
  | zero =>
    simp [load_loop, fclose_trace, handles_after_snoc, hrun, handle_step_fclose pick st h hf hin]
  | succ k ih =>
    have hm := load_model_handles e alloc pick (ms.getD i zero_model) s st0 st h hrun hf hin
    simp only [load_loop]
    split_ifs with hs
    · rw [if_pos hs] at hm
      exact ih _ _ _ hm
    · rw [if_neg hs] at hm
      exact hm

theorem igre_load_imol_handles (e : byte_order) (pick : List Nat → Nat) (hs : List Nat)
    (bytes : List Nat) (alloc : Nat → Bool) (l0 : igre_model_listing) :
    handles_after pick (igre_load_imol e (some bytes) alloc l0).trace
        { open_handles := hs, f := none, fopens := 0, fcloses := 0 } =
      some { open_handles := hs, f := some (pick hs), fopens := 1, fcloses := 1 } := by
  have hopen : handles_after pick [.fopen true]
      { open_handles := hs, f := none, fopens := 0, fcloses := 0 } =
      some { open_handles := pick hs :: hs, f := some (pick hs), fopens := 1, fcloses := 0 } := rfl
  generalize hr : igre_load_imol e (some bytes) alloc l0 = r
  simp only [igre_load_imol] at hr
  split_ifs at hr with h1 h2 <;> subst hr
  · simp [fclose_trace, fread_trace, handles_after, handle_step, handle_use]
  · simp [fclose_trace, fread_trace, calloc_trace, handles_after, handle_step, handle_use]
  · have := load_loop_handles e alloc pick
      (decode_u64 e (overlay (fread sizeof_u64 1
        { stream := bytes, callocs := 0, trace := [.fopen true] }).1 (encode_u64 e l0.no_models)))
      0 (List.replicate (decode_u64 e (overlay (fread sizeof_u64 1
        { stream := bytes, callocs := 0, trace := [.fopen true] }).1 (encode_u64 e l0.no_models)))
        zero_model)
      (calloc alloc (decode_u64 e (overlay (fread sizeof_u64 1
        { stream := bytes, callocs := 0, trace := [.fopen true] }).1 (encode_u64 e l0.no_models)))
        sizeof_model (fread sizeof_u64 1
        { stream := bytes, callocs := 0, trace := [.fopen true] }).2).2
      { open_handles := hs, f := none, fopens := 0, fcloses := 0 }
      { open_handles := pick hs :: hs, f := some (pick hs), fopens := 1, fcloses := 0 }
      (pick hs)
      (by simp [fread_trace, calloc_trace, handles_after, handle_step, handle_use])
      rfl (by simp)
    simpa using this

theorem store_model_handles (e : byte_order) (wr : Nat → Option Nat) (pick : List Nat → Nat)
    (m : igre_model) (s : store_state) (r : igre_imol_error × store_state)
    (hr : store_model e wr m s = some r) (st0 st : handle_state) (h : Nat)
    (hrun : handles_after pick s.trace st0 = some st) (hf : st.f = some h)
    (hin : h ∈ st.open_handles) :
    handles_after pick r.2.trace st0 =
      if r.1 = IGRE_OPERATION_SUCCESS then some st
      else some { st with open_handles := st.open_handles.erase h, fcloses := st.fcloses + 1 } := by
  simp only [store_model] at hr
  split_ifs at hr with h1 h2
  · cases hr
    simp [fclose_out_trace, fwrite_trace, handles_after_append, hrun, handles_after,
      handle_step_fclose pick st h hf hin, handle_step_fwrite pick st h hf hin]
  · cases hr
    simp [fclose_out_trace, fwrite_trace, handles_after_append, hrun, handles_after,
      handle_step_fclose pick st h hf hin, handle_step_fwrite pick st h hf hin]
  · split at hr
    · cases hr
    · split_ifs at hr with h3
      · split at hr
        · cases hr
        · split_ifs at hr with h4
          · cases hr
            simp [fclose_out_trace, fwrite_trace, handles_after_append, hrun, handles_after,
              handle_step_fclose pick st h hf hin, handle_step_fwrite pick st h hf hin]
          · cases hr
            simp [fclose_out_trace, fwrite_trace, handles_after_append, hrun, handles_after,
              handle_step_fclose pick st h hf hin, handle_step_fwrite pick st h hf hin]
      · cases hr
        simp [fclose_out_trace, fwrite_trace, handles_after_append, hrun, handles_after,
          handle_step_fclose pick st h hf hin, handle_step_fwrite pick st h hf hin]

theorem store_loop_handles (e : byte_order) (wr : Nat → Option Nat) (pick : List Nat → Nat)
    (models : Option (List igre_model)) (k i : Nat) (s : store_state)
    (r : igre_imol_error × store_state) (hr : store_loop e wr models k i s = some r)
    (st0 st : handle_state) (h : Nat)
    (hrun : handles_after pick s.trace st0 = some st) (hf : st.f = some h)
    (hin : h ∈ st.open_handles) :
    handles_after pick r.2.trace st0 =
      some { st with open_handles := st.open_handles.erase h, fcloses := st.fcloses + 1 } := by
  induction k generalizing i s with
  | zero =>
    simp only [store_loop] at hr
    cases hr
    simp [fclose_out_trace, handles_after_append, hrun, handles_after,
      handle_step_fclose pick st h hf hin]
  | succ k ih =>
    simp only [store_loop] at hr
    split at hr
    · cases hr
    · split at hr
      · cases hr
      · rename_i r1 hr1
        have hm := store_model_handles e wr pick _ s r1 hr1 st0 st h hrun hf hin
        split_ifs at hr with hs
        · rw [if_pos hs] at hm
          exact ih _ _ hr hm
        · cases hr
          rw [if_neg hs] at hm
          exact hm

theorem igre_store_imol_handles (e : byte_order) (pick : List Nat → Nat) (hs : List Nat)
    (wr : Nat → Option Nat) (l : igre_model_listing) (w : store_result)
    (hw : igre_store_imol e true wr l = some w) :
    handles_after pick w.trace { open_handles := hs, f := none, fopens := 0, fcloses := 0 } =
      some { open_handles := hs, f := some (pick hs), fopens := 1, fcloses := 1 } := by
  simp only [igre_store_imol, Bool.true_eq_false, if_false] at hw
  split_ifs at hw with h1
  · cases hw
    simp [fclose_out_trace, fwrite_trace, handles_after, handle_step, handle_use]
  · obtain ⟨r, hr, hwr⟩ := Option.map_eq_some'.mp hw
    subst hwr
    have := store_loop_handles e wr pick l.models l.no_models 0 _ r hr
      { open_handles := hs, f := none, fopens := 0, fcloses := 0 }
      { open_handles := pick hs :: hs, f := some (pick hs), fopens := 1, fcloses := 0 }
      (pick hs)
      (by simp [fwrite_trace, handles_after, handle_step, handle_use])
      rfl (by simp)
    simpa using this

/-! ## The memory effects of a store -/

theorem store_model_leaves_memory (e : byte_order) (wr : Nat → Option Nat)
    (m : igre_model) (s : store_state) (r : igre_imol_error × store_state)
    (hr : store_model e wr m s = some r)
    (hinv : ∀ ev ∈ s.trace, leaves_memory ev = true) :
    ∀ ev ∈ r.2.trace, leaves_memory ev = true := by
  have step : ∀ (t : List io_call) (ev : io_call), (∀ x ∈ t, leaves_memory x = true) →
      leaves_memory ev = true → ∀ x ∈ t ++ [ev], leaves_memory x = true := by
    intro t ev ht hev x hx
    rcases List.mem_append.mp hx with h | h
    · exact ht x h
    · rw [List.mem_singleton.mp h]; exact hev
  simp only [store_model] at hr
  split_ifs at hr with h1 h2
  · cases hr
    exact step _ _ (step _ _ hinv rfl) rfl
  · cases hr
    exact step _ _ (step _ _ (step _ _ hinv rfl) rfl) rfl
  · split at hr
    · cases hr
    · split_ifs at hr with h3
      · split at hr
        · cases hr
        · split_ifs at hr with h4
          · cases hr
            exact step _ _ (step _ _ (step _ _ (step _ _ hinv rfl) rfl) rfl) rfl
          · cases hr
            exact step _ _ (step _ _ (step _ _ (step _ _ (step _ _ hinv rfl) rfl) rfl) rfl) rfl
      · cases hr
        exact step _ _ (step _ _ (step _ _ (step _ _ hinv rfl) rfl) rfl) rfl

theorem store_loop_leaves_memory (e : byte_order) (wr : Nat → Option Nat)
    (models : Option (List igre_model)) (k i : Nat) (s : store_state)
    (r : igre_imol_error × store_state) (hr : store_loop e wr models k i s = some r)
    (hinv : ∀ ev ∈ s.trace, leaves_memory ev = true) :
    ∀ ev ∈ r.2.trace, leaves_memory ev = true := by
  induction k generalizing i s with
  | zero =>
    simp only [store_loop] at hr
    cases hr
    intro ev hev
    rcases List.mem_append.mp hev with h | h
    · exact hinv ev h
    · rw [List.mem_singleton.mp h]; rfl
  | succ k ih =>
    simp only [store_loop] at hr
    split at hr
    · cases hr
    · split at hr
      · cases hr
      · rename_i r1 hr1
        have hm := store_model_leaves_memory e wr _ s r1 hr1 hinv
        split_ifs at hr with hs
        · exact ih _ _ hr hm
        · cases hr
          exact hm

theorem igre_store_imol_leaves_memory (e : byte_order) (opens : Bool)
    (wr : Nat → Option Nat) (l : igre_model_listing) (w : store_result)
    (hw : igre_store_imol e opens wr l = some w) :
    ∀ ev ∈ w.trace, leaves_memory ev = true := by
  simp only [igre_store_imol] at hw
  split_ifs at hw with h0 h1
  · cases hw
    intro ev hev
    rw [List.mem_singleton.mp hev]; rfl
  · cases hw
    intro ev hev
    simp only [fclose_out_trace, fwrite_trace, List.mem_append, List.mem_singleton] at hev
    rcases hev with (h | h) | h <;> rw [h] <;> rfl
  · obtain ⟨r, hr, hwr⟩ := Option.map_eq_some'.mp hw
    subst hwr
    refine store_loop_leaves_memory e wr l.models l.no_models 0 _ r hr ?_
    intro ev hev
    simp only [fwrite_trace, List.mem_append, List.mem_singleton] at hev
    rcases hev with h | h <;> rw [h] <;> rfl

theorem memory_after_of_leaves (t : List io_call) (mem : igre_model_listing × List Nat)
    (h : ∀ ev ∈ t, leaves_memory ev = true) : memory_after t mem = some mem := by
  induction t with
  | nil => rfl
  | cons ev t ih =>
    simp only [memory_after, h ev (by simp), if_true]
    exact ih (fun x hx => h x (by simp [hx]))

/-! ## The buffers a load allocates -/

theorem calloc_callocs (alloc : Nat → Bool) (nmemb size : Nat) (s : load_state) :
    (calloc alloc nmemb size s).2.callocs = s.callocs + 1 := rfl

theorem nodup_snoc_pick (pick : List Nat → Nat) (hpick : ∀ hs, pick hs ∉ hs) (live : List Nat)
    (h : live.Nodup) : (live ++ [pick live]).Nodup := by
  rw [List.nodup_append]
  refine ⟨h, List.nodup_singleton _, ?_⟩
  intro a ha hb
  rw [List.mem_singleton.mp hb] at ha
  exact hpick live ha

theorem load_model_at_buffers (e : byte_order) (alloc : Nat → Bool) (pick : List Nat → Nat)
    (hpick : ∀ hs, pick hs ∉ hs) (s : heap_state) (hl : s.live.Nodup) :
    (load_model_at e alloc pick zero_model_at s).2.2.live
      = s.live ++ slot_buffers (load_model_at e alloc pick zero_model_at s).2.1 ∧
    (load_model_at e alloc pick zero_model_at s).2.2.live.Nodup ∧
    ((load_model_at e alloc pick zero_model_at s).1 = IGRE_OPERATION_SUCCESS ∨
     (load_model_at e alloc pick zero_model_at s).1 = IGRE_FILE_READ_ERROR ∨
     (load_model_at e alloc pick zero_model_at s).1 = IGRE_MEMORY_ALLOCATION_ERROR) := by
  have n3 := nodup_snoc_pick pick hpick s.live hl
  have n4 := nodup_snoc_pick pick hpick _ n3
  generalize hr : load_model_at e alloc pick zero_model_at s = r
  cases hA : alloc s.io.callocs with
  | false =>
    simp only [load_model_at, calloc_at, calloc_ok, calloc_callocs, fread_callocs, hA,
      if_true] at hr
    split_ifs at hr with h1 h2 <;> subst hr <;>
      exact ⟨by simp [slot_buffers, zero_model_at], hl, by simp⟩
  | true =>
    cases hB : alloc (s.io.callocs + 1) with
    | false =>
      simp only [load_model_at, calloc_at, calloc_ok, calloc_callocs, fread_callocs, hA, hB,
        if_true, Bool.true_eq_false, if_false] at hr
      split_ifs at hr with h1 h2 <;> subst hr
      · exact ⟨by simp [slot_buffers, zero_model_at], hl, by simp⟩
      · exact ⟨by simp [slot_buffers, zero_model_at], hl, by simp⟩
      · exact ⟨by simp [slot_buffers, zero_model_at], n3, by simp⟩
    | true =>
      simp only [load_model_at, calloc_at, calloc_ok, calloc_callocs, fread_callocs, hA, hB,
        Bool.true_eq_false, if_false] at hr
      split_ifs at hr with h1 h2 h5 h6 <;> subst hr
      · exact ⟨by simp [slot_buffers, zero_model_at], hl, by simp⟩
      · exact ⟨by simp [slot_buffers, zero_model_at], hl, by simp⟩
      · exact ⟨by simp [slot_buffers, zero_model_at], n4, by simp⟩
      · exact ⟨by simp [slot_buffers, zero_model_at], n4, by simp⟩
      · exact ⟨by simp [slot_buffers, zero_model_at], n4, by simp⟩

theorem load_loop_at_buffers (e : byte_order) (alloc : Nat → Bool) (pick : List Nat → Nat)
    (hpick : ∀ hs, pick hs ∉ hs) (k : Nat) (pre : List igre_model_at) (s : heap_state)
    (base : List Nat) (hl : s.live = base ++ (pre.map slot_buffers).flatten)
    (hn : s.live.Nodup) :
    ∃ new n0,
      (load_loop_at e alloc pick k pre.length
          (pre ++ List.replicate k zero_model_at) s).2.2.1
        = pre ++ new ++ List.replicate n0 zero_model_at ∧
      new.length + n0 = k ∧
      (load_loop_at e alloc pick k pre.length
          (pre ++ List.replicate k zero_model_at) s).2.2.2.live
        = base ++ ((pre ++ new).map slot_buffers).flatten ∧
      (load_loop_at e alloc pick k pre.length
          (pre ++ List.replicate k zero_model_at) s).2.2.2.live.Nodup ∧
      (((load_loop_at e alloc pick k pre.length
            (pre ++ List.replicate k zero_model_at) s).1 = IGRE_OPERATION_SUCCESS ∧
          n0 = 0 ∧
          (load_loop_at e alloc pick k pre.length
            (pre ++ List.replicate k zero_model_at) s).2.1 = pre.length + k) ∨
       (((load_loop_at e alloc pick k pre.length
            (pre ++ List.replicate k zero_model_at) s).1 = IGRE_FILE_READ_ERROR ∨
         (load_loop_at e alloc pick k pre.length
            (pre ++ List.replicate k zero_model_at) s).1 = IGRE_MEMORY_ALLOCATION_ERROR) ∧
        (load_loop_at e alloc pick k pre.length
            (pre ++ List.replicate k zero_model_at) s).2.1 + 1 = pre.length + new.length)) := by
  induction k generalizing pre s with
  | zero =>
    refine ⟨[], 0, by simp [load_loop_at], rfl, by simpa [load_loop_at] using hl,
      by simpa [load_loop_at] using hn, Or.inl ⟨rfl, rfl, rfl⟩⟩
  | succ k ih =>
    obtain ⟨b1, b2, b3⟩ := load_model_at_buffers e alloc pick hpick s hn
    simp only [load_loop_at, List.replicate_succ, getD_at_length, set_at_length]
    by_cases hs : (load_model_at e alloc pick zero_model_at s).1 = IGRE_OPERATION_SUCCESS
    · rw [if_pos hs]
      have ih' := ih (pre ++ [(load_model_at e alloc pick zero_model_at s).2.1])
        (load_model_at e alloc pick zero_model_at s).2.2
        (by rw [b1, hl]; simp) b2
      simp only [List.length_append, List.length_singleton, List.append_assoc,
        List.singleton_append] at ih'
      obtain ⟨new, n0, h1, h2, h3, h4, h5⟩ := ih'
      refine ⟨(load_model_at e alloc pick zero_model_at s).2.1 :: new, n0, ?_, ?_, ?_, h4, ?_⟩
      · rw [h1]; simp
      · simp only [List.length_cons]; omega
      · rw [h3]
      · rcases h5 with ⟨c1, c2, c3⟩ | ⟨c1, c2⟩
        · exact Or.inl ⟨c1, c2, by rw [c3]; omega⟩
        · exact Or.inr ⟨c1, by rw [c2, List.length_cons]; omega⟩
    · rw [if_neg hs]
      refine ⟨[(load_model_at e alloc pick zero_model_at s).2.1], k, by simp,
        by simp only [List.length_singleton]; omega, ?_, b2,
        Or.inr ⟨?_, by simp⟩⟩
      · rw [b1, hl]; simp
      · rcases b3 with h | h | h
        · exact absurd h hs
        · exact Or.inl h
        · exact Or.inr h

/-! ## Freeing what a load allocated -/

theorem free_head {α : Type} (b : buffer α) (base tail fr : List Nat)
    (hn : (base ++ b.addr :: tail).Nodup) :
    free (some b) { live := base ++ b.addr :: tail, freed := fr }
      = some { live := base ++ tail, freed := fr ++ [b.addr] } := by
  have hnot : b.addr ∉ base := by
    intro hmem
    exact (List.nodup_append.mp hn).2.2 hmem (List.mem_cons_self _ _)
  simp [free, List.erase_append_right _ hnot]

theorem nodup_drop_head (base tail : List Nat) (a : Nat) (hn : (base ++ a :: tail).Nodup) :
    (base ++ tail).Nodup := by
  have := List.nodup_append.mp hn
  refine List.nodup_append.mpr ⟨this.1, (List.nodup_cons.mp this.2.1).2, ?_⟩
  intro x hx hx'
  exact this.2.2 hx (List.mem_cons_of_mem _ hx')

theorem free_slot (m : igre_model_at) (base tail fr : List Nat)
    (hn : (base ++ (slot_buffers m ++ tail)).Nodup) :
    (free m.name { live := base ++ (slot_buffers m ++ tail), freed := fr }).bind
        (free m.polygons)
      = some { live := base ++ tail, freed := fr ++ slot_buffers m } := by
  obtain ⟨ns, np, name, polygons⟩ := m
  cases name with
  | none =>
    cases polygons with
    | none => simp [free, slot_buffers]
    | some p =>
      simp only [slot_buffers, Option.map_none', Option.toList_none, Option.map_some',
        Option.toList_some, List.nil_append, List.singleton_append] at hn ⊢
      simp only [free, Option.some_bind]
      exact free_head p base tail fr hn
  | some n =>
    cases polygons with
    | none =>
      simp only [slot_buffers, Option.map_none', Option.toList_none, Option.map_some',
        Option.toList_some, List.append_nil, List.singleton_append] at hn ⊢
      rw [free_head n base tail fr hn]
      simp [free]
    | some p =>
      simp only [slot_buffers, Option.map_some', Option.toList_some, List.singleton_append,
        List.cons_append, List.nil_append] at hn ⊢
      rw [free_head n base (p.addr :: tail) fr hn, Option.some_bind,
        free_head p base tail _ (nodup_drop_head _ _ _ hn)]
      simp

theorem free_loop_slots (a0 : Nat) (arr : List igre_model_at) (base : List Nat)
    (ha : a0 ∈ base) (k i : Nat) (st : free_state) (hk : i + k = arr.length)
    (hl : st.live = base ++ ((arr.drop i).map slot_buffers).flatten) (hn : st.live.Nodup) :
    free_loop (some { addr := a0, data := arr }) k i st
      = some { live := base, freed := st.freed ++ ((arr.drop i).map slot_buffers).flatten } := by
  induction k generalizing i st with
  | zero =>
    have : arr.drop i = [] := List.drop_eq_nil_of_le (by omega)
    obtain ⟨live, freed⟩ := st
    simp only [this, List.map_nil, List.flatten_nil, List.append_nil] at hl ⊢
    simp [free_loop, hl]
  | succ k ih =>
    have hi : i < arr.length := by omega
    have hdrop : arr.drop i = arr[i] :: arr.drop (i + 1) := List.drop_eq_getElem_cons hi
    obtain ⟨live, freed⟩ := st
    simp only at hl hn
    rw [hdrop, List.map_cons, List.flatten_cons] at hl ⊢
    have hmem : a0 ∈ live := by rw [hl]; exact List.mem_append_left _ ha
    subst hl
    have hslot : model_slot (some { addr := a0, data := arr }) i
        { live := base ++ (slot_buffers arr[i] ++
            ((arr.drop (i + 1)).map slot_buffers).flatten), freed := freed } = some arr[i] := by
      simp only [model_slot, List.get?_eq_getElem?, List.getElem?_eq_getElem hi]
      rw [if_pos hmem]
    simp only [free_loop, hslot]
    rw [free_slot arr[i] base _ freed hn, Option.some_bind]
    have hn' : (base ++ ((arr.drop (i + 1)).map slot_buffers).flatten).Nodup := by
      have := List.nodup_append.mp hn
      have h2 := List.nodup_append.mp this.2.1
      refine List.nodup_append.mpr ⟨this.1, h2.2.1, ?_⟩
      intro x hx hx'
      exact this.2.2 hx (List.mem_append_right _ hx')
    rw [ih (i + 1) _ (by omega) rfl hn']
    simp

theorem flatten_replicate_zero (n : Nat) :
    ((List.replicate n zero_model_at).map slot_buffers).flatten = [] := by
  induction n with
  | zero => rfl
  | succ n ih => simp [List.replicate_succ, slot_buffers, zero_model_at]

theorem igre_load_imol_at_buffers (e : byte_order) (bytes : List Nat) (alloc : Nat → Bool)
    (pick : List Nat → Nat) (hpick : ∀ hs, pick hs ∉ hs) (l0 : igre_model_listing_at)
    (live0 : List Nat) (hn : live0.Nodup) (h8 : 8 ≤ bytes.length) (ha : alloc 0 = true) :
    ∃ new n0,
      (igre_load_imol_at e (some bytes) alloc pick l0 live0).listing
        = { no_models := decode_u64 e (bytes.take 8)
            models := some { addr := pick live0
                             data := new ++ List.replicate n0 zero_model_at } } ∧
      new.length + n0 = decode_u64 e (bytes.take 8) ∧
      (igre_load_imol_at e (some bytes) alloc pick l0 live0).live
        = (live0 ++ [pick live0]) ++ (new.map slot_buffers).flatten ∧
      (igre_load_imol_at e (some bytes) alloc pick l0 live0).live.Nodup ∧
      (((igre_load_imol_at e (some bytes) alloc pick l0 live0).status = IGRE_OPERATION_SUCCESS ∧
          n0 = 0 ∧
          (igre_load_imol_at e (some bytes) alloc pick l0 live0).reached
            = decode_u64 e (bytes.take 8)) ∨
       (((igre_load_imol_at e (some bytes) alloc pick l0 live0).status = IGRE_FILE_READ_ERROR ∨
         (igre_load_imol_at e (some bytes) alloc pick l0 live0).status
            = IGRE_MEMORY_ALLOCATION_ERROR) ∧
        (igre_load_imol_at e (some bytes) alloc pick l0 live0).reached + 1 = new.length)) := by
  have t8 : (bytes.take 8).length = 8 := by simp; omega
  have o1 : overlay (bytes.take 8) (encode_u64 e l0.no_models) = bytes.take 8 :=
    overlay_full _ _ (by rw [encode_u64_length, t8])
  have c1 : ¬ items 8 8 = 0 := by decide
  have key := load_loop_at_buffers e alloc pick hpick (decode_u64 e (bytes.take 8)) []
    { io := (calloc alloc (decode_u64 e (bytes.take 8)) sizeof_model
        (fread sizeof_u64 1 { stream := bytes, callocs := 0, trace := [.fopen true] }).2).2
      live := live0 ++ [pick live0] }
    (live0 ++ [pick live0]) (by simp) (nodup_snoc_pick pick hpick live0 hn)
  simp only [List.length_nil, List.nil_append, Nat.zero_add] at key
  obtain ⟨new, n0, k1, k2, k3, k4, k5⟩ := key
  simp only [sizeof_u64] at k1 k3 k4 k5
  refine ⟨new, n0, ?_, k2, ?_, ?_, ?_⟩ <;>
    simp only [igre_load_imol_at, calloc_at, calloc_ok, fread_callocs, fread_got, sizeof_u64,
      Nat.mul_one, o1, t8, if_neg c1, ha, Bool.true_eq_false, if_false]
  · rw [k1]
  · exact k3
  · exact k4
  · exact k5

theorem igre_free_imol_after_load (e : byte_order) (bytes : List Nat) (alloc : Nat → Bool)
    (pick : List Nat → Nat) (hpick : ∀ hs, pick hs ∉ hs) (l0 : igre_model_listing_at)
    (live0 : List Nat) (hn : live0.Nodup) (h8 : 8 ≤ bytes.length) (ha : alloc 0 = true) :
    ∃ arr,
      (igre_load_imol_at e (some bytes) alloc pick l0 live0).listing.models = some arr ∧
      (igre_load_imol_at e (some bytes) alloc pick l0 live0).live
        = live0 ++ arr.addr :: (arr.data.map slot_buffers).flatten ∧
      (arr.addr :: (arr.data.map slot_buffers).flatten).Nodup ∧
      (∀ a ∈ arr.addr :: (arr.data.map slot_buffers).flatten, a ∉ live0) ∧
      igre_free_imol (igre_load_imol_at e (some bytes) alloc pick l0 live0).listing
          (igre_load_imol_at e (some bytes) alloc pick l0 live0).live
        = some { live := live0, freed := (arr.data.map slot_buffers).flatten ++ [arr.addr] } := by
  obtain ⟨new, n0, h1, h2, h3, h4, _⟩ :=
    igre_load_imol_at_buffers e bytes alloc pick hpick l0 live0 hn h8 ha
  have hflat : ((new ++ List.replicate n0 zero_model_at).map slot_buffers).flatten
      = (new.map slot_buffers).flatten := by
    simp [slot_buffers, zero_model_at]
  have hnd := List.nodup_append.mp (by rw [h3, List.append_assoc] at h4; exact h4)
  refine ⟨{ addr := pick live0, data := new ++ List.replicate n0 zero_model_at },
    by rw [h1], ?_, ?_, ?_, ?_⟩
  · rw [h3, hflat, List.append_assoc]; rfl
  · rw [hflat]; exact hnd.2.1
  · rw [hflat]; exact fun a ha' hl => hnd.2.2 hl ha'
  have hloop := free_loop_slots (pick live0) (new ++ List.replicate n0 zero_model_at)
    (live0 ++ [pick live0]) (by simp) (decode_u64 e (bytes.take 8)) 0
    { live := (igre_load_imol_at e (some bytes) alloc pick l0 live0).live, freed := [] }
    (by simp only [List.length_append, List.length_replicate]; omega)
    (by rw [List.drop_zero, hflat]; exact h3) h4
  rw [List.drop_zero] at hloop
  simp only [igre_free_imol, h1, hloop, Option.some_bind, List.nil_append]
  have hfree := free_head ({ addr := pick live0, data := new ++ List.replicate n0 zero_model_at }
      : buffer igre_model_at) live0 []
      (((new ++ List.replicate n0 zero_model_at).map slot_buffers).flatten)
    (nodup_snoc_pick pick hpick live0 hn)
  simpa using hfree

theorem le_foldr_max (hs : List Nat) (a : Nat) (h : a ∈ hs) : a ≤ hs.foldr max 0 := by
  induction hs with
  | nil => cases h
  | cons b hs ih =>
    simp only [List.foldr_cons]
    rcases List.mem_cons.mp h with hab | hab
    · subst hab; exact Nat.le_max_left _ _
    · exact Nat.le_trans (ih hab) (Nat.le_max_right _ _)

theorem next_address_not_mem (hs : List Nat) : next_address hs ∉ hs := by
  intro h
  have := le_foldr_max hs _ h
  simp only [next_address] at this
  omega

/-! ## The load with addresses is the load -/

theorem forget_model_name_size (m : igre_model_at) :
    (forget_model m).name_size = m.name_size := rfl

theorem forget_model_no_polygons (m : igre_model_at) :
    (forget_model m).no_polygons = m.no_polygons := rfl

theorem forget_load_model (e : byte_order) (alloc : Nat → Bool) (pick : List Nat → Nat)
    (m : igre_model_at) (s : heap_state) :
    (load_model_at e alloc pick m s).1 = (load_model e alloc (forget_model m) s.io).1 ∧
    forget_model (load_model_at e alloc pick m s).2.1
      = (load_model e alloc (forget_model m) s.io).2.1 ∧
    (load_model_at e alloc pick m s).2.2.io = (load_model e alloc (forget_model m) s.io).2.2 := by
  cases hA : alloc s.io.callocs with
  | false =>
    simp only [load_model_at, load_model, calloc_at, calloc_ok, calloc_callocs, fread_callocs,
      forget_model_name_size, forget_model_no_polygons, hA, if_true]
    split_ifs <;> simp [forget_model]
  | true =>
    cases hB : alloc (s.io.callocs + 1) with
    | false =>
      simp only [load_model_at, load_model, calloc_at, calloc_ok, calloc_callocs, fread_callocs,
        forget_model_name_size, forget_model_no_polygons, hA, hB, if_true, Bool.true_eq_false,
        if_false]
      split_ifs <;> simp [forget_model]
    | true =>
      simp only [load_model_at, load_model, calloc_at, calloc_ok, calloc_callocs, fread_callocs,
        forget_model_name_size, forget_model_no_polygons, hA, hB, Bool.true_eq_false, if_false]
      split_ifs <;> simp [forget_model]

theorem forget_getD (ms : List igre_model_at) (i : Nat) :
    forget_model (ms.getD i zero_model_at) = (ms.map forget_model).getD i zero_model := by
  induction ms generalizing i with
  | nil => rfl
  | cons a ms ih =>
    cases i with
    | zero => rfl
    | succ i => simpa using ih i

theorem forget_load_loop (e : byte_order) (alloc : Nat → Bool) (pick : List Nat → Nat)
    (k i : Nat) (ms : List igre_model_at) (s : heap_state) :
    (load_loop_at e alloc pick k i ms s).1
      = (load_loop e alloc k i (ms.map forget_model) s.io).1 ∧
    (load_loop_at e alloc pick k i ms s).2.2.1.map forget_model
      = (load_loop e alloc k i (ms.map forget_model) s.io).2.1 ∧
    (load_loop_at e alloc pick k i ms s).2.2.2.io
      = (load_loop e alloc k i (ms.map forget_model) s.io).2.2 := by
  induction k generalizing i ms s with
  | zero => exact ⟨rfl, rfl, rfl⟩
  | succ k ih =>
    obtain ⟨f1, f2, f3⟩ := forget_load_model e alloc pick (ms.getD i zero_model_at) s
    rw [forget_getD] at f1 f2 f3
    simp only [load_loop_at, load_loop, ← f1]
    split_ifs with hs
    · have := ih (i + 1) (ms.set i (load_model_at e alloc pick (ms.getD i zero_model_at) s).2.1)
        (load_model_at e alloc pick (ms.getD i zero_model_at) s).2.2
      rw [List.map_set, f2, f3] at this
      exact this
    · exact ⟨rfl, by rw [List.map_set, f2], f3⟩

theorem forget_igre_load_imol (e : byte_order) (file : Option (List Nat)) (alloc : Nat → Bool)
    (pick : List Nat → Nat) (l : igre_model_listing_at) (live : List Nat) :
    (igre_load_imol_at e file alloc pick l live).status
      = (igre_load_imol e file alloc (forget_listing l)).status ∧
    forget_listing (igre_load_imol_at e file alloc pick l live).listing
      = (igre_load_imol e file alloc (forget_listing l)).listing ∧
    (igre_load_imol_at e file alloc pick l live).trace
      = (igre_load_imol e file alloc (forget_listing l)).trace := by
  cases file with
  | none => exact ⟨rfl, rfl, rfl⟩
  | some bytes =>
    cases hA : alloc 0 with
    | false =>
      simp only [igre_load_imol_at, igre_load_imol, calloc_at, calloc_ok, fread_callocs, hA,
        if_true]
      split_ifs <;> simp [forget_listing]
    | true =>
      simp only [igre_load_imol_at, igre_load_imol, calloc_at, calloc_ok, fread_callocs, hA,
        Bool.true_eq_false, if_false]
      split_ifs with h1
      · simp [forget_listing]
      · have := forget_load_loop e alloc pick
          (decode_u64 e (overlay (fread sizeof_u64 1
            { stream := bytes, callocs := 0, trace := [.fopen true] }).1
            (encode_u64 e l.no_models))) 0
          (List.replicate (decode_u64 e (overlay (fread sizeof_u64 1
            { stream := bytes, callocs := 0, trace := [.fopen true] }).1
            (encode_u64 e l.no_models))) zero_model_at)
          { io := (calloc alloc (decode_u64 e (overlay (fread sizeof_u64 1
              { stream := bytes, callocs := 0, trace := [.fopen true] }).1
              (encode_u64 e l.no_models))) sizeof_model (fread sizeof_u64 1
              { stream := bytes, callocs := 0, trace := [.fopen true] }).2).2
            live := live ++ [pick live] }
        have hz : forget_model zero_model_at = zero_model := rfl
        simp only [List.map_replicate, hz] at this
        obtain ⟨g1, g2, g3⟩ := this
        have hN : (forget_listing l).no_models = l.no_models := rfl
        simp only [hN]
        refine ⟨g1, ?_, by rw [g3]⟩
        simp only [forget_listing, Option.map_some', g2]

/-! ## Loads that meet a name of length 0 -/

theorem igre_load_imol_after_records (e : byte_order) (N : Nat) (ms : List igre_model)
    (rest : List Nat) (alloc : Nat → Bool) (l0 : igre_model_listing)
    (hv : ∀ m ∈ ms, valid_model m) (hlt : ms.length < N) (hN : N < 2 ^ 64)
    (ha : ∀ k, alloc k = true) :
    (igre_load_imol e
      (some (encode_u64 e N ++ (ms.map (model_record e)).flatten ++ encode_u64 e 0 ++ rest))
      alloc l0).status = IGRE_FILE_READ_ERROR := by
  generalize hbytes :
    encode_u64 e N ++ (ms.map (model_record e)).flatten ++ encode_u64 e 0 ++ rest = bytes
  have l8 := encode_u64_length e N
  have t8 : bytes.take 8 = encode_u64 e N := by
    rw [← hbytes, List.append_assoc, List.append_assoc, ← l8, List.take_left]
  have d8 : bytes.drop 8 = (ms.map (model_record e)).flatten ++ (encode_u64 e 0 ++ rest) := by
    rw [← hbytes, List.append_assoc, List.append_assoc, ← l8, List.drop_left]
  have dN : decode_u64 e (bytes.take 8) = N := by rw [t8, decode_encode_u64 e N hN]
  rcases igre_load_imol_shape e bytes alloc l0 with ⟨h | h, _⟩ | ⟨h, _⟩
  · exfalso
    obtain ⟨bytes', ms', hfile, _, _, hlen, hmap, hall⟩ :=
      igre_load_imol_success e (some bytes) alloc l0 h
    cases hfile
    obtain ⟨k, hk⟩ : ∃ k, N = ms.length + (k + 1) := ⟨N - ms.length - 1, by omega⟩
    rw [dN] at hlen hmap
    rw [d8, hk, stream_models_prefix e ms hv] at hmap
    have l0' := encode_u64_length e 0
    by_cases hshort : (encode_u64 e 0 ++ rest).length < 16
    · rw [stream_models, if_pos hshort, List.append_nil] at hmap
      have := congrArg List.length hmap
      simp only [List.length_map] at this
      omega
    · rw [stream_models, if_neg hshort] at hmap
      have hmem : (0, decode_u64 e (((encode_u64 e 0 ++ rest).drop 8).take 8),
          some (overlay (((encode_u64 e 0 ++ rest).drop 16).take 0) (List.replicate 0 0)))
          ∈ ms'.map (fun m => (m.name_size, m.no_polygons, m.name)) := by
        rw [hmap, take_encode_u64, decode_encode_u64 e 0 (by decide)]
        simp
      obtain ⟨m, hm, hmx⟩ := List.mem_map.mp hmem
      have h1 := (hall m hm).1
      have : m.name_size = 0 := congrArg Prod.fst hmx
      omega
  · exact h
  · exact absurd h (igre_load_imol_no_alloc_error e (some bytes) alloc ha l0)

theorem split_first_empty_name (ms : List igre_model) (h : ∃ m ∈ ms, m.name_size = 0) :
    ∃ pre m post, ms = pre ++ m :: post ∧ (∀ x ∈ pre, 1 ≤ x.name_size) ∧ m.name_size = 0 := by
  induction ms with
  | nil => obtain ⟨m, hm, _⟩ := h; cases hm
  | cons a ms ih =>
    by_cases ha : a.name_size = 0
    · exact ⟨[], a, ms, rfl, by simp, ha⟩
    · obtain ⟨m, hm, hm0⟩ := h
      rcases List.mem_cons.mp hm with hma | hma
      · subst hma; exact absurd hm0 ha
      · obtain ⟨pre, m', post, hsplit, hpre, hm'⟩ := ih ⟨m, hma, hm0⟩
        refine ⟨a :: pre, m', post, by rw [hsplit]; rfl, ?_, hm'⟩
        intro x hx
        rcases List.mem_cons.mp hx with hxa | hxa
        · subst hxa; omega
        · exact hpre x hxa

theorem igre_load_imol_listing_empty_name (e : byte_order) (l : igre_model_listing)
    (hv : valid_listing l) (h0 : ∃ m ∈ contents l.models, m.name_size = 0)
    (alloc : Nat → Bool) (ha : ∀ k, alloc k = true) (l0 : igre_model_listing) :
    (igre_load_imol e (some (listing_file e l)) alloc l0).status = IGRE_FILE_READ_ERROR := by
  obtain ⟨hN, hlen, hms⟩ := hv
  obtain ⟨pre, m, post, hsplit, _, hm0⟩ := split_first_empty_name _ h0
  have hm : valid_model m := hms m (by rw [hsplit]; simp)
  have hfile : listing_file e l =
      encode_u64 e l.no_models ++ (pre.map (model_record e)).flatten ++ encode_u64 e 0 ++
        (encode_u64 e m.no_polygons ++ contents m.name ++ polygons_image e (contents m.polygons)
          ++ (post.map (model_record e)).flatten) := by
    rw [listing_file, hsplit, List.map_append, List.map_cons, List.flatten_append,
      List.flatten_cons, model_record_eq e m hm, hm0]
    simp only [List.append_assoc]
  rw [hfile]
  refine igre_load_imol_after_records e l.no_models pre _ alloc l0
    (fun x hx => hms x (by rw [hsplit]; simp [hx])) ?_ hN ha
  rw [← hlen, hsplit]
  simp

/-! ## The file after a store -/

theorem stored_file_of_fclose (flush : Option Nat) (taken : List Nat)
    (h : (fclose_file flush taken).1 = true) : (fclose_file flush taken).2 = taken := by
  cases flush with
  | none => rfl
  | some cap =>
    simp only [fclose_file, List.isEmpty_iff, List.drop_eq_nil_iff] at h
    simp only [fclose_file]
    exact List.take_of_length_le h

theorem igre_store_imol_success_written (e : byte_order) (opens : Bool) (wr : Nat → Option Nat)
    (l : igre_model_listing) (w : store_result) (hv : valid_listing l)
    (hs : igre_store_imol e opens wr l = some w) (hok : w.status = IGRE_OPERATION_SUCCESS) :
    w.written = listing_file e l := by
  rcases igre_store_imol_status e opens wr l w hs with ⟨_, hw⟩ | ⟨ho, _⟩
  · rw [hw] at hok; cases hok
  · subst ho
    obtain ⟨w', hs', hc, _⟩ := igre_store_imol_spec e wr l hv
    rw [hs] at hs'
    cases hs'
    rcases hc with ⟨_, hwr, _⟩ | ⟨hbad, _⟩
    · exact hwr
    · rw [hok] at hbad; cases hbad

/-! ## The claims -/

/-- C1: storing a valid listing whose names all have at least one byte, the
file opening and every write completing, returns success, and loading the
bytes written, every allocation succeeding, returns success with a listing
of the same content: the same model count and, model by model in order, the
same name length, polygon count, name bytes and polygons (fill bytes and
vertex coordinates). Models without polygons are included. -/
theorem store_load_round_trip (e : byte_order) (l l0 : igre_model_listing)
    (wr : Nat → Option Nat) (alloc : Nat → Bool)
    (hv : valid_listing l) (h1 : names_nonempty l)
    (hw : ∀ k, wr k = none) (ha : ∀ k, alloc k = true) :
    ∃ w, igre_store_imol e true wr l = some w ∧ w.status = IGRE_OPERATION_SUCCESS ∧
      (igre_load_imol e (some w.written) alloc l0).status = IGRE_OPERATION_SUCCESS ∧
      listing_content (igre_load_imol e (some w.written) alloc l0).listing
        = listing_content l := by
  obtain ⟨w, hs, hc, hok⟩ := igre_store_imol_spec e wr l hv
  have hsucc := hok hw
  rcases hc with ⟨_, hwr, _⟩ | ⟨hbad, _⟩
  · have hload := igre_load_imol_listing_file e alloc ha l hv h1 [] l0
    rw [List.append_nil, ← hwr] at hload
    exact ⟨w, hs, hsucc, hload.1, by rw [hload.2, listing_content_loaded]⟩
  · rw [hsucc] at hbad; cases hbad

/-- Witness of C1 on the two-model scenario, whose second model has no
polygons. -/
theorem store_load_round_trip_witness :
    valid_listing scenario_listing ∧ names_nonempty scenario_listing ∧
    ∃ w, igre_store_imol .little true (fun _ => none) scenario_listing = some w ∧
      w.status = IGRE_OPERATION_SUCCESS ∧
      (igre_load_imol .little (some w.written) (fun _ => true) ⟨7, none⟩).status
        = IGRE_OPERATION_SUCCESS ∧
      listing_content (igre_load_imol .little (some w.written) (fun _ => true) ⟨7, none⟩).listing
        = listing_content scenario_listing :=
  ⟨by decide, by decide,
    store_load_round_trip .little scenario_listing ⟨7, none⟩ (fun _ => none) (fun _ => true)
      (by decide) (by decide) (fun _ => rfl) (fun _ => rfl)⟩

/-- C2, amended: when `igre_store_imol` returns success on a valid listing
and the `fclose` that flushes the stream succeeds, the bytes in the file are
exactly the model count followed by the model records in order (name length,
polygon count, name bytes, polygon records), with nothing before, between or
after; every polygon record has 75 bytes, starts with the fill bytes R, G, B
and holds the coordinate `[v][c]` as an 8-byte integer in host byte order at
offset `3 + 8 * (3 * v + c)`. -/
theorem store_byte_layout (e : byte_order) (opens : Bool) (wr : Nat → Option Nat)
    (flush : Option Nat) (l : igre_model_listing) (w : store_result) (hv : valid_listing l)
    (hs : igre_store_imol e opens wr l = some w) (hok : w.status = IGRE_OPERATION_SUCCESS)
    (hfl : (fclose_file flush w.written).1 = true) :
    stored_file flush w = listing_file e l ∧
    ∀ m ∈ contents l.models, ∀ p ∈ contents m.polygons,
      (polygon_record e p).length = 75 ∧
      (polygon_record e p).take 3 = [p.fill.1, p.fill.2.1, p.fill.2.2] ∧
      ∀ v c, v < 3 → c < 3 →
        ((polygon_record e p).drop (3 + 8 * (3 * v + c))).take 8
          = encode_u64 e (vertex_coord p v c) := by
  refine ⟨?_, fun m _ p _ =>
    ⟨polygon_record_length e p, rfl, fun v c hv hc => polygon_record_coord e p v c hv hc⟩⟩
  rw [stored_file, stored_file_of_fclose flush w.written hfl]
  exact igre_store_imol_success_written e opens wr l w hv hs hok

/-- Witness of C2 on the two-model scenario, little-endian host, the device
taking the 120 bytes of the stream: the bytes in the file, field by field. -/
theorem store_byte_layout_witness :
    stored_file (some 120)
      ⟨IGRE_OPERATION_SUCCESS, listing_file .little scenario_listing,
        [.fopen true, .fwrite 8 1 8, .fwrite 8 1 8, .fwrite 8 1 8, .fwrite 1 2 2,
          .fwrite 75 1 75, .fwrite 8 1 8, .fwrite 8 1 8, .fwrite 1 3 3, .fwrite 75 0 0,
          .fclose]⟩
      = encode_u64 .little 2 ++ (encode_u64 .little 2 ++ encode_u64 .little 1 ++ [65, 0] ++
        ([255, 0, 0] ++ encode_u64 .little 0 ++ encode_u64 .little 0 ++ encode_u64 .little 0 ++
          encode_u64 .little 1 ++ encode_u64 .little 0 ++ encode_u64 .little 0 ++
          encode_u64 .little 0 ++ encode_u64 .little 1 ++ encode_u64 .little 0)) ++
      (encode_u64 .little 3 ++ encode_u64 .little 0 ++ [66, 66, 0]) ∧
    ∀ m ∈ contents scenario_listing.models, ∀ p ∈ contents m.polygons,
      (polygon_record .little p).length = 75 ∧
      (polygon_record .little p).take 3 = [p.fill.1, p.fill.2.1, p.fill.2.2] ∧
      ∀ v c, v < 3 → c < 3 →
        ((polygon_record .little p).drop (3 + 8 * (3 * v + c))).take 8
          = encode_u64 .little (vertex_coord p v c) :=
  have h := store_byte_layout .little true (fun _ => none) (some 120) scenario_listing
    ⟨IGRE_OPERATION_SUCCESS, listing_file .little scenario_listing,
      [.fopen true, .fwrite 8 1 8, .fwrite 8 1 8, .fwrite 8 1 8, .fwrite 1 2 2,
        .fwrite 75 1 75, .fwrite 8 1 8, .fwrite 8 1 8, .fwrite 1 3 3, .fwrite 75 0 0,
        .fclose]⟩
    (by decide) (by decide) rfl (by decide)
  ⟨h.1.trans (by decide), h.2⟩

/-- C2 as stated fails: on the two-model scenario, every `fwrite` reporting
all its bytes as written and the device taking 16 bytes when `fclose` flushes
the stream, `igre_store_imol` returns success, `fclose` fails, and the file
holds the first 16 of the 120 bytes of the listing. -/
theorem store_success_truncated_file :
    valid_listing scenario_listing ∧
    (igre_store_imol .little true (fun _ => none) scenario_listing).map
        (fun w => (w.status, (fclose_file (some 16) w.written).1, stored_file (some 16) w))
      = some (IGRE_OPERATION_SUCCESS, false, encode_u64 .little 2 ++ encode_u64 .little 2) ∧
    encode_u64 .little 2 ++ encode_u64 .little 2 ≠ listing_file .little scenario_listing :=
  ⟨by decide, by decide, by decide⟩

/-- C3, amended: a successful `igre_store_imol` of a valid listing whose
closing `fclose` succeeds leaves a file of exactly
`8 + sum (16 + L_i + 75 * P_i)` bytes; in particular the two-model scenario
is stored as exactly 120 bytes, and loading those 120 bytes, every allocation
succeeding, gives back that same listing. -/
theorem stored_file_size (e : byte_order) (opens : Bool) (wr : Nat → Option Nat)
    (flush : Option Nat) (l : igre_model_listing) (w : store_result) (hv : valid_listing l)
    (hs : igre_store_imol e opens wr l = some w) (hok : w.status = IGRE_OPERATION_SUCCESS)
    (hfl : (fclose_file flush w.written).1 = true) :
    (stored_file flush w).length = listing_file_size l ∧
    (l = scenario_listing →
      (stored_file flush w).length = 120 ∧
      ∀ (alloc : Nat → Bool) (l0 : igre_model_listing), (∀ k, alloc k = true) →
        (igre_load_imol e (some (stored_file flush w)) alloc l0).status
          = IGRE_OPERATION_SUCCESS ∧
        (igre_load_imol e (some (stored_file flush w)) alloc l0).listing
          = scenario_listing) := by
  have hwr : stored_file flush w = listing_file e l := by
    rw [stored_file, stored_file_of_fclose flush w.written hfl]
    exact igre_store_imol_success_written e opens wr l w hv hs hok
  have hlen : (stored_file flush w).length = listing_file_size l := by
    rw [hwr, listing_file_length e l hv]
  refine ⟨hlen, fun hl => ?_⟩
  subst hl
  refine ⟨hlen, fun alloc l0 ha => ?_⟩
  have hload := igre_load_imol_listing_file e alloc ha scenario_listing hv (by decide) [] l0
  rw [List.append_nil, ← hwr] at hload
  exact ⟨hload.1, hload.2.trans (by decide)⟩

/-- Witness of C3 on the two-model scenario, little-endian host, the flush
at `fclose` taking every byte. -/
theorem stored_file_size_witness :
    (listing_file .little scenario_listing).length = listing_file_size scenario_listing ∧
    (listing_file .little scenario_listing).length = 120 ∧
    (igre_load_imol .little (some (listing_file .little scenario_listing)) (fun _ => true)
      ⟨9, none⟩).status = IGRE_OPERATION_SUCCESS ∧
    (igre_load_imol .little (some (listing_file .little scenario_listing)) (fun _ => true)
      ⟨9, none⟩).listing = scenario_listing :=
  have h := stored_file_size .little true (fun _ => none) none scenario_listing
    ⟨IGRE_OPERATION_SUCCESS, listing_file .little scenario_listing,
      [.fopen true, .fwrite 8 1 8, .fwrite 8 1 8, .fwrite 8 1 8, .fwrite 1 2 2,
        .fwrite 75 1 75, .fwrite 8 1 8, .fwrite 8 1 8, .fwrite 1 3 3, .fwrite 75 0 0,
        .fclose]⟩
    (by decide) (by decide) rfl rfl
  ⟨h.1, (h.2 rfl).1, (h.2 rfl).2 (fun _ => true) ⟨9, none⟩ (fun _ => rfl)⟩

/-- C3 as stated fails, three times over on the two-model scenario: stored
with success and every byte reaching the file, the file has 120 bytes and not
112; stored with success while the device takes 16 bytes when `fclose`
flushes the stream, the file has 16 bytes and not the 120 of the formula;
and on the 120 bytes of the complete file `igre_load_imol` returns the
allocation error, and not that listing, when `calloc` returns `NULL`. -/
theorem scenario_file_not_112_bytes :
    (igre_store_imol .little true (fun _ => none) scenario_listing).map
        (fun w => (w.status, (stored_file none w).length,
          decide ((stored_file none w).length = 112)))
      = some (IGRE_OPERATION_SUCCESS, 120, false) ∧
    (igre_store_imol .little true (fun _ => none) scenario_listing).map
        (fun w => (w.status, (stored_file (some 16) w).length, listing_file_size scenario_listing))
      = some (IGRE_OPERATION_SUCCESS, 16, 120) ∧
    (igre_store_imol .little true (fun _ => none) scenario_listing).map
        (fun w => ((igre_load_imol .little (some (stored_file none w)) (fun _ => false)
            ⟨0, none⟩).status,
          decide ((igre_load_imol .little (some (stored_file none w)) (fun _ => false)
            ⟨0, none⟩).listing = scenario_listing)))
      = some (IGRE_MEMORY_ALLOCATION_ERROR, false) :=
  ⟨by decide, by decide, by decide⟩

/-- C4, amended: a listing with model count 0 is stored, the file opening
and the write completing, as exactly 8 bytes, the encoding of the count 0;
and loading those 8 bytes, provided the allocation of the model array
returns a buffer, returns success with model count 0 and a model array that
is allocated and has no elements. -/
theorem empty_listing (e : byte_order) (l l0 : igre_model_listing) (wr : Nat → Option Nat)
    (alloc : Nat → Bool) (h0 : l.no_models = 0) (hw : bytes_put wr 0 8 = 8)
    (ha : alloc 0 = true) :
    (∃ w, igre_store_imol e true wr l = some w ∧ w.status = IGRE_OPERATION_SUCCESS ∧
      w.written = encode_u64 e 0 ∧ w.written.length = 8) ∧
    (igre_load_imol e (some (encode_u64 e 0)) alloc l0).status = IGRE_OPERATION_SUCCESS ∧
    (igre_load_imol e (some (encode_u64 e 0)) alloc l0).listing
      = { no_models := 0, models := some [] } := by
  have l8 := encode_u64_length e 0
  have t8 : (encode_u64 e 0).take 8 = encode_u64 e 0 := by rw [← l8, List.take_length]
  have d0 := decode_encode_u64 e 0 (by decide)
  refine ⟨⟨⟨IGRE_OPERATION_SUCCESS, encode_u64 e 0, [.fopen true, .fwrite 8 1 8, .fclose]⟩,
    ?_, rfl, rfl, l8⟩, ?_, ?_⟩
  · simp [igre_store_imol, fwrite, items, sizeof_u64, h0, l8, hw, store_loop, fclose_out, t8]
  · simp [igre_load_imol, fread, calloc, items, sizeof_u64, t8, l8, overlay_u64, d0, ha,
      load_loop]
  · simp [igre_load_imol, fread, calloc, items, sizeof_u64, t8, l8, overlay_u64, d0, ha,
      load_loop]

/-- Witness of C4 on the empty listing with a null model array. -/
theorem empty_listing_witness :
    (∃ w, igre_store_imol .big true (fun _ => none) ⟨0, none⟩ = some w ∧
      w.status = IGRE_OPERATION_SUCCESS ∧
      w.written = encode_u64 .big 0 ∧ w.written.length = 8) ∧
    (igre_load_imol .big (some (encode_u64 .big 0)) (fun _ => true) ⟨5, none⟩).status
      = IGRE_OPERATION_SUCCESS ∧
    (igre_load_imol .big (some (encode_u64 .big 0)) (fun _ => true) ⟨5, none⟩).listing
      = { no_models := 0, models := some [] } :=
  empty_listing .big ⟨0, none⟩ ⟨5, none⟩ (fun _ => none) (fun _ => true) rfl rfl rfl

/-- C4 as stated fails: when `calloc(0, sizeof(struct igre_model))` returns
`NULL`, loading the 8 bytes of the empty listing returns the allocation
error and leaves a null model array. -/
theorem empty_listing_null_calloc :
    (igre_load_imol .little (some (encode_u64 .little 0)) (fun _ => false) ⟨0, none⟩).status
      = IGRE_MEMORY_ALLOCATION_ERROR ∧
    (igre_load_imol .little (some (encode_u64 .little 0)) (fun _ => false) ⟨0, none⟩).listing.models
      = none := by
  decide

/-- C5, the code at the failing input: a file declaring one model with a
2-byte name and no polygons, but holding only 1 name byte. The name read
obtains 1 byte of the 2 requested, and `igre_load_imol` returns success with
the second name byte left at zero. -/
theorem short_name_read_accepted :
    igre_load_imol .little
        (some (encode_u64 .little 1 ++ encode_u64 .little 2 ++ encode_u64 .little 0 ++ [65]))
        (fun _ => true) ⟨0, none⟩
      = { status := IGRE_OPERATION_SUCCESS
          listing := ⟨1, some [⟨2, 0, some [65, 0], some []⟩]⟩
          trace := [.fopen true, .fread 8 1 8, .calloc 1 32 true, .fread 8 1 8, .fread 8 1 8,
            .calloc 2 1 true, .calloc 0 75 true, .fread 1 2 1, .fread 75 0 0, .fclose] } := by
  decide

/-- C6, amended: for every model count `N > 0`, loading a file that consists
of exactly the 8-byte encoding of `N`, provided the allocation of the model
array returns a buffer, returns the read error; the listing it leaves has
model count `N`, so it is not an empty listing. -/
theorem truncated_file (e : byte_order) (N : Nat) (alloc : Nat → Bool)
    (l0 : igre_model_listing) (hN : 0 < N) (hlt : N < 2 ^ 64) (ha : alloc 0 = true) :
    (igre_load_imol e (some (encode_u64 e N)) alloc l0).status = IGRE_FILE_READ_ERROR ∧
    (igre_load_imol e (some (encode_u64 e N)) alloc l0).listing.no_models = N := by
  have l8 := encode_u64_length e N
  have t8 : (encode_u64 e N).take 8 = encode_u64 e N := by rw [← l8, List.take_length]
  have d8 : (encode_u64 e N).drop 8 = [] := by rw [← l8, List.drop_length]
  have dN := decode_encode_u64 e N hlt
  obtain ⟨k, rfl⟩ : ∃ k, N = k + 1 := ⟨N - 1, by omega⟩
  simp [igre_load_imol, fread, calloc, items, sizeof_u64, t8, d8, l8, overlay_u64, dN, ha,
    load_loop, load_model]

/-- Witness of C6 on the count 3. -/
theorem truncated_file_witness :
    (igre_load_imol .little (some (encode_u64 .little 3)) (fun _ => true) ⟨0, none⟩).status
      = IGRE_FILE_READ_ERROR ∧
    (igre_load_imol .little (some (encode_u64 .little 3)) (fun _ => true) ⟨0, none⟩).listing.no_models
      = 3 :=
  truncated_file .little 3 (fun _ => true) ⟨0, none⟩ (by decide) (by decide) rfl

/-- C6 as stated fails: for the count `2 ^ 63`, whose model array
`calloc` cannot provide, loading the 8-byte file returns the allocation
error, not the read error. -/
theorem truncated_file_null_calloc :
    (igre_load_imol .little (some (encode_u64 .little (2 ^ 63))) (fun _ => false)
      ⟨0, none⟩).status = IGRE_MEMORY_ALLOCATION_ERROR := by
  decide

/-- C7: when the file cannot be opened, `igre_load_imol` returns the open
error having called nothing but `fopen` (no allocation) and leaves the
caller's listing as it was, and `igre_store_imol` returns the open error
having written no byte; when the file opens, neither returns the open
error. -/
theorem open_failure (e : byte_order) (alloc : Nat → Bool) (wr : Nat → Option Nat)
    (l0 l : igre_model_listing) (bytes : List Nat) :
    igre_load_imol e none alloc l0
      = { status := IGRE_FILE_OPEN_ERROR, listing := l0, trace := [.fopen false] } ∧
    igre_store_imol e false wr l
      = some { status := IGRE_FILE_OPEN_ERROR, written := [], trace := [.fopen false] } ∧
    (igre_load_imol e (some bytes) alloc l0).status ≠ IGRE_FILE_OPEN_ERROR ∧
    (igre_store_imol e true wr l).map (fun w => w.status) ≠ some IGRE_FILE_OPEN_ERROR := by
  refine ⟨rfl, rfl, ?_, ?_⟩
  · rcases igre_load_imol_shape e bytes alloc l0 with ⟨h | h, _⟩ | ⟨h, _⟩ <;>
      rw [h] <;> decide
  · intro h
    obtain ⟨w, hw, hst⟩ := Option.map_eq_some'.mp h
    rcases igre_store_imol_status e true wr l w hw with ⟨ho, _⟩ | ⟨_, h1 | h1⟩
    · cases ho
    · rw [h1] at hst; cases hst
    · rw [h1] at hst; cases hst

/-- C8: the file opening, `igre_store_imol` returns on every valid listing;
and whenever it returns, it returns success exactly when none of the writes
it issued was short, and otherwise it returns the write error, the short
write being the first short one and the last call before `fclose`; it never
returns the read error or the allocation error. -/
theorem store_result_status (e : byte_order) (wr : Nat → Option Nat)
    (l : igre_model_listing) :
    (valid_listing l → ∃ w, igre_store_imol e true wr l = some w) ∧
    ∀ w, igre_store_imol e true wr l = some w →
      (w.status = IGRE_OPERATION_SUCCESS ↔ ∀ ev ∈ w.trace, short_write ev = false) ∧
      (w.status ≠ IGRE_OPERATION_SUCCESS →
        w.status = IGRE_FILE_WRITE_ERROR ∧
        ∃ pre ev, w.trace = pre ++ [ev, .fclose] ∧ short_write ev = true ∧
          ∀ ev' ∈ pre, short_write ev' = false ∧ ev' ≠ .fclose) ∧
      w.status ≠ IGRE_FILE_READ_ERROR ∧ w.status ≠ IGRE_MEMORY_ALLOCATION_ERROR := by
  refine ⟨fun hv => ?_, fun w hs => ?_⟩
  · obtain ⟨w, hs, _⟩ := igre_store_imol_spec e wr l hv
    exact ⟨w, hs⟩
  rcases igre_store_imol_shape e wr l w hs with
    ⟨hok, pre, hpre, hclean⟩ | ⟨hbad, pre, ev, hpre, hev, hclean⟩
  · refine ⟨⟨fun _ ev hev => ?_, fun _ => hok⟩, fun h => absurd hok h, ?_, ?_⟩
    · rw [hpre] at hev
      rcases List.mem_append.mp hev with h | h
      · exact (hclean ev h).1
      · rw [List.mem_singleton.mp h]; rfl
    · rw [hok]; decide
    · rw [hok]; decide
  · refine ⟨⟨fun h => ?_, fun h => ?_⟩, fun _ => ⟨hbad, pre, ev, hpre, hev, hclean⟩, ?_, ?_⟩
    · rw [hbad] at h; cases h
    · have := h ev (by rw [hpre]; simp)
      rw [hev] at this; cases this
    · rw [hbad]; decide
    · rw [hbad]; decide

/-- Witness of C8 on the two-model scenario, the write of the first name
getting only 1 of its 2 bytes into the file. -/
theorem store_result_status_witness :
    (IGRE_FILE_WRITE_ERROR = IGRE_OPERATION_SUCCESS ↔
      ∀ ev ∈ [io_call.fopen true, .fwrite 8 1 8, .fwrite 8 1 8, .fwrite 8 1 8, .fwrite 1 2 1,
        .fclose], short_write ev = false) ∧
    (IGRE_FILE_WRITE_ERROR ≠ IGRE_OPERATION_SUCCESS →
      IGRE_FILE_WRITE_ERROR = IGRE_FILE_WRITE_ERROR ∧
      ∃ pre ev, [io_call.fopen true, .fwrite 8 1 8, .fwrite 8 1 8, .fwrite 8 1 8, .fwrite 1 2 1,
          .fclose] = pre ++ [ev, .fclose] ∧ short_write ev = true ∧
        ∀ ev' ∈ pre, short_write ev' = false ∧ ev' ≠ .fclose) ∧
    IGRE_FILE_WRITE_ERROR ≠ IGRE_FILE_READ_ERROR ∧
    IGRE_FILE_WRITE_ERROR ≠ IGRE_MEMORY_ALLOCATION_ERROR :=
  (store_result_status .little (fun k => if k = 3 then some 1 else none) scenario_listing).2
    ⟨IGRE_FILE_WRITE_ERROR,
      encode_u64 .little 2 ++ encode_u64 .little 2 ++ encode_u64 .little 1 ++ [65],
      [.fopen true, .fwrite 8 1 8, .fwrite 8 1 8, .fwrite 8 1 8, .fwrite 1 2 1, .fclose]⟩
    (by decide)

/-- C9: whenever an allocation of `igre_load_imol` fails (the model array, a
name buffer or a polygon array), the call returns the allocation error and
the failed `calloc` is its last library call before `fclose`, no allocation
having failed before it: no further read or allocation is made. And
`igre_load_imol` never returns the write error. -/
theorem load_allocation_failure (e : byte_order) (file : Option (List Nat))
    (alloc : Nat → Bool) (l0 : igre_model_listing) :
    ((∃ ev ∈ (igre_load_imol e file alloc l0).trace, failed_calloc ev = true) →
      (igre_load_imol e file alloc l0).status = IGRE_MEMORY_ALLOCATION_ERROR ∧
      ∃ pre ev, (igre_load_imol e file alloc l0).trace = pre ++ [ev, .fclose] ∧
        failed_calloc ev = true ∧ ∀ ev' ∈ pre, failed_calloc ev' = false ∧ ev' ≠ .fclose) ∧
    (igre_load_imol e file alloc l0).status ≠ IGRE_FILE_WRITE_ERROR := by
  cases file with
  | none =>
    refine ⟨?_, by simp [igre_load_imol]⟩
    rintro ⟨ev, hev, hf⟩
    simp only [igre_load_imol, List.mem_singleton] at hev
    subst hev
    cases hf
  | some bytes =>
    rcases igre_load_imol_shape e bytes alloc l0 with
      ⟨hst, pre, hpre, hclean⟩ | ⟨hst, pre, ev, hpre, hev, hclean⟩
    · refine ⟨?_, by rcases hst with h | h <;> rw [h] <;> decide⟩
      rintro ⟨ev, hev, hf⟩
      rw [hpre] at hev
      rcases List.mem_append.mp hev with h | h
      · rw [(hclean ev h).1] at hf; cases hf
      · rw [List.mem_singleton.mp h] at hf; cases hf
    · exact ⟨fun _ => ⟨hst, pre, ev, hpre, hev, hclean⟩, by rw [hst]; decide⟩

/-- Witness of C9: the model array is allocated, the name buffer of the
first model is not. -/
theorem load_allocation_failure_witness :
    (igre_load_imol .little (some (listing_file .little scenario_listing))
      (fun k => decide (k = 0)) ⟨0, none⟩).status = IGRE_MEMORY_ALLOCATION_ERROR ∧
    ∃ pre ev, (igre_load_imol .little (some (listing_file .little scenario_listing))
        (fun k => decide (k = 0)) ⟨0, none⟩).trace = pre ++ [ev, .fclose] ∧
      failed_calloc ev = true ∧ ∀ ev' ∈ pre, failed_calloc ev' = false ∧ ev' ≠ .fclose :=
  (load_allocation_failure .little (some (listing_file .little scenario_listing))
    (fun k => decide (k = 0)) ⟨0, none⟩).1 ⟨.calloc 2 1 false, by decide, rfl⟩

/-- C10, amended: for every byte stream that matches the format grammar
exactly and in which every name length is at least 1, with every allocation
and every write succeeding, `igre_load_imol` returns success and
`igre_store_imol` of the loaded listing returns success having written
exactly the same byte stream. -/
theorem load_store_round_trip (e : byte_order) (bytes : List Nat) (alloc : Nat → Bool)
    (wr : Nat → Option Nat) (l0 : igre_model_listing)
    (hb : ∀ b ∈ bytes, b < 256) (hshape : listing_shape e 1 bytes = true)
    (ha : ∀ k, alloc k = true) (hw : ∀ k, wr k = none) :
    (igre_load_imol e (some bytes) alloc l0).status = IGRE_OPERATION_SUCCESS ∧
    ∃ w, igre_store_imol e true wr (igre_load_imol e (some bytes) alloc l0).listing = some w ∧
      w.status = IGRE_OPERATION_SUCCESS ∧ w.written = bytes := by
  obtain ⟨l, hv, h1, hfile⟩ := listing_shape_file e bytes hb hshape
  have hload := igre_load_imol_listing_file e alloc ha l hv h1 [] l0
  rw [List.append_nil, ← hfile] at hload
  refine ⟨hload.1, ?_⟩
  rw [hload.2]
  obtain ⟨w, hs, hc, hok⟩ := igre_store_imol_spec e wr _ (valid_listing_loaded l hv)
  rcases hc with ⟨hst, hwr, _⟩ | ⟨hbad, _⟩
  · exact ⟨w, hs, hst, by rw [hwr, listing_file_loaded, hfile]⟩
  · rw [hok hw] at hbad; cases hbad

/-- Witness of C10 on a stream of one model with the name "A\0" and no
polygons. -/
theorem load_store_round_trip_witness :
    (igre_load_imol .little
      (some (encode_u64 .little 1 ++ encode_u64 .little 2 ++ encode_u64 .little 0 ++ [65, 0]))
      (fun _ => true) ⟨0, none⟩).status = IGRE_OPERATION_SUCCESS ∧
    ∃ w, igre_store_imol .little true (fun _ => none)
        (igre_load_imol .little
          (some (encode_u64 .little 1 ++ encode_u64 .little 2 ++ encode_u64 .little 0 ++ [65, 0]))
          (fun _ => true) ⟨0, none⟩).listing = some w ∧
      w.status = IGRE_OPERATION_SUCCESS ∧
      w.written
        = encode_u64 .little 1 ++ encode_u64 .little 2 ++ encode_u64 .little 0 ++ [65, 0] :=
  load_store_round_trip .little
    (encode_u64 .little 1 ++ encode_u64 .little 2 ++ encode_u64 .little 0 ++ [65, 0])
    (fun _ => true) (fun _ => none) ⟨0, none⟩ (by decide) (by decide) (fun _ => rfl)
    (fun _ => rfl)

/-- C10 as stated fails: the 24 bytes declaring one model with name length 0
and no polygons match the grammar exactly, yet `igre_load_imol` returns the
read error on them. -/
theorem empty_name_stream_rejected :
    listing_shape .little 0
      (encode_u64 .little 1 ++ encode_u64 .little 0 ++ encode_u64 .little 0) = true ∧
    (igre_load_imol .little
      (some (encode_u64 .little 1 ++ encode_u64 .little 0 ++ encode_u64 .little 0))
      (fun _ => true) ⟨0, none⟩).status = IGRE_FILE_READ_ERROR := by
  decide

/-- C11: replaying the library calls of `igre_load_imol` and of
`igre_store_imol` on the set of open file handles, for every file, listing
and pattern of read, write and allocation outcomes, no call uses a handle
that is not open, `fopen` is called exactly once, `fclose` exactly once when
the open succeeded and never otherwise, and the open handles after the call
are those before it; when the open succeeded, `fclose` is the last call.
`igre_store_imol` returns on every valid listing. -/
theorem file_handle_released (e : byte_order) (pick : List Nat → Nat) (hs : List Nat)
    (file : Option (List Nat)) (alloc : Nat → Bool) (l0 : igre_model_listing)
    (opens : Bool) (wr : Nat → Option Nat) (l : igre_model_listing) :
    (handles_after pick (igre_load_imol e file alloc l0).trace
        { open_handles := hs, f := none, fopens := 0, fcloses := 0 }
      = some { open_handles := hs, f := file.map (fun _ => pick hs), fopens := 1,
               fcloses := if file.isSome then 1 else 0 } ∧
      (file.isSome → (igre_load_imol e file alloc l0).trace.getLast? = some .fclose)) ∧
    (valid_listing l → ∃ w, igre_store_imol e opens wr l = some w) ∧
    ∀ w, igre_store_imol e opens wr l = some w →
      handles_after pick w.trace { open_handles := hs, f := none, fopens := 0, fcloses := 0 }
        = some { open_handles := hs, f := if opens then some (pick hs) else none, fopens := 1,
                 fcloses := if opens then 1 else 0 } ∧
      (opens = true → w.trace.getLast? = some .fclose) := by
  refine ⟨?_, ?_, ?_⟩
  · cases file with
    | none => exact ⟨rfl, fun h => by cases h⟩
    | some bytes =>
      refine ⟨igre_load_imol_handles e pick hs bytes alloc l0, fun _ => ?_⟩
      rcases igre_load_imol_shape e bytes alloc l0 with ⟨_, pre, hpre, _⟩ | ⟨_, pre, ev, hpre, _⟩
      · rw [hpre]; simp
      · rw [hpre]; simp
  · intro hv
    cases opens with
    | false => exact ⟨_, rfl⟩
    | true =>
      obtain ⟨w, hw, _⟩ := igre_store_imol_spec e wr l hv
      exact ⟨w, hw⟩
  · intro w hw
    cases opens with
    | false =>
      simp only [igre_store_imol, if_true] at hw
      cases hw
      exact ⟨rfl, fun h => by cases h⟩
    | true =>
      refine ⟨igre_store_imol_handles e pick hs wr l w hw, fun _ => ?_⟩
      rcases igre_store_imol_shape e wr l w hw with ⟨_, pre, hpre, _⟩ | ⟨_, pre, ev, hpre, _⟩
      · rw [hpre]; simp
      · rw [hpre]; simp

/-- C12: with the heap an explicit list of live buffers, none listed twice,
and `calloc` returning addresses that are not live: after every run of
`igre_load_imol` in which the model array was allocated, whatever the run
returns, the live buffers are those before the load and the buffers the load
allocated, which are the model array and the name buffers and polygon arrays
its slots point to; `igre_free_imol` on the resulting listing is defined and
frees exactly these, each once: the name buffer and the polygon array of
every slot in order, then the model array. The live buffers after it are
those before the load. -/
theorem free_releases_load (e : byte_order) (bytes : List Nat) (alloc : Nat → Bool)
    (pick : List Nat → Nat) (l0 : igre_model_listing_at) (live0 : List Nat)
    (hpick : ∀ hs, pick hs ∉ hs) (hn : live0.Nodup) (h8 : 8 ≤ bytes.length)
    (ha : alloc 0 = true) :
    ∃ arr st,
      (igre_load_imol_at e (some bytes) alloc pick l0 live0).listing.models = some arr ∧
      (igre_load_imol_at e (some bytes) alloc pick l0 live0).live
        = live0 ++ arr.addr :: (arr.data.map slot_buffers).flatten ∧
      (∀ a ∈ arr.addr :: (arr.data.map slot_buffers).flatten, a ∉ live0) ∧
      igre_free_imol (igre_load_imol_at e (some bytes) alloc pick l0 live0).listing
          (igre_load_imol_at e (some bytes) alloc pick l0 live0).live = some st ∧
      st.freed = (arr.data.map slot_buffers).flatten ++ [arr.addr] ∧
      st.freed.Nodup ∧
      st.live = live0 ∧
      ∀ a ∈ st.freed, a ∉ st.live := by
  obtain ⟨arr, h1, h2, h3, h4, h5⟩ :=
    igre_free_imol_after_load e bytes alloc pick hpick l0 live0 hn h8 ha
  refine ⟨arr, _, h1, h2, h4, h5, rfl, ?_, rfl, ?_⟩
  · have hp : ([arr.addr] ++ (arr.data.map slot_buffers).flatten).Perm
        ((arr.data.map slot_buffers).flatten ++ [arr.addr]) := List.perm_append_comm
    exact hp.nodup_iff.mp h3
  · intro a ha'
    have hp : ([arr.addr] ++ (arr.data.map slot_buffers).flatten).Perm
        ((arr.data.map slot_buffers).flatten ++ [arr.addr]) := List.perm_append_comm
    exact h4 a (hp.mem_iff.mpr ha')

/-- Witness of C12: the two-model scenario, the polygon array of the second
model failing to allocate, on a heap with two live buffers. -/
theorem free_releases_load_witness :
    ∃ arr st,
      (igre_load_imol_at .little (some (listing_file .little scenario_listing))
        (fun k => decide (k ≠ 4)) next_address ⟨0, none⟩ [5, 9]).listing.models = some arr ∧
      (igre_load_imol_at .little (some (listing_file .little scenario_listing))
        (fun k => decide (k ≠ 4)) next_address ⟨0, none⟩ [5, 9]).live
        = [5, 9] ++ arr.addr :: (arr.data.map slot_buffers).flatten ∧
      (∀ a ∈ arr.addr :: (arr.data.map slot_buffers).flatten, a ∉ [5, 9]) ∧
      igre_free_imol
          (igre_load_imol_at .little (some (listing_file .little scenario_listing))
            (fun k => decide (k ≠ 4)) next_address ⟨0, none⟩ [5, 9]).listing
          (igre_load_imol_at .little (some (listing_file .little scenario_listing))
            (fun k => decide (k ≠ 4)) next_address ⟨0, none⟩ [5, 9]).live = some st ∧
      st.freed = (arr.data.map slot_buffers).flatten ++ [arr.addr] ∧
      st.freed.Nodup ∧
      st.live = [5, 9] ∧
      ∀ a ∈ st.freed, a ∉ st.live :=
  free_releases_load .little (listing_file .little scenario_listing) (fun k => decide (k ≠ 4))
    next_address ⟨0, none⟩ [5, 9] next_address_not_mem (by decide) (by decide) rfl

/-- C13: with the heap an explicit list of live buffers, none listed twice,
and `calloc` returning addresses that are not live: for every run of
`igre_load_imol` that allocates the model array and then returns the read
error or the allocation error, with `i` the value of the loop counter at the
return, the model array has `no_models` slots, `i < no_models`, every slot
`j` with `i < j < no_models` has name length 0, polygon count 0 and two null
pointers, and in slot `i` the name pointer and the polygon pointer are each
null or the address of a buffer that was not live before the run and is
among the buffers the run allocated exactly once. -/
theorem unreached_slots_zero (e : byte_order) (bytes : List Nat) (alloc : Nat → Bool)
    (pick : List Nat → Nat) (l0 : igre_model_listing_at) (live0 : List Nat)
    (hpick : ∀ hs, pick hs ∉ hs) (hn : live0.Nodup) (h8 : 8 ≤ bytes.length)
    (ha : alloc 0 = true)
    (hfail : (igre_load_imol_at e (some bytes) alloc pick l0 live0).status
        = IGRE_FILE_READ_ERROR ∨
      (igre_load_imol_at e (some bytes) alloc pick l0 live0).status
        = IGRE_MEMORY_ALLOCATION_ERROR) :
    ∃ arr allocated,
      (igre_load_imol_at e (some bytes) alloc pick l0 live0).listing.no_models
        = decode_u64 e (bytes.take 8) ∧
      (igre_load_imol_at e (some bytes) alloc pick l0 live0).listing.models = some arr ∧
      arr.data.length = (igre_load_imol_at e (some bytes) alloc pick l0 live0).listing.no_models ∧
      (igre_load_imol_at e (some bytes) alloc pick l0 live0).live = live0 ++ allocated ∧
      (igre_load_imol_at e (some bytes) alloc pick l0 live0).reached
        < (igre_load_imol_at e (some bytes) alloc pick l0 live0).listing.no_models ∧
      (∀ j, (igre_load_imol_at e (some bytes) alloc pick l0 live0).reached < j →
        j < (igre_load_imol_at e (some bytes) alloc pick l0 live0).listing.no_models →
        arr.data.get? j
          = some { name_size := 0, no_polygons := 0, name := none, polygons := none }) ∧
      ∃ m, arr.data.get? (igre_load_imol_at e (some bytes) alloc pick l0 live0).reached = some m ∧
        (m.name = none ∨
          ∃ b, m.name = some b ∧ b.addr ∉ live0 ∧ allocated.count b.addr = 1) ∧
        (m.polygons = none ∨
          ∃ b, m.polygons = some b ∧ b.addr ∉ live0 ∧ allocated.count b.addr = 1) := by
  obtain ⟨new, n0, h1, h2, h3, h4, h5⟩ :=
    igre_load_imol_at_buffers e bytes alloc pick hpick l0 live0 hn h8 ha
  have hr : (igre_load_imol_at e (some bytes) alloc pick l0 live0).reached + 1 = new.length := by
    rcases h5 with ⟨hs, _, _⟩ | ⟨_, hr⟩
    · rw [hs] at hfail
      rcases hfail with h | h <;> cases h
    · exact hr
  rw [h3, List.append_assoc] at h4
  have hnd := List.nodup_append.mp h4
  have hslot : ∀ m ∈ new, ∀ a ∈ slot_buffers m,
      a ∉ live0 ∧ ([pick live0] ++ (new.map slot_buffers).flatten).count a = 1 := by
    intro m hm a ha'
    have hmem : a ∈ [pick live0] ++ (new.map slot_buffers).flatten :=
      List.mem_append_right _
        (List.mem_flatten.mpr ⟨slot_buffers m, List.mem_map.mpr ⟨m, hm, rfl⟩, ha'⟩)
    exact ⟨fun hl => hnd.2.2 hl hmem, List.count_eq_one_of_mem hnd.2.1 hmem⟩
  have hlt : (igre_load_imol_at e (some bytes) alloc pick l0 live0).reached < new.length := by
    omega
  refine ⟨{ addr := pick live0, data := new ++ List.replicate n0 zero_model_at },
    [pick live0] ++ (new.map slot_buffers).flatten, by rw [h1], by rw [h1], ?_, ?_, ?_, ?_, ?_⟩
  · rw [h1]; simp only [List.length_append, List.length_replicate]; exact h2
  · rw [h3, List.append_assoc]
  · rw [h1]; show _ < decode_u64 e (bytes.take 8); omega
  · intro j hj hjN
    rw [h1] at hjN
    have hjN' : j < decode_u64 e (bytes.take 8) := hjN
    have hge : new.length ≤ j := by omega
    simp only [List.get?_eq_getElem?]
    rw [List.getElem?_append_right hge, List.getElem?_replicate, if_pos (by omega)]
    rfl
  · refine ⟨new.get ⟨_, hlt⟩, ?_, ?_, ?_⟩
    · simp only [List.get?_eq_getElem?]
      rw [List.getElem?_append_left hlt, List.getElem?_eq_getElem hlt]
      rfl
    · cases hname : (new.get ⟨_, hlt⟩).name with
      | none => exact Or.inl rfl
      | some b =>
        refine Or.inr ⟨b, rfl, hslot _ (List.get_mem new _ hlt) b.addr ?_⟩
        rw [slot_buffers, hname]; simp
    · cases hpol : (new.get ⟨_, hlt⟩).polygons with
      | none => exact Or.inl rfl
      | some b =>
        refine Or.inr ⟨b, rfl, hslot _ (List.get_mem new _ hlt) b.addr ?_⟩
        rw [slot_buffers, hpol]; simp

/-- Witness of C13: the two-model scenario, the polygon array of the first
model failing to allocate, on a heap with two live buffers. -/
theorem unreached_slots_zero_witness :
    ∃ arr allocated,
      (igre_load_imol_at .little (some (listing_file .little scenario_listing))
        (fun k => decide (k ≠ 2)) next_address ⟨0, none⟩ [5, 9]).listing.no_models
        = decode_u64 .little ((listing_file .little scenario_listing).take 8) ∧
      (igre_load_imol_at .little (some (listing_file .little scenario_listing))
        (fun k => decide (k ≠ 2)) next_address ⟨0, none⟩ [5, 9]).listing.models = some arr ∧
      arr.data.length
        = (igre_load_imol_at .little (some (listing_file .little scenario_listing))
            (fun k => decide (k ≠ 2)) next_address ⟨0, none⟩ [5, 9]).listing.no_models ∧
      (igre_load_imol_at .little (some (listing_file .little scenario_listing))
        (fun k => decide (k ≠ 2)) next_address ⟨0, none⟩ [5, 9]).live = [5, 9] ++ allocated ∧
      (igre_load_imol_at .little (some (listing_file .little scenario_listing))
        (fun k => decide (k ≠ 2)) next_address ⟨0, none⟩ [5, 9]).reached
        < (igre_load_imol_at .little (some (listing_file .little scenario_listing))
            (fun k => decide (k ≠ 2)) next_address ⟨0, none⟩ [5, 9]).listing.no_models ∧
      (∀ j, (igre_load_imol_at .little (some (listing_file .little scenario_listing))
          (fun k => decide (k ≠ 2)) next_address ⟨0, none⟩ [5, 9]).reached < j →
        j < (igre_load_imol_at .little (some (listing_file .little scenario_listing))
          (fun k => decide (k ≠ 2)) next_address ⟨0, none⟩ [5, 9]).listing.no_models →
        arr.data.get? j
          = some { name_size := 0, no_polygons := 0, name := none, polygons := none }) ∧
      ∃ m, arr.data.get?
          (igre_load_imol_at .little (some (listing_file .little scenario_listing))
            (fun k => decide (k ≠ 2)) next_address ⟨0, none⟩ [5, 9]).reached = some m ∧
        (m.name = none ∨
          ∃ b, m.name = some b ∧ b.addr ∉ [5, 9] ∧ allocated.count b.addr = 1) ∧
        (m.polygons = none ∨
          ∃ b, m.polygons = some b ∧ b.addr ∉ [5, 9] ∧ allocated.count b.addr = 1) :=
  unreached_slots_zero .little (listing_file .little scenario_listing) (fun k => decide (k ≠ 2))
    next_address ⟨0, none⟩ [5, 9] next_address_not_mem (by decide) (by decide) rfl
    (Or.inr (by decide))

/-- C14: for every listing and every outcome of opening and of the writes,
`igre_store_imol`, which is given the listing and hands back a status only,
makes no library call but `fopen`, `fwrite` and `fclose`: it calls neither
`fread`, which writes to the caller's memory, nor `calloc`, nor `free`. The
listing and the live heap buffers after these calls are those before them.
The call returns on every valid listing, and its status is success, the open
error or the write error. -/
theorem store_leaves_memory (e : byte_order) (opens : Bool) (wr : Nat → Option Nat)
    (l : igre_model_listing) (heap : List Nat) :
    (valid_listing l → ∃ w, igre_store_imol e opens wr l = some w) ∧
    ∀ w, igre_store_imol e opens wr l = some w →
      (w.status = IGRE_OPERATION_SUCCESS ∨ w.status = IGRE_FILE_OPEN_ERROR ∨
        w.status = IGRE_FILE_WRITE_ERROR) ∧
      (∀ ev ∈ w.trace, leaves_memory ev = true) ∧
      (∀ nmemb size ok, io_call.calloc nmemb size ok ∉ w.trace) ∧
      (∀ size nmemb got, io_call.fread size nmemb got ∉ w.trace) ∧
      memory_after w.trace (l, heap) = some (l, heap) := by
  refine ⟨fun hv => ?_, fun w hw => ?_⟩
  · cases opens with
    | false => exact ⟨_, rfl⟩
    | true =>
      obtain ⟨w, hw, _⟩ := igre_store_imol_spec e wr l hv
      exact ⟨w, hw⟩
  · have hl := igre_store_imol_leaves_memory e opens wr l w hw
    refine ⟨?_, hl, fun nmemb size ok hm => ?_, fun size nmemb got hm => ?_,
      memory_after_of_leaves _ _ hl⟩
    · rcases igre_store_imol_status e opens wr l w hw with ⟨_, rfl⟩ | ⟨_, h | h⟩
      · exact Or.inr (Or.inl rfl)
      · exact Or.inl h
      · exact Or.inr (Or.inr h)
    · have := hl _ hm
      simp [leaves_memory] at this
    · have := hl _ hm
      simp [leaves_memory] at this

/-- Witness of C14: storing the two-model scenario with every write complete
leaves the listing and a heap of two live buffers as they were. -/
theorem store_leaves_memory_witness :
    ∃ w, igre_store_imol .little true (fun _ => none) scenario_listing = some w ∧
      w.status = IGRE_OPERATION_SUCCESS ∧
      memory_after w.trace (scenario_listing, [5, 9]) = some (scenario_listing, [5, 9]) := by
  obtain ⟨w, hw⟩ := (store_leaves_memory .little true (fun _ => none) scenario_listing [5, 9]).1
    (by decide)
  refine ⟨w, hw, ?_,
    ((store_leaves_memory .little true (fun _ => none) scenario_listing [5, 9]).2 w hw).2.2.2.2⟩
  obtain ⟨r, hr, _, hok⟩ := igre_store_imol_spec .little (fun _ => none) scenario_listing
    (by decide)
  rw [hr] at hw
  cases hw
  exact hok (fun _ => rfl)

/-- C15: for every file and allocation outcome on which `igre_load_imol`
returns success, the file was opened and holds at least the 8 bytes of the
model count, the resulting listing has the model count decoded from them and
a model array of exactly that many slots, the name lengths and polygon counts
of the slots are, in order, those decoded from the stream at the offsets of
the successive model records, and in every slot the name buffer holds exactly
`name_size` bytes and the polygon array exactly `no_polygons` records. -/
theorem loaded_listing_well_formed (e : byte_order) (file : Option (List Nat))
    (alloc : Nat → Bool) (l0 : igre_model_listing)
    (h : (igre_load_imol e file alloc l0).status = IGRE_OPERATION_SUCCESS) :
    ∃ bytes ms, file = some bytes ∧ 8 ≤ bytes.length ∧
      (igre_load_imol e file alloc l0).listing.no_models = decode_u64 e (bytes.take 8) ∧
      (igre_load_imol e file alloc l0).listing.models = some ms ∧
      ms.length = (igre_load_imol e file alloc l0).listing.no_models ∧
      ms.map (fun m => (m.name_size, m.no_polygons)) =
        (stream_models e (decode_u64 e (bytes.take 8)) (bytes.drop 8)).map
          (fun x => (x.1, x.2.1)) ∧
      ∀ m ∈ ms, (∃ nm, m.name = some nm ∧ nm.length = m.name_size) ∧
        ∃ ps, m.polygons = some ps ∧ ps.length = m.no_polygons := by
  obtain ⟨bytes, ms, hf, h8, hl, hlen, hmap, hall⟩ := igre_load_imol_success e file alloc l0 h
  refine ⟨bytes, ms, hf, h8, by rw [hl], by rw [hl], by rw [hl]; exact hlen, ?_,
    fun m hm => (hall m hm).2⟩
  have := congrArg (List.map (fun x : Nat × Nat × Option (List Nat) => (x.1, x.2.1))) hmap
  simpa [List.map_map, Function.comp_def] using this

/-- Witness of C15: the file of the two-model scenario, every allocation
succeeding. -/
theorem loaded_listing_well_formed_witness :
    ∃ bytes ms, some (listing_file .little scenario_listing) = some bytes ∧ 8 ≤ bytes.length ∧
      (igre_load_imol .little (some (listing_file .little scenario_listing)) (fun _ => true)
        ⟨0, none⟩).listing.no_models = decode_u64 .little (bytes.take 8) ∧
      (igre_load_imol .little (some (listing_file .little scenario_listing)) (fun _ => true)
        ⟨0, none⟩).listing.models = some ms ∧
      ms.length = (igre_load_imol .little (some (listing_file .little scenario_listing))
        (fun _ => true) ⟨0, none⟩).listing.no_models ∧
      ms.map (fun m => (m.name_size, m.no_polygons)) =
        (stream_models .little (decode_u64 .little (bytes.take 8)) (bytes.drop 8)).map
          (fun x => (x.1, x.2.1)) ∧
      ∀ m ∈ ms, (∃ nm, m.name = some nm ∧ nm.length = m.name_size) ∧
        ∃ ps, m.polygons = some ps ∧ ps.length = m.no_polygons :=
  loaded_listing_well_formed .little (some (listing_file .little scenario_listing))
    (fun _ => true) ⟨0, none⟩ (by decide)

/-- C16: for every stream of bytes that matches the format grammar exactly
with every declared name length at least 1, with every allocation succeeding,
`igre_load_imol` returns success, whatever the name bytes are, the last one
included; the stream declares `no_models` models, and the loaded names are,
in order, the `L` bytes found in the stream after the two counts of each
model, unchanged. -/
theorem name_terminator_not_validated (e : byte_order) (bytes : List Nat) (alloc : Nat → Bool)
    (l0 : igre_model_listing) (hb : ∀ b ∈ bytes, b < 256)
    (hshape : listing_shape e 1 bytes = true) (ha : ∀ k, alloc k = true) :
    (igre_load_imol e (some bytes) alloc l0).status = IGRE_OPERATION_SUCCESS ∧
    (stream_models e (decode_u64 e (bytes.take 8)) (bytes.drop 8)).length
      = (igre_load_imol e (some bytes) alloc l0).listing.no_models ∧
    (∀ x ∈ stream_models e (decode_u64 e (bytes.take 8)) (bytes.drop 8),
      1 ≤ x.1 ∧ x.2.2.length = x.1) ∧
    ∃ ms, (igre_load_imol e (some bytes) alloc l0).listing.models = some ms ∧
      ms.map (fun m => (m.name_size, m.name)) =
        (stream_models e (decode_u64 e (bytes.take 8)) (bytes.drop 8)).map
          (fun x => (x.1, some x.2.2)) := by
  obtain ⟨l, hv, h1, hfile⟩ := listing_shape_file e bytes hb hshape
  have hload := igre_load_imol_listing_file e alloc ha l hv h1 [] l0
  rw [List.append_nil, ← hfile] at hload
  obtain ⟨hN, hlen, hms⟩ := hv
  have l1 := encode_u64_length e l.no_models
  have t1 : bytes.take 8 = encode_u64 e l.no_models := by
    rw [hfile, listing_file, ← l1, List.take_left]
  have s1 : bytes.drop 8 = ((contents l.models).map (model_record e)).flatten ++ [] := by
    rw [hfile, listing_file, ← l1, List.drop_left, List.append_nil]
  have hsm := stream_models_records e (contents l.models) hms []
  rw [hlen, ← s1] at hsm
  rw [t1, decode_encode_u64 e _ hN, hsm, hload.2]
  refine ⟨hload.1, by simp [loaded_listing, hlen], ?_, _, rfl, ?_⟩
  · intro x hx
    obtain ⟨m, hm, rfl⟩ := List.mem_map.mp hx
    exact ⟨h1 m hm, (hms m hm).2.2.1⟩
  · simp [loaded_listing, loaded_model, List.map_map, Function.comp_def]

/-- Witness of C16: a stream of one model without polygons whose name is the
two bytes "AB", the last of them not zero. -/
theorem name_terminator_not_validated_witness :
    (igre_load_imol .little
      (some (encode_u64 .little 1 ++ encode_u64 .little 2 ++ encode_u64 .little 0 ++ [65, 66]))
      (fun _ => true) ⟨0, none⟩).listing.models
      = some [{ name_size := 2, no_polygons := 0, name := some [65, 66], polygons := some [] }] ∧
    (igre_load_imol .little
      (some (encode_u64 .little 1 ++ encode_u64 .little 2 ++ encode_u64 .little 0 ++ [65, 66]))
      (fun _ => true) ⟨0, none⟩).status = IGRE_OPERATION_SUCCESS :=
  ⟨by decide,
   (name_terminator_not_validated .little
      (encode_u64 .little 1 ++ encode_u64 .little 2 ++ encode_u64 .little 0 ++ [65, 66])
      (fun _ => true) ⟨0, none⟩ (by decide) (by decide) (fun _ => rfl)).1⟩

/-- C17: with every allocation succeeding, `igre_load_imol` returns the read
error on every file in which a model record read in order declares the name
length 0, and in particular on every file made of a model count, fewer
complete model records than it counts and a name length 0, whatever follows;
for every file and allocation outcome, a listing returned with success has a
name length of at least 1 in every model; and on every valid listing holding
a model of name length 0, `igre_store_imol`, every write being complete,
returns success having written the file of the listing, on which
`igre_load_imol`, every allocation succeeding, returns the read error. -/
theorem empty_name_rejected (e : byte_order) (alloc : Nat → Bool) (l0 : igre_model_listing) :
    (∀ bytes : List Nat, (∀ k, alloc k = true) →
      (∃ x ∈ stream_models e (decode_u64 e (bytes.take 8)) (bytes.drop 8), x.1 = 0) →
      (igre_load_imol e (some bytes) alloc l0).status = IGRE_FILE_READ_ERROR) ∧
    (∀ (N : Nat) (ms : List igre_model) (rest : List Nat), (∀ k, alloc k = true) →
      (∀ m ∈ ms, valid_model m) → ms.length < N → N < 2 ^ 64 →
      (igre_load_imol e
        (some (encode_u64 e N ++ (ms.map (model_record e)).flatten ++ encode_u64 e 0 ++ rest))
        alloc l0).status = IGRE_FILE_READ_ERROR) ∧
    (∀ file : Option (List Nat),
      (igre_load_imol e file alloc l0).status = IGRE_OPERATION_SUCCESS →
      ∀ m ∈ contents (igre_load_imol e file alloc l0).listing.models, 1 ≤ m.name_size) ∧
    (∀ (l : igre_model_listing) (wr : Nat → Option Nat), valid_listing l →
      (∃ m ∈ contents l.models, m.name_size = 0) →
      (∀ k, wr k = none) →
      ∃ w, igre_store_imol e true wr l = some w ∧ w.status = IGRE_OPERATION_SUCCESS ∧
        w.written = listing_file e l ∧
        ((∀ k, alloc k = true) →
          (igre_load_imol e (some w.written) alloc l0).status = IGRE_FILE_READ_ERROR)) := by
  refine ⟨fun bytes ha h0 => igre_load_imol_empty_name e bytes alloc ha l0 h0,
    fun N ms rest ha hv hlt hN => igre_load_imol_after_records e N ms rest alloc l0 hv hlt hN ha,
    fun file h m hm => ?_, fun l wr hv h0 hw => ?_⟩
  · obtain ⟨bytes, ms, _, _, hl, _, _, hall⟩ := igre_load_imol_success e file alloc l0 h
    rw [hl] at hm
    exact (hall m hm).1
  · obtain ⟨w, hs, hc, hok⟩ := igre_store_imol_spec e wr l hv
    rcases hc with ⟨hst, hwr, _⟩ | ⟨hbad, _⟩
    · refine ⟨w, hs, hst, hwr, fun ha => ?_⟩
      rw [hwr]
      exact igre_load_imol_listing_empty_name e l hv h0 alloc ha l0
    · rw [hok hw] at hbad; cases hbad

/-- Witness of C17: a listing of one model with an empty name and no
polygons is stored with success, and loading the 24 bytes written gives the
read error. -/
theorem empty_name_rejected_witness :
    ∃ w, igre_store_imol .little true (fun _ => none)
        ⟨1, some [{ name_size := 0, no_polygons := 0, name := some [], polygons := some [] }]⟩
        = some w ∧
      w.status = IGRE_OPERATION_SUCCESS ∧
      w.written = encode_u64 .little 1 ++ encode_u64 .little 0 ++ encode_u64 .little 0 ∧
      (igre_load_imol .little (some w.written) (fun _ => true) ⟨0, none⟩).status
        = IGRE_FILE_READ_ERROR := by
  obtain ⟨w, hs, hst, hwr, hld⟩ :=
    (empty_name_rejected .little (fun _ => true) ⟨0, none⟩).2.2.2
      ⟨1, some [{ name_size := 0, no_polygons := 0, name := some [], polygons := some [] }]⟩
      (fun _ => none) (by decide) (by decide) (fun _ => rfl)
  exact ⟨w, hs, hst, by rw [hwr]; decide, hld (fun _ => rfl)⟩

/-- C18, amended: for every valid listing in which every name length is at
least 1, every successful `igre_store_imol` of it and every byte sequence
`X`, with every allocation succeeding, `igre_load_imol` on the bytes written
followed by `X` returns success with the same listing as on the bytes
written alone, which is the stored listing with both buffers of every model
allocated. -/
theorem trailing_bytes_ignored (e : byte_order) (opens : Bool) (wr : Nat → Option Nat)
    (l : igre_model_listing) (w : store_result) (X : List Nat) (alloc : Nat → Bool)
    (l0 : igre_model_listing) (hv : valid_listing l) (h1 : names_nonempty l)
    (hs : igre_store_imol e opens wr l = some w) (hok : w.status = IGRE_OPERATION_SUCCESS)
    (ha : ∀ k, alloc k = true) :
    (igre_load_imol e (some (w.written ++ X)) alloc l0).status = IGRE_OPERATION_SUCCESS ∧
    (igre_load_imol e (some w.written) alloc l0).status = IGRE_OPERATION_SUCCESS ∧
    (igre_load_imol e (some (w.written ++ X)) alloc l0).listing
      = (igre_load_imol e (some w.written) alloc l0).listing ∧
    (igre_load_imol e (some (w.written ++ X)) alloc l0).listing = loaded_listing l := by
  have hwr : w.written = listing_file e l := by
    rcases igre_store_imol_status e opens wr l w hs with ⟨_, rfl⟩ | ⟨rfl, _⟩
    · cases hok
    · obtain ⟨r, hr, hc, _⟩ := igre_store_imol_spec e wr l hv
      rw [hr] at hs
      cases hs
      rcases hc with ⟨_, hwr, _⟩ | ⟨hbad, _⟩
      · exact hwr
      · rw [hok] at hbad; cases hbad
  have hX := igre_load_imol_listing_file e alloc ha l hv h1 X l0
  have h0 := igre_load_imol_listing_file e alloc ha l hv h1 [] l0
  rw [List.append_nil] at h0
  rw [hwr]
  exact ⟨hX.1, h0.1, by rw [hX.2, h0.2], hX.2⟩

/-- Witness of C18: the two-model scenario stored with every write complete,
followed by three more bytes. -/
theorem trailing_bytes_ignored_witness :
    (igre_load_imol .little (some (listing_file .little scenario_listing ++ [1, 2, 3]))
      (fun _ => true) ⟨0, none⟩).status = IGRE_OPERATION_SUCCESS ∧
    (igre_load_imol .little (some (listing_file .little scenario_listing)) (fun _ => true)
      ⟨0, none⟩).status = IGRE_OPERATION_SUCCESS ∧
    (igre_load_imol .little (some (listing_file .little scenario_listing ++ [1, 2, 3]))
      (fun _ => true) ⟨0, none⟩).listing
      = (igre_load_imol .little (some (listing_file .little scenario_listing)) (fun _ => true)
          ⟨0, none⟩).listing ∧
    (igre_load_imol .little (some (listing_file .little scenario_listing ++ [1, 2, 3]))
      (fun _ => true) ⟨0, none⟩).listing = loaded_listing scenario_listing :=
  trailing_bytes_ignored .little true (fun _ => none) scenario_listing
    { status := IGRE_OPERATION_SUCCESS, written := listing_file .little scenario_listing
      trace := (((igre_store_imol .little true (fun _ => none) scenario_listing).map
        (fun r => r.trace)).getD []) }
    [1, 2, 3] (fun _ => true) ⟨0, none⟩ (by decide) (by decide) (by decide) rfl (fun _ => rfl)

/-- C18 as stated fails: the two-model scenario is a valid listing with
every name length at least 1, yet on its file followed by three more bytes
`igre_load_imol` returns the allocation error when `calloc` returns `NULL`. -/
theorem trailing_bytes_null_calloc :
    valid_listing scenario_listing ∧ names_nonempty scenario_listing ∧
    (∃ w, igre_store_imol .little true (fun _ => none) scenario_listing = some w ∧
      w.status = IGRE_OPERATION_SUCCESS ∧
      (igre_load_imol .little (some (w.written ++ [1, 2, 3])) (fun _ => false) ⟨0, none⟩).status
        = IGRE_MEMORY_ALLOCATION_ERROR) := by
  refine ⟨by decide, by decide, ?_⟩
  obtain ⟨w, hs, hc, hok⟩ := igre_store_imol_spec .little (fun _ => none) scenario_listing
    (by decide)
  rcases hc with ⟨hst, hwr, _⟩ | ⟨hbad, _⟩
  · exact ⟨w, hs, hst, by rw [hwr]; decide⟩
  · rw [hok (fun _ => rfl)] at hbad; cases hbad

end IMOL
